import Mathlib

/-!
# CppCourse / Homework2 : `big_integer`

A shallow embedding of `src/Homework2/big_integer.cpp` and a verification of
its arithmetic, ordering and decimal conversion.

* `uint32_t` values are natural numbers below `2^32`; every wrapping machine
  operation carries an explicit `% 4294967296`.
* `std::vector<uint32_t>` is `List Nat`, least significant digit first.
* `std::string` is `List Char`.
* A C++ function that can throw, recurse without bound, or index a vector
  past its end returns `Except Exc _`.
-/

namespace CppCourse

/-- Ways in which a call does not return a value. -/
inductive Exc where
  /-- The exception `std::range_error` ("division by zero"). -/
  | range_error
  /-- The exception `std::length_error` (empty string). -/
  | length_error
  /-- The exception `std::logic_error` (non-digit character). -/
  | logic_error
  /-- The recursion or `while` loop did not finish within the step budget. -/
  | no_fuel
  /-- A vector was indexed past its end. -/
  | out_of_range
  deriving DecidableEq, Repr

deriving instance DecidableEq for Except

/-! ## Digit-level primitives (`add`, `mult`) -/

/-- Source: `std::pair<uint32_t, uint32_t> add(uint32_t a, uint32_t b)`. -/
def add (a b : Nat) : Nat × Nat :=
  let result : Nat × Nat := (0, (a + b) % 4294967296)
  if 0xFFFFFFFF - a < b then (1, result.2) else result

/-- The `for (bit = 1, high_mask = 1u << 31; bit < 32; high_mask |= 1u << (31 - bit), bit++)`
loop of `mult`; the first argument counts the iterations that remain. -/
def mult_loop (a b : Nat) : Nat → Nat → Nat → Nat × Nat → Nat × Nat
  | 0, _, _, result => result
  | n + 1, bit, high_mask, result =>
    let result :=
      if (b >>> bit) &&& 1 ≠ 0 then
        let high := (a &&& high_mask) >>> (32 - bit)
        let low := ((a &&& (0xFFFFFFFF - high_mask)) <<< bit) % 4294967296
        let sum := add result.2 low
        ((result.1 + (high + sum.1) % 4294967296) % 4294967296, sum.2)
      else result
    mult_loop a b n (bit + 1) (high_mask ||| (1 <<< (31 - bit))) result

/-- Source: `std::pair<uint32_t, uint32_t> mult(uint32_t a, uint32_t b)`. -/
def mult (a b : Nat) : Nat × Nat :=
  let result : Nat × Nat := (0, 0)
  let result := if b &&& 1 ≠ 0 then (result.1, a) else result
  mult_loop a b 31 1 (1 <<< 31) result

/-! ## The data model -/

/-- Source: `class big_integer` with fields `bool sign` and
`std::vector<uint32_t> dig`. -/
structure big_integer where
  sign : Bool
  dig : List Nat
  deriving DecidableEq, Repr

/-- Source: `big_integer::positive()`. -/
def big_integer.positive (a : big_integer) : Bool := a.sign

/-- Source: `big_integer::big_integer()`. -/
def big_integer.default : big_integer := ⟨true, [0]⟩

/-- Source: `big_integer::big_integer(int a)`; `a` ranges over `[-2^31, 2^31)`. -/
def big_integer.of_int (a : Int) : big_integer :=
  let sign := decide (a ≥ 0)
  let b : Nat :=
    if a = -2147483648 then (2147483647 + 1) % 4294967296
    else (if a < 0 then -a else a).toNat % 4294967296
  ⟨sign, [b]⟩

/-- Source: `big_integer::big_integer(uint32_t a)`. -/
def big_integer.of_uint (a : Nat) : big_integer := ⟨true, [a]⟩

/-- Source: `big_integer::big_integer(const big_integer &other)`. -/
def big_integer.copy (other : big_integer) : big_integer := ⟨other.sign, other.dig⟩

/-- Source: `big_integer::operator=(big_integer const &other)`: the new value
of `*this` (on self-assignment `*this` is `other`). -/
def op_assign (_self other : big_integer) : big_integer := ⟨other.sign, other.dig⟩

/-! ## Ordering -/

/-- The digit loop of `compare`, `for (size_t i = a.dig.size() - 1;; i--)`,
entered at index `i`. -/
def compare_loop (a b : big_integer) : Nat → Int
  | 0 =>
    if a.dig.getD 0 0 < b.dig.getD 0 0 then (if a.positive then -1 else 1)
    else if a.dig.getD 0 0 > b.dig.getD 0 0 then (if a.positive then 1 else -1)
    else 0
  | i + 1 =>
    if a.dig.getD (i + 1) 0 < b.dig.getD (i + 1) 0 then (if a.positive then -1 else 1)
    else if a.dig.getD (i + 1) 0 > b.dig.getD (i + 1) 0 then (if a.positive then 1 else -1)
    else compare_loop a b i

/-- Source: `int compare(const big_integer &a, const big_integer &b)`. -/
def compare (a b : big_integer) : Int :=
  if a.dig.length > b.dig.length then (if a.positive then 1 else -1)
  else if a.dig.length < b.dig.length then (if b.positive then -1 else 1)
  else
    if a.positive != b.positive then (if a.positive then 1 else -1)
    else compare_loop a b (a.dig.length - 1)

/-- Source: `operator==`. -/
def op_eq (a b : big_integer) : Bool := compare a b == 0
/-- Source: `operator!=`. -/
def op_ne (a b : big_integer) : Bool := compare a b != 0
/-- Source: `operator<`. -/
def op_lt (a b : big_integer) : Bool := decide (compare a b < 0)
/-- Source: `operator>`. -/
def op_gt (a b : big_integer) : Bool := decide (compare a b > 0)
/-- Source: `operator<=`. -/
def op_le (a b : big_integer) : Bool := decide (compare a b ≤ 0)
/-- Source: `operator>=`. -/
def op_ge (a b : big_integer) : Bool := decide (compare a b ≥ 0)

/-! ## Normalization and unary operators -/

/-- The loop `while (dig.size() > 1u && dig.back() == 0u) dig.pop_back();`
the first argument bounds the number of pops by the length of the vector. -/
def normalize_loop : Nat → List Nat → List Nat
  | 0, dig => dig
  | n + 1, dig =>
    if dig.length > 1 ∧ dig.getLastD 0 = 0 then normalize_loop n dig.dropLast else dig

/-- Source: `big_integer::normalize()`. -/
def big_integer.normalize (a : big_integer) : big_integer :=
  let dig := normalize_loop a.dig.length a.dig
  if dig.length = 1 ∧ dig.getD 0 0 = 0 then ⟨true, dig⟩ else ⟨a.sign, dig⟩

/-- Source: `big_integer::operator+() const`. -/
def op_pos (a : big_integer) : big_integer := a

/-- Source: `big_integer::operator-() const`. -/
def op_neg (a : big_integer) : big_integer :=
  if op_ne a (big_integer.of_int 0) then ⟨!a.sign, a.dig⟩ else a

/-- Source: `big_integer abs(const big_integer &a)`. -/
def abs (a : big_integer) : big_integer :=
  if op_lt a (big_integer.of_int 0) then op_neg a else a

/-! ## Additive operators -/

/-- The digit loop of `operator+=`, `for (size_t i = 0; i < c.dig.size(); i++)`;
the first argument counts the iterations that remain. -/
def add_loop (dig rhs : List Nat) : Nat → Nat → Nat → List Nat → List Nat
  | 0, _, _, c => c
  | n + 1, i, carry, c =>
    let curDig : Nat × Nat := (0, carry)
    let curDig := if i < dig.length then add carry (dig.getD i 0) else curDig
    let curDig :=
      if i < rhs.length then
        let temp := add curDig.2 (rhs.getD i 0)
        ((curDig.1 + temp.1) % 4294967296, temp.2)
      else curDig
    add_loop dig rhs n (i + 1) curDig.1 (c.set i curDig.2)

/-- The digit loop of `operator-=`, `for (size_t i = 0; i < dig.size(); i++)`;
the first argument counts the iterations that remain. -/
def sub_loop (dig rhs : List Nat) : Nat → Nat → Nat → List Nat → List Nat
  | 0, _, _, c => c
  | n + 1, i, take, c =>
    let sub := if i < rhs.length then rhs.getD i 0 else 0
    let high : Bool :=
      decide (dig.getD i 0 < take) ||
        decide ((dig.getD i 0 + 4294967296 - take) % 4294967296 < sub)
    let d := (dig.getD i 0 + 4294967296 + 4294967296 - sub - take) % 4294967296
    sub_loop dig rhs n (i + 1) (if high then 1 else 0) (c.set i d)

mutual
/-- Source: `big_integer::operator+=`. The delegation to `operator-=` is a
call, so the first argument bounds the depth of the mutual recursion. -/
def op_add_assign : Nat → big_integer → big_integer → Except Exc big_integer
  | 0, _, _ => .error .no_fuel
  | fuel + 1, self, rhs =>
    if self.sign != rhs.sign then op_sub_assign fuel self (op_neg rhs)
    else
      let c : big_integer :=
        ⟨self.sign, List.replicate (max self.dig.length rhs.dig.length + 2) 0⟩
      let c : big_integer :=
        ⟨c.sign, add_loop self.dig rhs.dig c.dig.length 0 0 c.dig⟩
      .ok c.normalize
/-- Source: `big_integer::operator-=`. -/
def op_sub_assign : Nat → big_integer → big_integer → Except Exc big_integer
  | 0, _, _ => .error .no_fuel
  | fuel + 1, self, rhs =>
    if self.sign != rhs.sign then op_add_assign fuel self (op_neg rhs)
    else if (self.positive && op_lt self rhs) || (!self.positive && op_gt self rhs) then
      match op_sub_assign fuel rhs self with
      | .ok temp => .ok (op_neg temp)
      | .error e => .error e
    else
      let c : big_integer := ⟨self.sign, List.replicate self.dig.length 0⟩
      let c : big_integer :=
        ⟨c.sign, sub_loop self.dig rhs.dig self.dig.length 0 0 c.dig⟩
      .ok c.normalize
end

/-- Source: `operator+(big_integer a, const big_integer &b)`. -/
def op_add (fuel : Nat) (a b : big_integer) : Except Exc big_integer :=
  op_add_assign fuel a b

/-- Source: `operator-(big_integer a, const big_integer &b)`. -/
def op_sub (fuel : Nat) (a b : big_integer) : Except Exc big_integer :=
  op_sub_assign fuel a b

/-! ## Multiplicative operators -/

/-- The inner loop of `operator*=`, `for (size_t j = 0; j < rhs.dig.size() || carry; j++)`,
for the digit `di = dig[i]`. The vector accesses `c.dig[i + j]` are checked; the
first argument bounds the iterations (the caller passes `c.size() + 1`, which
an in-range run never uses up). -/
def mul_inner (di : Nat) (rhs : List Nat) (i : Nat) :
    Nat → Nat → Nat → List Nat → Except Exc (List Nat)
  | 0, j, carry, c => if j < rhs.length ∨ carry ≠ 0 then .error .no_fuel else .ok c
  | n + 1, j, carry, c =>
    if j < rhs.length ∨ carry ≠ 0 then
      if i + j < c.length then
        let aMulB := mult di (if j < rhs.length then rhs.getD j 0 else 0)
        let temp := add aMulB.2 carry
        let aMulB : Nat × Nat := ((aMulB.1 + temp.1) % 4294967296, temp.2)
        let temp := add aMulB.2 (c.getD (i + j) 0)
        let aMulB : Nat × Nat := ((aMulB.1 + temp.1) % 4294967296, temp.2)
        mul_inner di rhs i n (j + 1) aMulB.1 (c.set (i + j) aMulB.2)
      else .error .out_of_range
    else .ok c

/-- The outer loop of `operator*=`, `for (size_t i = 0; i < dig.size(); i++)`;
the first argument counts the iterations that remain. -/
def mul_outer (dig rhs : List Nat) : Nat → Nat → List Nat → Except Exc (List Nat)
  | 0, _, c => .ok c
  | n + 1, i, c =>
    match mul_inner (dig.getD i 0) rhs i (c.length + 1) 0 0 c with
    | .ok c => mul_outer dig rhs n (i + 1) c
    | .error e => .error e

/-- Source: `big_integer::operator*=`. -/
def op_mul_assign (self rhs : big_integer) : Except Exc big_integer :=
  let c : big_integer :=
    ⟨self.sign == rhs.sign, List.replicate (self.dig.length + rhs.dig.length + 1) 0⟩
  match mul_outer self.dig rhs.dig self.dig.length 0 c.dig with
  | .ok d => .ok (big_integer.normalize ⟨c.sign, d⟩)
  | .error e => .error e

/-- Source: `operator*(big_integer a, const big_integer &b)`. -/
def op_mul (a b : big_integer) : Except Exc big_integer := op_mul_assign a b

/-- The binary search `while (r - l > 1)` of `operator/=` for one quotient
digit; the first argument bounds the iterations. (The local `temp` of the
source holds the same product as the loop test and is not read.) -/
def div_search (rhs cur : big_integer) : Nat → Nat → Nat → Except Exc (Nat × Nat)
  | 0, l, r => if r - l > 1 then .error .no_fuel else .ok (l, r)
  | n + 1, l, r =>
    if r - l > 1 then
      let m := l + (r - l) / 2
      match op_mul rhs (big_integer.of_uint m) with
      | .ok p =>
        if op_ge cur (abs p) then div_search rhs cur n m r else div_search rhs cur n l m
      | .error e => .error e
    else .ok (l, r)

/-- One pass of the body of the digit loop of `operator/=`, for the dividend
digit `di = dig[i]`: returns the quotient digit `c.dig[i]` and the new `cur`. -/
def div_step (fuel : Nat) (rhs : big_integer) (di : Nat) (cur : big_integer) :
    Except Exc (Nat × big_integer) :=
  let cur : big_integer := ⟨cur.sign, 0 :: cur.dig⟩
  match op_add_assign fuel cur (big_integer.of_uint di) with
  | .error e => .error e
  | .ok cur =>
    match div_search rhs cur fuel 0 0xFFFFFFFF with
    | .error e => .error e
    | .ok (l, r) =>
      match op_mul rhs (big_integer.of_uint r) with
      | .error e => .error e
      | .ok pr =>
        let q := if op_ge cur (abs pr) then r else l
        match op_mul rhs (big_integer.of_uint q) with
        | .error e => .error e
        | .ok pq =>
          match op_sub fuel cur (abs pq) with
          | .error e => .error e
          | .ok cur => .ok (q, cur)

/-- The digit loop of `operator/=`, `for (size_t i = dig.size() - 1;; i--)`,
entered at index `i`. -/
def div_loop (fuel : Nat) (dig : List Nat) (rhs : big_integer) :
    Nat → big_integer → List Nat → Except Exc (List Nat)
  | 0, cur, c =>
    match div_step fuel rhs (dig.getD 0 0) cur with
    | .error e => .error e
    | .ok (q, _) => .ok (c.set 0 q)
  | i + 1, cur, c =>
    match div_step fuel rhs (dig.getD (i + 1) 0) cur with
    | .error e => .error e
    | .ok (q, cur) => div_loop fuel dig rhs i cur (c.set (i + 1) q)

/-- Source: `big_integer::operator/=`. The argument `fuel` bounds the binary
search and the recursion of the additive operators it calls. -/
def op_div_assign (fuel : Nat) (self rhs : big_integer) : Except Exc big_integer :=
  if op_eq rhs (big_integer.of_int 0) then .error .range_error
  else if op_lt (abs self) (abs rhs) then .ok (big_integer.of_int 0)
  else
    let c : big_integer := ⟨self.sign == rhs.sign, List.replicate self.dig.length 0⟩
    let cur : big_integer := ⟨big_integer.default.sign, []⟩
    match div_loop fuel self.dig rhs (self.dig.length - 1) cur c.dig with
    | .error e => .error e
    | .ok d => .ok (big_integer.normalize ⟨c.sign, d⟩)

/-- Source: `operator/(big_integer a, const big_integer &b)`. -/
def op_div (fuel : Nat) (a b : big_integer) : Except Exc big_integer :=
  op_div_assign fuel a b

/-- Source: `big_integer::operator%=`, `*this = *this - *this / rhs * rhs`. -/
def op_mod_assign (fuel : Nat) (self rhs : big_integer) : Except Exc big_integer :=
  match op_div fuel self rhs with
  | .error e => .error e
  | .ok q =>
    match op_mul q rhs with
    | .error e => .error e
    | .ok p => op_sub fuel self p

/-- Source: `operator%(big_integer a, const big_integer &b)`. -/
def op_mod (fuel : Nat) (a b : big_integer) : Except Exc big_integer :=
  op_mod_assign fuel a b

/-! ## Decimal strings -/

/-- The C library `isdigit` on a character. -/
def isdigit (ch : Char) : Bool := decide (48 ≤ ch.toNat ∧ ch.toNat ≤ 57)

/-- The loop of the string constructor over the characters `str[i], str[i+1], ...`. -/
def of_string_loop (fuel : Nat) : List Char → big_integer → Except Exc big_integer
  | [], a => .ok a
  | ch :: rest, a =>
    if !isdigit ch then .error .logic_error
    else
      match op_mul_assign a (big_integer.of_int 10) with
      | .error e => .error e
      | .ok a =>
        match op_add_assign fuel a (big_integer.of_int ((ch.toNat : Int) - 48)) with
        | .error e => .error e
        | .ok a => of_string_loop fuel rest a

/-- Source: `big_integer::big_integer(const std::string &str)`. -/
def big_integer.of_string (fuel : Nat) (str : List Char) : Except Exc big_integer :=
  if str.isEmpty then .error .length_error
  else
    let sign : Bool := str.headD ' ' != '-'
    match of_string_loop fuel (str.drop (if isdigit (str.headD ' ') then 0 else 1))
        big_integer.default with
    | .error e => .error e
    | .ok a =>
      let sign := if op_eq a (big_integer.of_int 0) then false else sign
      .ok (if sign then a else op_neg a)

/-- The standard library `std::to_string(unsigned)`: the decimal digits, most
significant first. -/
def std_to_string (n : Nat) : List Char := Nat.toDigits 10 n

/-- The `do ... while (a != 0)` loop of `to_string`; the second argument
bounds the iterations, the first is the budget of the operators it calls. -/
def to_string_loop (fuel : Nat) :
    Nat → big_integer → Nat → List Char → Except Exc (List Char)
  | 0, _, _, _ => .error .no_fuel
  | n + 1, a, needZero, result =>
    match op_mod fuel a (big_integer.of_int 1000000000) with
    | .error e => .error e
    | .ok g =>
      let d := std_to_string (g.dig.getD 0 0)
      let t := List.replicate needZero '0'
      let needZero := (9 + 18446744073709551616 - d.length) % 18446744073709551616
      let d := (d ++ t).reverse
      let result := result ++ d
      match op_div_assign fuel a (big_integer.of_int 1000000000) with
      | .error e => .error e
      | .ok a =>
        if op_ne a (big_integer.of_int 0) then to_string_loop fuel n a needZero result
        else .ok result

/-- Source: `std::string to_string(big_integer a)`. -/
def to_string (fuel : Nat) (a : big_integer) : Except Exc (List Char) :=
  let sign : List Char := if a.positive then [] else ['-']
  match to_string_loop fuel fuel (abs a) 0 [] with
  | .error e => .error e
  | .ok result => .ok (result ++ sign).reverse

/-! ## Complement, bitwise operators, shifts, increment and decrement -/

/-- Source: `big_integer::operator~() const`, `return -(*this) - 1;`. -/
def op_not (fuel : Nat) (a : big_integer) : Except Exc big_integer :=
  op_sub fuel (op_neg a) (big_integer.of_int 1)

/-- The loops `for (size_t i = 0; i < dig.size(); i++) dig[i] = ...;` of the
bitwise operators: digit `i` becomes `f i dig[i]`; the first argument counts
the iterations that remain. -/
def digit_loop (f : Nat → Nat → Nat) : Nat → Nat → List Nat → List Nat
  | 0, _, dig => dig
  | n + 1, i, dig => digit_loop f n (i + 1) (dig.set i (f i (dig.getD i 0)))

/-- Source: `big_integer::operator&=`. The factor `(sign ? +1 : -1)` is
converted to `uint32_t` before it multiplies the digit. -/
def op_and_assign (self rhs : big_integer) : big_integer :=
  let dig := digit_loop (fun i d =>
      (((if self.sign then 1 else 4294967295) * d) % 4294967296) &&&
        (if i < rhs.dig.length then
          ((if rhs.sign then 1 else 4294967295) * rhs.dig.getD i 0) % 4294967296
        else 0))
    self.dig.length 0 self.dig
  big_integer.normalize ⟨self.sign, dig⟩

/-- Source: `big_integer::operator|=`. -/
def op_or_assign (self rhs : big_integer) : big_integer :=
  let dig :=
    if self.dig.length < rhs.dig.length then
      self.dig ++ List.replicate (rhs.dig.length - self.dig.length) 0
    else self.dig
  let dig := digit_loop (fun i d =>
      let a := if self.sign then d else (0xFFFFFFFF - d + 1) % 4294967296
      let b :=
        if i < rhs.dig.length then
          (if rhs.sign then rhs.dig.getD i 0
            else (0xFFFFFFFF - rhs.dig.getD i 0 + 1) % 4294967296)
        else 0
      let c := a ||| b
      if self.sign != rhs.sign then (0xFFFFFFFF - c + 1) % 4294967296 else c)
    dig.length 0 dig
  big_integer.normalize ⟨self.sign == rhs.sign, dig⟩

/-- Source: `big_integer::operator^=`. -/
def op_xor_assign (self rhs : big_integer) : big_integer :=
  let dig :=
    if self.dig.length < rhs.dig.length then
      self.dig ++ List.replicate (rhs.dig.length - self.dig.length) 0
    else self.dig
  let dig := digit_loop (fun i d =>
      let a := if self.sign then d else (0xFFFFFFFF - d + 1) % 4294967296
      let b :=
        if i < rhs.dig.length then
          (if rhs.sign then rhs.dig.getD i 0
            else (0xFFFFFFFF - rhs.dig.getD i 0 + 1) % 4294967296)
        else 0
      let c := a ^^^ b
      if self.sign != rhs.sign then (0xFFFFFFFF - c + 1) % 4294967296 else c)
    dig.length 0 dig
  big_integer.normalize ⟨self.sign == rhs.sign, dig⟩

/-- Source: `operator&(big_integer a, const big_integer &b)`. -/
def op_and (a b : big_integer) : big_integer := op_and_assign a b
/-- Source: `operator|(big_integer a, const big_integer &b)`. -/
def op_or (a b : big_integer) : big_integer := op_or_assign a b
/-- Source: `operator^(big_integer a, const big_integer &b)`. -/
def op_xor (a b : big_integer) : big_integer := op_xor_assign a b

/-- Source: `operator<<(big_integer a, uint32_t b)`, `while (b > 0)` with
`a *= 2; b--;`. -/
def op_shl : big_integer → Nat → Except Exc big_integer
  | a, 0 => .ok a
  | a, b + 1 =>
    match op_mul_assign a (big_integer.of_int 2) with
    | .error e => .error e
    | .ok a => op_shl a b

/-- Source: `operator>>(big_integer a, uint32_t b)`, `while (b > 0)` with
`a /= 2` for a non-negative `a` and `a = (a - 1) / 2` otherwise. -/
def op_shr (fuel : Nat) : big_integer → Nat → Except Exc big_integer
  | a, 0 => .ok a
  | a, b + 1 =>
    if a.sign then
      match op_div_assign fuel a (big_integer.of_int 2) with
      | .error e => .error e
      | .ok a => op_shr fuel a b
    else
      match op_sub fuel a (big_integer.of_int 1) with
      | .error e => .error e
      | .ok t =>
        match op_div fuel t (big_integer.of_int 2) with
        | .error e => .error e
        | .ok a => op_shr fuel a b

/-- Source: `big_integer::operator<<=`. -/
def op_shl_assign (self : big_integer) (rhs : Nat) : Except Exc big_integer := op_shl self rhs
/-- Source: `big_integer::operator>>=`. -/
def op_shr_assign (fuel : Nat) (self : big_integer) (rhs : Nat) : Except Exc big_integer :=
  op_shr fuel self rhs

/-- Source: `big_integer::operator++()`, `return *this = *this + 1;`: the new
value of `*this`, which is also what is returned. -/
def op_pre_inc (fuel : Nat) (self : big_integer) : Except Exc big_integer :=
  op_add fuel self (big_integer.of_int 1)

/-- Source: `big_integer::operator++(int)`: the new value of `*this` and the
returned copy. -/
def op_post_inc (fuel : Nat) (self : big_integer) : Except Exc (big_integer × big_integer) :=
  let copy := self
  match op_pre_inc fuel self with
  | .error e => .error e
  | .ok self => .ok (self, copy)

/-- Source: `big_integer::operator--()`, `return *this = *this + 1;`: the new
value of `*this`, which is also what is returned. -/
def op_pre_dec (fuel : Nat) (self : big_integer) : Except Exc big_integer :=
  op_add fuel self (big_integer.of_int 1)

/-- Source: `big_integer::operator--(int)`, whose body is `++*this`: the new
value of `*this` and the returned copy. -/
def op_post_dec (fuel : Nat) (self : big_integer) : Except Exc (big_integer × big_integer) :=
  let copy := self
  match op_pre_inc fuel self with
  | .error e => .error e
  | .ok self => .ok (self, copy)

/-! ## Values and the representation invariant -/

/-- The magnitude `Σ digits[i] * 2^(32*i)` of a digit vector. -/
def mag : List Nat → Nat
  | [] => 0
  | d :: ds => d + 4294967296 * mag ds

/-- The signed value: the magnitude if `sign`, its negation otherwise. -/
def big_integer.value (a : big_integer) : Int :=
  if a.sign then (mag a.dig : Int) else -(mag a.dig : Int)

/-- Every digit is a `uint32_t`. -/
def big_integer.well_typed (a : big_integer) : Prop := ∀ d ∈ a.dig, d < 4294967296

/-- The representation invariant: `uint32_t` digits, at least one digit, no
most-significant zero digit unless the digits are exactly `[0]`, and
`sign = true` for zero. -/
def big_integer.normalized (a : big_integer) : Prop :=
  a.well_typed ∧ a.dig ≠ [] ∧ (a.dig.getLastD 0 = 0 → a.dig = [0]) ∧
    (a.dig = [0] → a.sign = true)

instance (a : big_integer) : Decidable a.well_typed := by
  unfold big_integer.well_typed; infer_instance

instance (a : big_integer) : Decidable a.normalized := by
  unfold big_integer.normalized; infer_instance

/-! ## Decimal strings, as the specification words them -/

/-- A valid decimal string: an optional leading `-` followed by one or more
decimal digits. -/
def valid_decimal (s : List Char) : Bool :=
  let ds := if s.head? = some '-' then s.tail else s
  !ds.isEmpty && ds.all isdigit

/-- Removal of the leading zeros of a digit string. -/
def strip_zeros : List Char → List Char
  | [] => []
  | c :: cs => if c = '0' then strip_zeros cs else c :: cs

/-- The canonical form of a decimal string: leading zeros removed, `0` for
every spelling of zero, and a single leading `-` exactly when the string has
one and the number is not zero. -/
def canonical (s : List Char) : List Char :=
  let neg : Bool := decide (s.head? = some '-')
  let ds := strip_zeros (if neg then s.tail else s)
  if ds.isEmpty then ['0'] else if neg then '-' :: ds else ds

/-- The number a digit string denotes, read from an accumulator onwards. -/
def dec_value (acc : Nat) (ds : List Char) : Nat :=
  ds.foldl (fun v ch => v * 10 + (ch.toNat - 48)) acc

/-! ## The constructor from `int` with its machine arithmetic checked -/

/-- The `int` negation `-a`, checked: `none` when the result is not a 32-bit
`int` (signed overflow). -/
def int_neg_checked (a : Int) : Option Int :=
  if -2147483648 ≤ -a ∧ -a < 2147483648 then some (-a) else none

/-- The conversion `(uint32_t) t` of an `int`, checked: `none` when the
conversion would change the value. -/
def int_to_uint_checked (t : Int) : Option Nat :=
  if 0 ≤ t ∧ t < 4294967296 then some t.toNat else none

/-- The constructor `big_integer(int a)` with the negation `-a`, the
conversions to `uint32_t` and the unsigned sum `max + 1u` checked: `none` as
soon as one of them leaves its type. -/
def big_integer.of_int_checked (a : Int) : Option big_integer :=
  let sign := decide (a ≥ 0)
  let b : Option Nat :=
    if a = -2147483648 then
      match int_to_uint_checked 2147483647 with
      | some m => if m + 1 < 4294967296 then some (m + 1) else none
      | none => none
    else
      match (if a < 0 then int_neg_checked a else some a) with
      | some t => int_to_uint_checked t
      | none => none
  match b with
  | some b => some ⟨sign, [b]⟩
  | none => none

/-! ## The multiplication loops with their machine arithmetic checked -/

/-- The loop of `mult` with the accumulation `result.first += high + sum.first`
checked: `none` as soon as the exact sum does not fit in 32 bits. -/
def mult_loop_checked (a b : Nat) : Nat → Nat → Nat → Nat × Nat → Option (Nat × Nat)
  | 0, _, _, result => some result
  | n + 1, bit, high_mask, result =>
    if (b >>> bit) &&& 1 ≠ 0 then
      let high := (a &&& high_mask) >>> (32 - bit)
      let low := ((a &&& (0xFFFFFFFF - high_mask)) <<< bit) % 4294967296
      let sum := add result.2 low
      if result.1 + (high + sum.1) < 4294967296 then
        mult_loop_checked a b n (bit + 1) (high_mask ||| (1 <<< (31 - bit)))
          (result.1 + (high + sum.1), sum.2)
      else none
    else mult_loop_checked a b n (bit + 1) (high_mask ||| (1 <<< (31 - bit))) result

/-- The function `mult` over the checked loop. -/
def mult_checked (a b : Nat) : Option (Nat × Nat) :=
  let result : Nat × Nat := (0, 0)
  let result := if b &&& 1 ≠ 0 then (result.1, a) else result
  mult_loop_checked a b 31 1 (1 <<< 31) result

/-- The inner loop of `operator*=` with every access `c.dig[i + j]` and both
carry sums `aMulB.first + temp.first` checked, and with at most the given
number of iterations: `none` when an index is out of range, a carry sum does
not fit in 32 bits, or the loop wants one more iteration. -/
def mul_inner_checked (di : Nat) (rhs : List Nat) (i : Nat) :
    Nat → Nat → Nat → List Nat → Option (List Nat)
  | 0, j, carry, c => if j < rhs.length ∨ carry ≠ 0 then none else some c
  | n + 1, j, carry, c =>
    if j < rhs.length ∨ carry ≠ 0 then
      if i + j < c.length then
        let aMulB := mult di (if j < rhs.length then rhs.getD j 0 else 0)
        let temp := add aMulB.2 carry
        if aMulB.1 + temp.1 < 4294967296 then
          let aMulB : Nat × Nat := (aMulB.1 + temp.1, temp.2)
          let temp := add aMulB.2 (c.getD (i + j) 0)
          if aMulB.1 + temp.1 < 4294967296 then
            let aMulB : Nat × Nat := (aMulB.1 + temp.1, temp.2)
            mul_inner_checked di rhs i n (j + 1) aMulB.1 (c.set (i + j) aMulB.2)
          else none
        else none
      else none
    else some c

/-- The outer loop of `operator*=` over the checked inner loop, which is
given `rhs.dig.size() + 1` iterations (the indices `j = 0 .. rhs.dig.size()`). -/
def mul_outer_checked (dig rhs : List Nat) : Nat → Nat → List Nat → Option (List Nat)
  | 0, _, c => some c
  | n + 1, i, c =>
    match mul_inner_checked (dig.getD i 0) rhs i (rhs.length + 1) 0 0 c with
    | some c => mul_outer_checked dig rhs n (i + 1) c
    | none => none

/-- The operator `*=` over the checked loops. -/
def op_mul_assign_checked (self rhs : big_integer) : Option big_integer :=
  let c : big_integer :=
    ⟨self.sign == rhs.sign, List.replicate (self.dig.length + rhs.dig.length + 1) 0⟩
  match mul_outer_checked self.dig rhs.dig self.dig.length 0 c.dig with
  | some d => some (big_integer.normalize ⟨c.sign, d⟩)
  | none => none

/-! ## Digit arithmetic -/

theorem add_spec (a b : Nat) (ha : a < 4294967296) (hb : b < 4294967296) :
    add a b = ((a + b) / 4294967296, (a + b) % 4294967296) := by
  unfold add
  split <;> simp only [Prod.mk.injEq, and_true] <;> omega

theorem add_fst_le (a b : Nat) : (add a b).1 ≤ 1 := by
  unfold add; split <;> simp

theorem add_snd_lt (a b : Nat) : (add a b).2 < 4294967296 := by
  unfold add; split <;> simp <;> omega

/-! ## Magnitudes -/

theorem mag_eq_ofDigits (l : List Nat) : mag l = Nat.ofDigits 4294967296 l := by
  induction l with
  | nil => rfl
  | cons d ds ih => simp [mag, Nat.ofDigits_cons, ih]

theorem mag_append (l₁ l₂ : List Nat) :
    mag (l₁ ++ l₂) = mag l₁ + 4294967296 ^ l₁.length * mag l₂ := by
  induction l₁ with
  | nil => simp [mag]
  | cons d ds ih =>
    rw [List.cons_append]
    simp only [mag, ih, List.length_cons, pow_succ]
    ring

theorem mag_lt (l : List Nat) (h : ∀ d ∈ l, d < 4294967296) :
    mag l < 4294967296 ^ l.length := by
  induction l with
  | nil => simp [mag]
  | cons d ds ih =>
    have h1 := h d (List.mem_cons_self _ _)
    have h2 := ih (fun x hx => h x (List.mem_cons_of_mem _ hx))
    simp only [mag, List.length_cons, pow_succ]
    omega

theorem mag_replicate_zero (n : Nat) : mag (List.replicate n 0) = 0 := by
  induction n with
  | zero => rfl
  | succ n ih => simp [List.replicate_succ, mag, ih]

theorem mag_drop (l : List Nat) (i : Nat) :
    mag (l.drop i) = l.getD i 0 + 4294967296 * mag (l.drop (i + 1)) := by
  induction l generalizing i with
  | nil => simp [mag]
  | cons d ds ih =>
    cases i with
    | zero => simp [mag]
    | succ i => simpa using ih i

theorem mag_take_succ (l : List Nat) (i : Nat) :
    mag (l.take (i + 1)) = mag (l.take i) + 4294967296 ^ i * l.getD i 0 := by
  induction l generalizing i with
  | nil => simp [mag]
  | cons d ds ih =>
    cases i with
    | zero => simp [mag]
    | succ i =>
      simp only [List.take_succ_cons, mag, ih i, List.getD_cons_succ, pow_succ]
      ring

theorem getD_lt (l : List Nat) (h : ∀ d ∈ l, d < 4294967296) (i : Nat) :
    l.getD i 0 < 4294967296 := by
  by_cases hi : i < l.length
  · rw [List.getD_eq_getElem _ _ hi]; exact h _ (List.getElem_mem _)
  · rw [List.getD_eq_default _ _ (by omega)]; omega

theorem mem_set_lt (l : List Nat) (h : ∀ d ∈ l, d < 4294967296) (i v : Nat)
    (hv : v < 4294967296) : ∀ d ∈ l.set i v, d < 4294967296 := by
  intro d hd
  rcases List.mem_or_eq_of_mem_set hd with h1 | h1
  · exact h d h1
  · omega

theorem take_set_succ (c : List Nat) (i v : Nat) (hi : i < c.length) :
    (c.set i v).take (i + 1) = c.take i ++ [v] := by
  induction c generalizing i with
  | nil => simp at hi
  | cons d ds ih =>
    cases i with
    | zero => simp
    | succ i =>
      simp only [List.set_cons_succ, List.take_succ_cons, List.cons_append, List.cons.injEq, true_and]
      exact ih i (by simpa using hi)

theorem mag_take_set_succ (c : List Nat) (i v : Nat) (hi : i < c.length) :
    mag ((c.set i v).take (i + 1)) = mag (c.take i) + 4294967296 ^ i * v := by
  rw [take_set_succ c i v hi, mag_append]
  simp [mag, List.length_take, Nat.min_eq_left (Nat.le_of_lt hi)]

theorem mag_set (c : List Nat) (i v : Nat) (hi : i < c.length) :
    mag (c.set i v) + 4294967296 ^ i * c.getD i 0 = mag c + 4294967296 ^ i * v := by
  induction c generalizing i with
  | nil => simp at hi
  | cons d ds ih =>
    cases i with
    | zero => simp [mag]; omega
    | succ i =>
      have := ih i (by simpa using hi)
      simp only [List.set_cons_succ, mag, List.getD_cons_succ, pow_succ]
      nlinarith [this]

/-! ## Normalization -/

theorem mag_dropLast (l : List Nat) (h : l.getLastD 0 = 0) : mag l.dropLast = mag l := by
  rcases List.eq_nil_or_concat l with rfl | ⟨l', x, rfl⟩
  · rfl
  · simp only [List.concat_eq_append, List.getLastD_concat] at h
    subst h
    simp [mag_append, mag]

theorem mag_normalize_loop (n : Nat) (l : List Nat) : mag (normalize_loop n l) = mag l := by
  induction n generalizing l with
  | zero => rfl
  | succ n ih =>
    unfold normalize_loop
    split
    · rename_i h; rw [ih, mag_dropLast _ h.2]
    · rfl

theorem normalize_loop_mem (n : Nat) (l : List Nat) :
    ∀ d ∈ normalize_loop n l, d ∈ l := by
  induction n generalizing l with
  | zero => intro d hd; exact hd
  | succ n ih =>
    unfold normalize_loop
    split
    · intro d hd; exact List.dropLast_subset _ (ih _ d hd)
    · intro d hd; exact hd

theorem normalize_loop_ne_nil (n : Nat) (l : List Nat) (h : l ≠ []) :
    normalize_loop n l ≠ [] := by
  induction n generalizing l with
  | zero => exact h
  | succ n ih =>
    unfold normalize_loop
    split
    · rename_i h1
      apply ih
      intro h2
      have := congrArg List.length h2
      simp at this; omega
    · exact h

theorem normalize_loop_top (n : Nat) (l : List Nat) (hn : l.length ≤ n + 1) :
    (normalize_loop n l).length ≤ 1 ∨ (normalize_loop n l).getLastD 0 ≠ 0 := by
  induction n generalizing l with
  | zero => left; simpa [normalize_loop] using hn
  | succ n ih =>
    unfold normalize_loop
    split
    · apply ih; simp; omega
    · rename_i h1
      by_cases h2 : l.length > 1
      · right; intro h3; exact h1 ⟨h2, h3⟩
      · left; omega

theorem mag_eq_zero_of_singleton (l : List Nat) (h1 : l.length = 1) (h2 : l.getD 0 0 = 0) :
    l = [0] := by
  match l, h1, h2 with
  | [x], _, h2 => simp at h2; simp [h2]

theorem normalize_normalized (a : big_integer) (hw : a.well_typed) (hne : a.dig ≠ []) :
    a.normalize.normalized := by
  have hmem := normalize_loop_mem a.dig.length a.dig
  have hnn := normalize_loop_ne_nil a.dig.length a.dig hne
  have htop := normalize_loop_top a.dig.length a.dig (by omega)
  unfold big_integer.normalize
  simp only
  generalize normalize_loop a.dig.length a.dig = l at *
  split
  · rename_i h
    have := mag_eq_zero_of_singleton l h.1 h.2
    subst this
    refine ⟨?_, by simp, by simp, by simp⟩
    intro d hd; simp at hd; omega
  · rename_i h
    refine ⟨fun d hd => hw d (hmem d hd), hnn, ?_, ?_⟩
    · intro h0
      rcases htop with h1 | h1
      · match l, hnn, h1, h0 with
        | [x], _, _, h0 => simp at h0; simp [h0]
      · exact absurd h0 h1
    · intro h0; subst h0; simp at h

theorem normalize_mag (a : big_integer) : mag a.normalize.dig = mag a.dig := by
  unfold big_integer.normalize
  simp only
  split <;> exact mag_normalize_loop _ _

theorem normalize_value (a : big_integer) : a.normalize.value = a.value := by
  have hm := mag_normalize_loop a.dig.length a.dig
  unfold big_integer.normalize big_integer.value
  simp only
  split
  · rename_i h
    have h0 := mag_eq_zero_of_singleton _ h.1 h.2
    rw [h0] at hm
    simp only [h0]
    simp [mag] at hm
    simp [mag, ← hm]
  · simp only [hm]

theorem normalize_sign (a : big_integer) (h : mag a.dig ≠ 0) : a.normalize.sign = a.sign := by
  have hm := mag_normalize_loop a.dig.length a.dig
  unfold big_integer.normalize
  simp only
  split
  · rename_i h1
    have h0 := mag_eq_zero_of_singleton _ h1.1 h1.2
    rw [h0] at hm
    simp [mag] at hm
    exact absurd hm.symm h
  · rfl

/-! ## Ordering -/

theorem mag_pos_of_getLast (l : List Nat) (h : l.getLastD 0 ≠ 0) :
    4294967296 ^ (l.length - 1) ≤ mag l := by
  rcases List.eq_nil_or_concat l with rfl | ⟨l', x, rfl⟩
  · simp at h
  · simp only [List.concat_eq_append, List.getLastD_concat] at h
    simp only [List.concat_eq_append, mag_append, mag, List.length_append, List.length_singleton,
      Nat.add_sub_cancel, Nat.mul_zero, Nat.add_zero]
    have : 4294967296 ^ l'.length * 1 ≤ 4294967296 ^ l'.length * x :=
      Nat.mul_le_mul_left _ (by omega)
    omega

theorem normalized_top (a : big_integer) (ha : a.normalized) (h : a.dig ≠ [0]) :
    a.dig.getLastD 0 ≠ 0 := fun h0 => h (ha.2.2.1 h0)

theorem normalized_length_pos (a : big_integer) (ha : a.normalized) : 0 < a.dig.length :=
  List.length_pos.mpr ha.2.1

theorem normalized_mag_lower (a : big_integer) (ha : a.normalized) (h : a.dig ≠ [0]) :
    4294967296 ^ (a.dig.length - 1) ≤ mag a.dig :=
  mag_pos_of_getLast _ (normalized_top a ha h)

theorem normalized_mag_zero (a : big_integer) (ha : a.normalized) (h : mag a.dig = 0) :
    a.dig = [0] := by
  by_contra h0
  have := normalized_mag_lower a ha h0
  have : 0 < 4294967296 ^ (a.dig.length - 1) := by positivity
  omega

theorem normalized_neg_mag_pos (a : big_integer) (ha : a.normalized) (h : a.sign = false) :
    0 < mag a.dig := by
  rcases Nat.eq_zero_or_pos (mag a.dig) with h0 | h0
  · have := ha.2.2.2 (normalized_mag_zero a ha h0)
    rw [h] at this; cases this
  · exact h0

theorem mag_lt_of_length_lt (a b : big_integer) (ha : a.normalized) (hb : b.normalized)
    (h : b.dig.length < a.dig.length) : mag b.dig < mag a.dig := by
  have h1 := mag_lt b.dig hb.1
  have hne : a.dig ≠ [0] := by
    intro h0; rw [h0] at h
    have := normalized_length_pos b hb
    simp only [List.length_singleton] at h; omega
  have h2 := normalized_mag_lower a ha hne
  have h3 : 4294967296 ^ b.dig.length ≤ 4294967296 ^ (a.dig.length - 1) :=
    Nat.pow_le_pow_right (by omega) (by omega)
  generalize (4294967296 : Nat) ^ b.dig.length = P at *
  generalize (4294967296 : Nat) ^ (a.dig.length - 1) = Q at *
  omega

theorem take_lt (l : List Nat) (h : ∀ d ∈ l, d < 4294967296) (i : Nat) :
    ∀ d ∈ l.take i, d < 4294967296 := fun d hd => h d (List.mem_of_mem_take hd)

theorem mag_take_lt (l : List Nat) (h : ∀ d ∈ l, d < 4294967296) (i : Nat) :
    mag (l.take i) < 4294967296 ^ i := by
  have h1 := mag_lt (l.take i) (take_lt l h i)
  have h2 : 4294967296 ^ (l.take i).length ≤ 4294967296 ^ i :=
    Nat.pow_le_pow_right (by omega) (by simp)
  omega

/-- What the digit loop of `compare` returns, in terms of the magnitudes of
the low `i + 1` digits. -/
theorem compare_loop_spec (a b : big_integer) (ha : a.well_typed) (hb : b.well_typed)
    (i : Nat) :
    compare_loop a b i =
      if mag (a.dig.take (i + 1)) < mag (b.dig.take (i + 1)) then
        (if a.positive then -1 else 1)
      else if mag (a.dig.take (i + 1)) > mag (b.dig.take (i + 1)) then
        (if a.positive then 1 else -1)
      else 0 := by
  induction i with
  | zero =>
    have e1 := mag_take_succ a.dig 0
    have e2 := mag_take_succ b.dig 0
    simp only [List.take_zero, mag, pow_zero, Nat.zero_add, Nat.one_mul] at e1 e2
    simp only [compare_loop, Nat.zero_add, e1, e2]
  | succ i ih =>
    have e1 := mag_take_succ a.dig (i + 1)
    have e2 := mag_take_succ b.dig (i + 1)
    have b1 := mag_take_lt a.dig ha (i + 1)
    have b2 := mag_take_lt b.dig hb (i + 1)
    rw [compare_loop, ih, e1, e2]
    generalize mag (a.dig.take (i + 1)) = x at *
    generalize mag (b.dig.take (i + 1)) = y at *
    generalize a.dig.getD (i + 1) 0 = da at *
    generalize b.dig.getD (i + 1) 0 = db at *
    generalize (4294967296 : Nat) ^ (i + 1) = P at *
    rcases Nat.lt_trichotomy da db with h | h | h
    · have : P * da + P ≤ P * db := by
        rw [← Nat.mul_succ]; exact Nat.mul_le_mul_left _ h
      rw [if_pos h, if_pos (show x + P * da < y + P * db by omega)]
    · subst h
      rw [if_neg (show ¬ da < da by omega), if_neg (show ¬ da > da by omega)]
      by_cases h1 : x < y
      · rw [if_pos h1, if_pos (show x + P * da < y + P * da by omega)]
      · rw [if_neg h1, if_neg (show ¬ x + P * da < y + P * da by omega)]
        by_cases h2 : x > y
        · rw [if_pos h2, if_pos (show x + P * da > y + P * da by omega)]
        · rw [if_neg h2, if_neg (show ¬ x + P * da > y + P * da by omega)]
    · have : P * db + P ≤ P * da := by
        rw [← Nat.mul_succ]; exact Nat.mul_le_mul_left _ h
      rw [if_neg (show ¬ da < db by omega), if_pos h,
        if_neg (show ¬ x + P * da < y + P * db by omega),
        if_pos (show x + P * da > y + P * db by omega)]

/-- The three-way comparator returns the sign of the difference of the values. -/
theorem compare_spec (a b : big_integer) (ha : a.normalized) (hb : b.normalized) :
    compare a b = Int.sign (a.value - b.value) := by
  have la := normalized_length_pos a ha
  unfold compare
  by_cases h1 : a.dig.length > b.dig.length
  · rw [if_pos h1]
    have hm := mag_lt_of_length_lt a b ha hb h1
    unfold big_integer.positive big_integer.value
    cases hsa : a.sign <;> cases hsb : b.sign <;> simp only [if_true, if_false, Bool.false_eq_true]
    all_goals first
      | (symm; apply Int.sign_eq_one_of_pos; omega)
      | (symm; apply Int.sign_eq_neg_one_of_neg; omega)
  · rw [if_neg h1]
    by_cases h2 : a.dig.length < b.dig.length
    · rw [if_pos h2]
      have hm := mag_lt_of_length_lt b a hb ha h2
      unfold big_integer.positive big_integer.value
      cases hsa : a.sign <;> cases hsb : b.sign <;>
        simp only [if_true, if_false, Bool.false_eq_true]
      all_goals first
        | (symm; apply Int.sign_eq_one_of_pos; omega)
        | (symm; apply Int.sign_eq_neg_one_of_neg; omega)
    · rw [if_neg h2]
      have hlen : a.dig.length = b.dig.length := by omega
      have t1 : a.dig.take (a.dig.length - 1 + 1) = a.dig := by
        rw [Nat.sub_add_cancel la]; exact List.take_length _
      have t2 : b.dig.take (a.dig.length - 1 + 1) = b.dig := by
        rw [Nat.sub_add_cancel la, hlen]; exact List.take_length _
      rw [compare_loop_spec a b ha.1 hb.1, t1, t2]
      unfold big_integer.positive big_integer.value
      cases hsa : a.sign <;> cases hsb : b.sign
      · simp only [bne_self_eq_false, Bool.false_eq_true, if_false]
        rcases Nat.lt_trichotomy (mag a.dig) (mag b.dig) with h | h | h
        · rw [if_pos h]; symm; apply Int.sign_eq_one_of_pos; omega
        · rw [if_neg (by omega), if_neg (by omega), h]; simp
        · rw [if_neg (by omega), if_pos h]; symm; apply Int.sign_eq_neg_one_of_neg; omega
      · have := normalized_neg_mag_pos a ha hsa
        simp only [Bool.false_eq_true, if_false, if_true]
        symm; apply Int.sign_eq_neg_one_of_neg; simp; omega
      · have := normalized_neg_mag_pos b hb hsb
        simp only [Bool.false_eq_true, if_false, if_true]
        symm; apply Int.sign_eq_one_of_pos; simp; omega
      · simp only [bne_self_eq_false, Bool.false_eq_true, if_false, if_true]
        rcases Nat.lt_trichotomy (mag a.dig) (mag b.dig) with h | h | h
        · rw [if_pos h]; symm; apply Int.sign_eq_neg_one_of_neg; omega
        · rw [if_neg (by omega), if_neg (by omega), h]; simp
        · rw [if_neg (by omega), if_pos h]; symm; apply Int.sign_eq_one_of_pos; omega

theorem int_sign_cases (x : Int) :
    (x < 0 ∧ Int.sign x = -1) ∨ (x = 0 ∧ Int.sign x = 0) ∨ (0 < x ∧ Int.sign x = 1) := by
  rcases lt_trichotomy x 0 with h | h | h
  · exact Or.inl ⟨h, Int.sign_eq_neg_one_of_neg h⟩
  · exact Or.inr (Or.inl ⟨h, by simp [h]⟩)
  · exact Or.inr (Or.inr ⟨h, Int.sign_eq_one_of_pos h⟩)

theorem op_lt_iff (a b : big_integer) (ha : a.normalized) (hb : b.normalized) :
    op_lt a b = true ↔ a.value < b.value := by
  unfold op_lt
  rw [compare_spec a b ha hb, decide_eq_true_iff]
  rcases int_sign_cases (a.value - b.value) with h | h | h <;> rw [h.2] <;> omega

theorem op_gt_iff (a b : big_integer) (ha : a.normalized) (hb : b.normalized) :
    op_gt a b = true ↔ b.value < a.value := by
  unfold op_gt
  rw [compare_spec a b ha hb, decide_eq_true_iff]
  rcases int_sign_cases (a.value - b.value) with h | h | h <;> rw [h.2] <;> omega

theorem op_eq_iff (a b : big_integer) (ha : a.normalized) (hb : b.normalized) :
    op_eq a b = true ↔ a.value = b.value := by
  unfold op_eq
  rw [compare_spec a b ha hb, beq_iff_eq]
  rcases int_sign_cases (a.value - b.value) with h | h | h <;> rw [h.2] <;> omega

theorem op_ne_iff (a b : big_integer) (ha : a.normalized) (hb : b.normalized) :
    op_ne a b = true ↔ a.value ≠ b.value := by
  unfold op_ne
  rw [compare_spec a b ha hb, bne_iff_ne]
  rcases int_sign_cases (a.value - b.value) with h | h | h <;> rw [h.2] <;> omega

theorem op_le_iff (a b : big_integer) (ha : a.normalized) (hb : b.normalized) :
    op_le a b = true ↔ a.value ≤ b.value := by
  unfold op_le
  rw [compare_spec a b ha hb, decide_eq_true_iff]
  rcases int_sign_cases (a.value - b.value) with h | h | h <;> rw [h.2] <;> omega

theorem op_ge_iff (a b : big_integer) (ha : a.normalized) (hb : b.normalized) :
    op_ge a b = true ↔ b.value ≤ a.value := by
  unfold op_ge
  rw [compare_spec a b ha hb, decide_eq_true_iff]
  rcases int_sign_cases (a.value - b.value) with h | h | h <;> rw [h.2] <;> omega

/-! ## Constructors and unary operators -/

theorem of_uint_normalized (m : Nat) (hm : m < 4294967296) :
    (big_integer.of_uint m).normalized := by
  refine ⟨?_, by simp [big_integer.of_uint], ?_, ?_⟩
  · intro d hd; simp [big_integer.of_uint] at hd; omega
  · intro h; simp [big_integer.of_uint] at h; simp [big_integer.of_uint, h]
  · intro _; rfl

theorem of_uint_value (m : Nat) : (big_integer.of_uint m).value = m := by
  simp [big_integer.of_uint, big_integer.value, mag]

theorem of_uint_mag (m : Nat) : mag (big_integer.of_uint m).dig = m := by
  simp [big_integer.of_uint, mag]

theorem of_int_zero : big_integer.of_int 0 = ⟨true, [0]⟩ := by decide

theorem zero_normalized : (big_integer.of_int 0).normalized := by decide

theorem zero_value : (big_integer.of_int 0).value = 0 := by decide

theorem value_eq_zero_iff (a : big_integer) : a.value = 0 ↔ mag a.dig = 0 := by
  unfold big_integer.value; split <;> omega

theorem op_ne_zero_iff (a : big_integer) (ha : a.normalized) :
    op_ne a (big_integer.of_int 0) = true ↔ mag a.dig ≠ 0 := by
  rw [op_ne_iff a _ ha zero_normalized, zero_value, Ne, value_eq_zero_iff]

theorem op_neg_value (a : big_integer) (ha : a.normalized) : (op_neg a).value = -a.value := by
  unfold op_neg
  split
  · unfold big_integer.value; cases a.sign <;> simp
  · rename_i h
    rw [op_ne_zero_iff a ha] at h
    have : a.value = 0 := (value_eq_zero_iff a).2 (by omega)
    omega

theorem op_neg_mag (a : big_integer) : mag (op_neg a).dig = mag a.dig := by
  unfold op_neg; split <;> rfl

theorem op_neg_dig (a : big_integer) : (op_neg a).dig = a.dig := by
  unfold op_neg; split <;> rfl

theorem op_neg_normalized (a : big_integer) (ha : a.normalized) : (op_neg a).normalized := by
  unfold op_neg
  split
  · rename_i h
    rw [op_ne_zero_iff a ha] at h
    refine ⟨ha.1, ha.2.1, ha.2.2.1, ?_⟩
    intro h0; simp only at h0; rw [h0] at h; simp [mag] at h
  · exact ha

theorem op_neg_sign (a : big_integer) (ha : a.normalized) (h : mag a.dig ≠ 0) :
    (op_neg a).sign = !a.sign := by
  unfold op_neg
  rw [if_pos ((op_ne_zero_iff a ha).2 h)]

theorem abs_normalized (a : big_integer) (ha : a.normalized) : (abs a).normalized := by
  unfold abs; split
  · exact op_neg_normalized a ha
  · exact ha

theorem abs_mag (a : big_integer) : mag (abs a).dig = mag a.dig := by
  unfold abs; split
  · exact op_neg_mag a
  · rfl

theorem abs_sign (a : big_integer) (ha : a.normalized) : (abs a).sign = true := by
  unfold abs
  split
  · rename_i h
    rw [op_lt_iff a _ ha zero_normalized, zero_value] at h
    have hs : a.sign = false := by
      unfold big_integer.value at h
      cases hs : a.sign
      · rfl
      · rw [hs] at h; simp at h; omega
    have hm := normalized_neg_mag_pos a ha hs
    rw [op_neg_sign a ha (by omega), hs]; rfl
  · rename_i h
    rw [op_lt_iff a _ ha zero_normalized, zero_value] at h
    cases hs : a.sign
    · exfalso
      have hm := normalized_neg_mag_pos a ha hs
      apply h
      unfold big_integer.value; rw [if_neg (by simp [hs])]; omega
    · rfl

theorem abs_value (a : big_integer) (ha : a.normalized) : (abs a).value = mag a.dig := by
  unfold big_integer.value
  rw [abs_sign a ha, if_pos rfl, abs_mag]

/-! ## The digit loops of `+=` and `-=` -/

theorem add_loop_succ (dig rhs : List Nat) (hd : ∀ d ∈ dig, d < 4294967296)
    (hr : ∀ d ∈ rhs, d < 4294967296) (n i carry : Nat) (c : List Nat) (hc : carry ≤ 1) :
    add_loop dig rhs (n + 1) i carry c =
      add_loop dig rhs n (i + 1) ((carry + dig.getD i 0 + rhs.getD i 0) / 4294967296)
        (c.set i ((carry + dig.getD i 0 + rhs.getD i 0) % 4294967296)) := by
  have h1 := getD_lt dig hd i
  have h2 := getD_lt rhs hr i
  rw [add_loop]
  by_cases c1 : i < dig.length <;> by_cases c2 : i < rhs.length
  · simp only [if_pos c1, if_pos c2]
    rw [add_spec carry _ (by omega) h1]
    simp only
    rw [add_spec _ _ (Nat.mod_lt _ (by omega)) h2]
    simp only
    congr 2 <;> omega
  · simp only [if_pos c1, if_neg c2]
    rw [add_spec carry _ (by omega) h1]
    simp only
    rw [List.getD_eq_default rhs 0 (by omega)]
    congr 2
  · simp only [if_neg c1, if_pos c2]
    rw [add_spec carry _ (by omega) h2]
    simp only
    rw [List.getD_eq_default dig 0 (by omega)]
    congr 2; omega
  · simp only [if_neg c1, if_neg c2]
    rw [List.getD_eq_default dig 0 (by omega), List.getD_eq_default rhs 0 (by omega)]
    have e1 : (carry + 0 + 0) / 4294967296 = 0 := by omega
    have e2 : (carry + 0 + 0) % 4294967296 = carry := by omega
    rw [e1, e2]

theorem add_loop_length (dig rhs : List Nat) (n i carry : Nat) (c : List Nat) :
    (add_loop dig rhs n i carry c).length = c.length := by
  induction n generalizing i carry c with
  | zero => rfl
  | succ n ih => rw [add_loop, ih]; simp

theorem add_loop_lt (dig rhs : List Nat) (hd : ∀ d ∈ dig, d < 4294967296)
    (hr : ∀ d ∈ rhs, d < 4294967296) (n i carry : Nat) (c : List Nat) (hcarry : carry ≤ 1)
    (hc : ∀ d ∈ c, d < 4294967296) :
    ∀ d ∈ add_loop dig rhs n i carry c, d < 4294967296 := by
  induction n generalizing i carry c with
  | zero => exact hc
  | succ n ih =>
    have h1 := getD_lt dig hd i
    have h2 := getD_lt rhs hr i
    rw [add_loop_succ dig rhs hd hr n i carry c hcarry]
    apply ih
    · omega
    · exact mem_set_lt _ hc _ _ (Nat.mod_lt _ (by omega))

/-- The value computed by the digit loop of `+=`: the digits below `i` are
kept and the rest holds the sum of the remaining digits and the carry. -/
theorem add_loop_mag (dig rhs : List Nat) (hd : ∀ d ∈ dig, d < 4294967296)
    (hr : ∀ d ∈ rhs, d < 4294967296) (n i carry : Nat) (c : List Nat) (hcarry : carry ≤ 1)
    (hlen : i + n = c.length)
    (hfit : carry + mag (dig.drop i) + mag (rhs.drop i) < 4294967296 ^ n) :
    mag (add_loop dig rhs n i carry c) =
      mag (c.take i) + 4294967296 ^ i * (carry + mag (dig.drop i) + mag (rhs.drop i)) := by
  induction n generalizing i carry c with
  | zero =>
    simp only [pow_zero] at hfit
    have : carry + mag (dig.drop i) + mag (rhs.drop i) = 0 := by omega
    rw [this, add_loop, List.take_of_length_le (by omega)]
    simp
  | succ n ih =>
    have h1 := getD_lt dig hd i
    have h2 := getD_lt rhs hr i
    have e1 := mag_drop dig i
    have e2 := mag_drop rhs i
    have hs := Nat.div_add_mod (carry + dig.getD i 0 + rhs.getD i 0) 4294967296
    have hfit' : (carry + dig.getD i 0 + rhs.getD i 0) / 4294967296 + mag (dig.drop (i + 1))
        + mag (rhs.drop (i + 1)) < 4294967296 ^ n := by
      rw [e1, e2, pow_succ] at hfit
      generalize (4294967296 : Nat) ^ n = P at *
      omega
    rw [add_loop_succ dig rhs hd hr n i carry c hcarry,
      ih (i + 1) _ _ (by omega) (by simp; omega) hfit',
      mag_take_set_succ c i _ (by omega), pow_succ, e1, e2]
    generalize mag (dig.drop (i + 1)) = D at *
    generalize mag (rhs.drop (i + 1)) = R at *
    generalize dig.getD i 0 = x at *
    generalize rhs.getD i 0 = y at *
    generalize (carry + x + y) / 4294967296 = q at *
    generalize (carry + x + y) % 4294967296 = r at *
    have : carry + (x + 4294967296 * D) + (y + 4294967296 * R)
        = r + 4294967296 * (q + D + R) := by omega
    rw [this]; ring

theorem sub_loop_succ (dig rhs : List Nat) (hd : ∀ d ∈ dig, d < 4294967296)
    (hr : ∀ d ∈ rhs, d < 4294967296) (n i take : Nat) (c : List Nat) (ht : take ≤ 1) :
    sub_loop dig rhs (n + 1) i take c =
      sub_loop dig rhs n (i + 1) (if dig.getD i 0 < rhs.getD i 0 + take then 1 else 0)
        (c.set i ((dig.getD i 0 + 4294967296 + 4294967296 - rhs.getD i 0 - take)
          % 4294967296)) := by
  have h1 := getD_lt dig hd i
  have h2 := getD_lt rhs hr i
  have e : (if i < rhs.length then rhs.getD i 0 else 0) = rhs.getD i 0 := by
    split
    · rfl
    · rw [List.getD_eq_default rhs 0 (by omega)]
  rw [sub_loop]
  simp only [e]
  congr 1
  by_cases h : dig.getD i 0 < rhs.getD i 0 + take
  · rw [if_pos h]
    have : (decide (dig.getD i 0 < take) ||
        decide ((dig.getD i 0 + 4294967296 - take) % 4294967296 < rhs.getD i 0)) = true := by
      simp only [Bool.or_eq_true, decide_eq_true_eq]; omega
    rw [this]; rfl
  · rw [if_neg h]
    have : (decide (dig.getD i 0 < take) ||
        decide ((dig.getD i 0 + 4294967296 - take) % 4294967296 < rhs.getD i 0)) = false := by
      simp only [Bool.or_eq_false_iff, decide_eq_false_iff_not]; omega
    rw [this]; rfl

theorem sub_loop_length (dig rhs : List Nat) (n i take : Nat) (c : List Nat) :
    (sub_loop dig rhs n i take c).length = c.length := by
  induction n generalizing i take c with
  | zero => rfl
  | succ n ih => rw [sub_loop, ih]; simp

theorem sub_loop_lt (dig rhs : List Nat) (n i take : Nat) (c : List Nat)
    (hc : ∀ d ∈ c, d < 4294967296) :
    ∀ d ∈ sub_loop dig rhs n i take c, d < 4294967296 := by
  induction n generalizing i take c with
  | zero => exact hc
  | succ n ih =>
    rw [sub_loop]
    apply ih
    exact mem_set_lt _ hc _ _ (Nat.mod_lt _ (by omega))

/-- The value computed by the digit loop of `-=`, as long as the remaining
digits of the minuend cover the remaining digits of the subtrahend and the
pending borrow. -/
theorem sub_loop_mag (dig rhs : List Nat) (hd : ∀ d ∈ dig, d < 4294967296)
    (hr : ∀ d ∈ rhs, d < 4294967296) (n i take : Nat) (c : List Nat) (ht : take ≤ 1)
    (hlen : i + n = c.length) (hlen' : i + n = dig.length)
    (hge : mag (rhs.drop i) + take ≤ mag (dig.drop i)) :
    mag (sub_loop dig rhs n i take c) + 4294967296 ^ i * (mag (rhs.drop i) + take) =
      mag (c.take i) + 4294967296 ^ i * mag (dig.drop i) := by
  induction n generalizing i take c with
  | zero =>
    have e : dig.drop i = [] := List.drop_of_length_le (by omega)
    rw [e] at hge ⊢
    simp only [mag] at hge ⊢
    have : mag (rhs.drop i) + take = 0 := by omega
    rw [this, sub_loop, List.take_of_length_le (by omega)]
  | succ n ih =>
    have h1 := getD_lt dig hd i
    have h2 := getD_lt rhs hr i
    have e1 := mag_drop dig i
    have e2 := mag_drop rhs i
    have hge' : mag (rhs.drop (i + 1)) + (if dig.getD i 0 < rhs.getD i 0 + take then 1 else 0)
        ≤ mag (dig.drop (i + 1)) := by
      rw [e1, e2] at hge
      split <;> omega
    have key := ih (i + 1) (if dig.getD i 0 < rhs.getD i 0 + take then 1 else 0)
      (c.set i ((dig.getD i 0 + 4294967296 + 4294967296 - rhs.getD i 0 - take) % 4294967296))
      (by split <;> omega) (by simp; omega) (by omega) hge'
    rw [sub_loop_succ dig rhs hd hr n i take c ht]
    rw [mag_take_set_succ c i _ (by omega), pow_succ] at key
    rw [e1, e2]
    generalize mag (dig.drop (i + 1)) = D at *
    generalize mag (rhs.drop (i + 1)) = R at *
    generalize dig.getD i 0 = x at *
    generalize rhs.getD i 0 = y at *
    generalize sub_loop dig rhs n (i + 1) _ _ = res at *
    generalize mag (c.take i) = C at *
    generalize (4294967296 : Nat) ^ i = P at *
    by_cases h : x < y + take
    · rw [if_pos h] at key
      have hd' : (x + 4294967296 + 4294967296 - y - take) % 4294967296 + y + take
          = x + 4294967296 := by omega
      generalize (x + 4294967296 + 4294967296 - y - take) % 4294967296 = d at *
      zify at key hd' ⊢
      linear_combination key + (P : Int) * hd'
    · rw [if_neg h] at key
      have hd' : (x + 4294967296 + 4294967296 - y - take) % 4294967296 + y + take = x := by
        omega
      generalize (x + 4294967296 + 4294967296 - y - take) % 4294967296 = d at *
      zify at key hd' ⊢
      linear_combination key + (P : Int) * hd'

/-! ## `operator+=` and `operator-=` -/

theorem replicate_zero_lt (n : Nat) : ∀ d ∈ List.replicate n 0, d < 4294967296 := by
  intro d hd
  rw [List.mem_replicate] at hd
  omega

theorem value_mk (s : Bool) (l : List Nat) :
    (big_integer.mk s l).value = if s then (mag l : Int) else -(mag l : Int) := rfl

/-- With equal signs `+=` adds the magnitudes and keeps the sign; the operands
need not be normalized. -/
theorem add_assign_same_sign (fuel : Nat) (a b : big_integer) (ha : a.well_typed)
    (hb : b.well_typed) (hs : a.sign = b.sign) :
    ∃ r, op_add_assign (fuel + 1) a b = .ok r ∧ r.normalized ∧
      mag r.dig = mag a.dig + mag b.dig ∧ r.value = a.value + b.value := by
  have hfit : 0 + mag (a.dig.drop 0) + mag (b.dig.drop 0)
      < 4294967296 ^ (max a.dig.length b.dig.length + 2) := by
    have h1 := mag_lt a.dig ha
    have h2 := mag_lt b.dig hb
    have h3 : 4294967296 ^ a.dig.length ≤ 4294967296 ^ (max a.dig.length b.dig.length) :=
      Nat.pow_le_pow_right (by omega) (le_max_left _ _)
    have h4 : 4294967296 ^ b.dig.length ≤ 4294967296 ^ (max a.dig.length b.dig.length) :=
      Nat.pow_le_pow_right (by omega) (le_max_right _ _)
    simp only [List.drop_zero, pow_succ]
    generalize (4294967296 : Nat) ^ (max a.dig.length b.dig.length) = P at *
    omega
  have hm := add_loop_mag a.dig b.dig ha hb (max a.dig.length b.dig.length + 2) 0 0
    (List.replicate (max a.dig.length b.dig.length + 2) 0) (by omega) (by simp) hfit
  simp only [List.take_zero, mag, pow_zero, List.drop_zero, Nat.zero_add, Nat.one_mul] at hm
  have hl := add_loop_lt a.dig b.dig ha hb (max a.dig.length b.dig.length + 2) 0 0
    (List.replicate (max a.dig.length b.dig.length + 2) 0) (by omega) (replicate_zero_lt _)
  refine ⟨big_integer.normalize ⟨a.sign, add_loop a.dig b.dig
    (max a.dig.length b.dig.length + 2) 0 0
    (List.replicate (max a.dig.length b.dig.length + 2) 0)⟩, ?_, ?_, ?_, ?_⟩
  · rw [op_add_assign, if_neg (by simp [hs])]
    simp only [List.length_replicate]
  · apply normalize_normalized
    · exact fun d hd => hl d (by simpa using hd)
    · intro h
      have := congrArg List.length h
      simp [add_loop_length] at this
  · rw [normalize_mag]; simpa using hm
  · rw [normalize_value, value_mk]
    rw [hm]
    unfold big_integer.value
    rw [← hs]
    cases a.sign <;> simp
    omega

/-- With equal signs and a minuend of at least the subtrahend's magnitude,
`-=` subtracts the magnitudes digit by digit. -/
theorem sub_assign_direct (fuel : Nat) (a b : big_integer) (ha : a.normalized)
    (hb : b.normalized) (hs : a.sign = b.sign) (hge : mag b.dig ≤ mag a.dig) :
    ∃ r, op_sub_assign (fuel + 1) a b = .ok r ∧ r.normalized ∧
      mag r.dig + mag b.dig = mag a.dig ∧ r.value = a.value - b.value := by
  have hm := sub_loop_mag a.dig b.dig ha.1 hb.1 a.dig.length 0 0
    (List.replicate a.dig.length 0) (by omega) (by simp) (by simp) (by simpa using hge)
  simp only [List.take_zero, mag, pow_zero, List.drop_zero, Nat.zero_add, Nat.one_mul,
    Nat.add_zero] at hm
  have hl := sub_loop_lt a.dig b.dig a.dig.length 0 0
    (List.replicate a.dig.length 0) (replicate_zero_lt _)
  have hcond : ((a.positive && op_lt a b) || (!a.positive && op_gt a b)) = false := by
    have h1 := op_lt_iff a b ha hb
    have h2 := op_gt_iff a b ha hb
    unfold big_integer.value at h1 h2
    rw [← hs] at h1 h2
    unfold big_integer.positive
    cases hsa : a.sign
    · rw [hsa] at h2
      simp only [Bool.false_eq_true, if_false] at h2
      have : op_gt a b = false := by
        rw [← Bool.not_eq_true, h2]; omega
      simp [this]
    · rw [hsa] at h1
      simp only [if_true] at h1
      have : op_lt a b = false := by
        rw [← Bool.not_eq_true, h1]; omega
      simp [this]
  refine ⟨big_integer.normalize ⟨a.sign, sub_loop a.dig b.dig a.dig.length 0 0
    (List.replicate a.dig.length 0)⟩, ?_, ?_, ?_, ?_⟩
  · rw [op_sub_assign, if_neg (by simp [hs]), if_neg (by simp [hcond])]
  · apply normalize_normalized
    · exact fun d hd => hl d (by simpa using hd)
    · intro h
      have := congrArg List.length h
      simp only [sub_loop_length, List.length_replicate, List.length_nil] at this
      have := normalized_length_pos a ha
      omega
  · rw [normalize_mag]; simpa using hm
  · rw [normalize_value, value_mk]
    unfold big_integer.value
    rw [← hs]
    cases a.sign <;> simp <;> omega

theorem sub_assign_same_sign (fuel : Nat) (a b : big_integer) (ha : a.normalized)
    (hb : b.normalized) (hs : a.sign = b.sign) :
    ∃ r, op_sub_assign (fuel + 2) a b = .ok r ∧ r.normalized ∧
      r.value = a.value - b.value := by
  by_cases hge : mag b.dig ≤ mag a.dig
  · obtain ⟨r, h1, h2, _, h4⟩ := sub_assign_direct (fuel + 1) a b ha hb hs hge
    exact ⟨r, h1, h2, h4⟩
  · obtain ⟨t, h1, h2, _, h4⟩ := sub_assign_direct fuel b a hb ha hs.symm (by omega)
    have hcond : ((a.positive && op_lt a b) || (!a.positive && op_gt a b)) = true := by
      have e1 := op_lt_iff a b ha hb
      have e2 := op_gt_iff a b ha hb
      unfold big_integer.value at e1 e2
      rw [← hs] at e1 e2
      unfold big_integer.positive
      cases hsa : a.sign
      · rw [hsa] at e2
        simp only [Bool.false_eq_true, if_false] at e2
        have : op_gt a b = true := by rw [e2]; omega
        simp [this]
      · rw [hsa] at e1
        simp only [if_true] at e1
        have : op_lt a b = true := by rw [e1]; omega
        simp [this]
    refine ⟨op_neg t, ?_, op_neg_normalized t h2, ?_⟩
    · rw [op_sub_assign, if_neg (by simp [hs]), if_pos hcond, h1]
    · rw [op_neg_value t h2, h4]; omega

theorem sign_of_op_neg (a b : big_integer) (hb : b.normalized) (hs : a.sign ≠ b.sign)
    (hm : mag b.dig ≠ 0) : a.sign = (op_neg b).sign := by
  rw [op_neg_sign b hb hm]
  cases h1 : a.sign <;> cases h2 : b.sign <;> simp_all

/-- The sum of two normalized operands, except for a negative left operand
with a zero right operand. -/
theorem add_assign_spec (fuel : Nat) (a b : big_integer) (ha : a.normalized)
    (hb : b.normalized) (h : a.sign = false → mag b.dig ≠ 0) :
    ∃ r, op_add_assign (fuel + 3) a b = .ok r ∧ r.normalized ∧
      r.value = a.value + b.value := by
  by_cases hs : a.sign = b.sign
  · obtain ⟨r, h1, h2, _, h4⟩ := add_assign_same_sign (fuel + 2) a b ha.1 hb.1 hs
    exact ⟨r, h1, h2, h4⟩
  · have hm : mag b.dig ≠ 0 := by
      cases hsa : a.sign
      · exact h hsa
      · have : b.sign = false := by
          cases hsb : b.sign
          · rfl
          · rw [hsa, hsb] at hs; exact absurd rfl hs
        have := normalized_neg_mag_pos b hb this
        omega
    obtain ⟨r, h1, h2, h3⟩ := sub_assign_same_sign fuel a (op_neg b) ha
      (op_neg_normalized b hb) (sign_of_op_neg a b hb hs hm)
    refine ⟨r, ?_, h2, ?_⟩
    · rw [op_add_assign, if_pos (by simpa using hs), h1]
    · rw [h3, op_neg_value b hb]; omega

/-- The difference of two normalized operands, except for a negative left
operand with a zero right operand. -/
theorem sub_assign_spec (fuel : Nat) (a b : big_integer) (ha : a.normalized)
    (hb : b.normalized) (h : a.sign = false → mag b.dig ≠ 0) :
    ∃ r, op_sub_assign (fuel + 3) a b = .ok r ∧ r.normalized ∧
      r.value = a.value - b.value := by
  by_cases hs : a.sign = b.sign
  · obtain ⟨r, h1, h2, h3⟩ := sub_assign_same_sign (fuel + 1) a b ha hb hs
    exact ⟨r, h1, h2, h3⟩
  · have hm : mag b.dig ≠ 0 := by
      cases hsa : a.sign
      · exact h hsa
      · have : b.sign = false := by
          cases hsb : b.sign
          · rfl
          · rw [hsa, hsb] at hs; exact absurd rfl hs
        have := normalized_neg_mag_pos b hb this
        omega
    obtain ⟨r, h1, h2, _, h4⟩ := add_assign_same_sign (fuel + 1) a (op_neg b) ha.1
      (op_neg_normalized b hb).1 (sign_of_op_neg a b hb hs hm)
    refine ⟨r, ?_, h2, ?_⟩
    · rw [op_sub_assign, if_pos (by simpa using hs), h1]
    · rw [h4, op_neg_value b hb]; omega

/-- A negative left operand with the zero right operand: `+=` and `-=` hand
the call to each other for ever. -/
theorem add_sub_zero_no_return (a : big_integer) (ha : a.sign = false) (fuel : Nat) :
    op_add_assign fuel a ⟨true, [0]⟩ = .error .no_fuel ∧
      op_sub_assign fuel a ⟨true, [0]⟩ = .error .no_fuel := by
  have hz : op_neg ⟨true, [0]⟩ = ⟨true, [0]⟩ := by decide
  induction fuel with
  | zero => exact ⟨rfl, rfl⟩
  | succ n ih =>
    constructor
    · rw [op_add_assign, if_pos (by simp [ha]), hz]; exact ih.2
    · rw [op_sub_assign, if_pos (by simp [ha]), hz]; exact ih.1

/-- A normalized representation is determined by its value. -/
theorem normalized_ext (a b : big_integer) (ha : a.normalized) (hb : b.normalized)
    (h : a.value = b.value) : a = b := by
  have hmag : mag a.dig = mag b.dig := by
    unfold big_integer.value at h
    cases hsa : a.sign <;> cases hsb : b.sign <;> rw [hsa, hsb] at h <;>
      simp only [if_true, if_false, Bool.false_eq_true] at h
    · omega
    · have := normalized_neg_mag_pos a ha hsa; omega
    · have := normalized_neg_mag_pos b hb hsb; omega
    · omega
  have hdig : a.dig = b.dig := by
    by_cases h0 : mag a.dig = 0
    · rw [normalized_mag_zero a ha h0, normalized_mag_zero b hb (by omega)]
    · have na : a.dig ≠ [0] := by intro e; rw [e] at h0; simp [mag] at h0
      have nb : b.dig ≠ [0] := by intro e; rw [e] at hmag; simp [mag] at hmag; omega
      have w1 := Nat.digits_ofDigits 4294967296 (by omega) a.dig ha.1
        (fun hne => by
          have := normalized_top a ha na
          rwa [List.getLastD_eq_getLast?, List.getLast?_eq_getLast _ hne] at this)
      have w2 := Nat.digits_ofDigits 4294967296 (by omega) b.dig hb.1
        (fun hne => by
          have := normalized_top b hb nb
          rwa [List.getLastD_eq_getLast?, List.getLast?_eq_getLast _ hne] at this)
      rw [← mag_eq_ofDigits] at w1 w2
      rw [← w1, ← w2, hmag]
  have hsign : a.sign = b.sign := by
    unfold big_integer.value at h
    cases hsa : a.sign <;> cases hsb : b.sign <;> rewrite [hsa, hsb] at h <;>
      simp only [if_true, if_false, Bool.false_eq_true] at h
    · rfl
    · have := normalized_neg_mag_pos a ha hsa; omega
    · have := normalized_neg_mag_pos b hb hsb; omega
    · rfl
  cases a; cases b; simp_all

/-! ## The digit product `mult` -/

theorem and_high_mask (a j : Nat) (ha : a < 2 ^ 32) (hj : j ≤ 32) :
    (a &&& (2 ^ 32 - 2 ^ j)) >>> j = a / 2 ^ j := by
  have hM : 2 ^ 32 - 2 ^ j = (2 ^ (32 - j) - 1) <<< j := by
    rw [Nat.shiftLeft_eq, Nat.sub_mul, ← pow_add, Nat.sub_add_cancel hj, Nat.one_mul]
  rw [hM, ← Nat.shiftRight_eq_div_pow]
  apply Nat.eq_of_testBit_eq
  intro i
  simp only [Nat.testBit_shiftRight, Nat.testBit_and, Nat.testBit_shiftLeft,
    Nat.testBit_two_pow_sub_one]
  by_cases h : j + i < 32
  · have h1 : decide (j + i ≥ j) = true := by simp
    have h2 : decide (j + i - j < 32 - j) = true := by simp; omega
    rw [h1, h2]; simp
  · have : a.testBit (j + i) = false :=
      Nat.testBit_lt_two_pow (lt_of_lt_of_le ha (Nat.pow_le_pow_right (by omega) (by omega)))
    rw [this]; simp

theorem high_mask_next (bit : Nat) (h1 : 1 ≤ bit) (h2 : bit ≤ 31) :
    (2 ^ 32 - 2 ^ (32 - bit)) ||| (1 <<< (31 - bit)) = 2 ^ 32 - 2 ^ (32 - (bit + 1)) := by
  interval_cases bit <;> rfl

theorem low_mask (bit : Nat) (h1 : 1 ≤ bit) (h2 : bit ≤ 31) :
    0xFFFFFFFF - (2 ^ 32 - 2 ^ (32 - bit)) = 2 ^ (32 - bit) - 1 := by
  interval_cases bit <;> rfl

theorem mult_loop_spec (a b : Nat) (ha : a < 4294967296) (n bit : Nat)
    (result : Nat × Nat) (hbit : 1 ≤ bit) (hn : bit + n = 32)
    (hlo : result.2 < 4294967296)
    (hinv : result.1 * 4294967296 + result.2 = a * (b % 2 ^ bit)) :
    (mult_loop a b n bit (2 ^ 32 - 2 ^ (32 - bit)) result).1 * 4294967296
        + (mult_loop a b n bit (2 ^ 32 - 2 ^ (32 - bit)) result).2 = a * (b % 2 ^ 32) ∧
      (mult_loop a b n bit (2 ^ 32 - 2 ^ (32 - bit)) result).2 < 4294967296 := by
  induction n generalizing bit result with
  | zero =>
    have : bit = 32 := by omega
    subst this
    exact ⟨hinv, hlo⟩
  | succ n ih =>
    rw [mult_loop, high_mask_next bit hbit (by omega)]
    have hb : b % 2 ^ (bit + 1) = b % 2 ^ bit + 2 ^ bit * ((b / 2 ^ bit) % 2) := by
      rw [pow_succ, Nat.mod_mul]
    have hlt : b % 2 ^ (bit + 1) < 2 ^ (bit + 1) := Nat.mod_lt _ (by positivity)
    have hle : 2 ^ (bit + 1) ≤ 4294967296 := by
      have : (4294967296 : Nat) = 2 ^ 32 := by norm_num
      rw [this]; exact Nat.pow_le_pow_right (by omega) (by omega)
    have hprod : a * (b % 2 ^ (bit + 1)) < 4294967296 * 4294967296 :=
      Nat.mul_lt_mul'' ha (by omega)
    apply ih (bit + 1) _ (by omega) (by omega)
    · split
      · exact add_snd_lt _ _
      · exact hlo
    · rw [Nat.shiftRight_eq_div_pow, Nat.and_one_is_mod]
      by_cases hk : b / 2 ^ bit % 2 ≠ 0
      · rw [if_pos hk]
        have hk1 : b / 2 ^ bit % 2 = 1 := by omega
        rw [hk1, Nat.mul_one] at hb
        have e0 : (4294967296 : Nat) = 2 ^ 32 := by norm_num
        rw [and_high_mask a (32 - bit) (by rw [← e0]; exact ha) (by omega),
          low_mask bit hbit (by omega), Nat.and_pow_two_sub_one_eq_mod, Nat.shiftLeft_eq]
        have hsplit := Nat.div_add_mod a (2 ^ (32 - bit))
        have hpp : 2 ^ (32 - bit) * 2 ^ bit = 4294967296 := by
          rw [← pow_add, Nat.sub_add_cancel (by omega)]; norm_num
        have hrem : a % 2 ^ (32 - bit) < 2 ^ (32 - bit) := Nat.mod_lt _ (by positivity)
        have hlow : a % 2 ^ (32 - bit) * 2 ^ bit < 4294967296 := by
          rw [← hpp]; exact Nat.mul_lt_mul_of_pos_right hrem (by positivity)
        have hshift : a / 2 ^ (32 - bit) * 4294967296 + a % 2 ^ (32 - bit) * 2 ^ bit
            = a * 2 ^ bit := by
          rw [← hpp]
          calc a / 2 ^ (32 - bit) * (2 ^ (32 - bit) * 2 ^ bit)
                + a % 2 ^ (32 - bit) * 2 ^ bit
              = (2 ^ (32 - bit) * (a / 2 ^ (32 - bit)) + a % 2 ^ (32 - bit)) * 2 ^ bit := by
                ring
            _ = a * 2 ^ bit := by rw [hsplit]
        rw [Nat.mod_eq_of_lt hlow]
        dsimp only
        rw [add_spec _ _ hlo hlow]
        dsimp only
        rw [hb, Nat.mul_add] at hprod ⊢
        rw [← hinv, ← hshift] at hprod ⊢
        generalize a / 2 ^ (32 - bit) = H at *
        generalize a % 2 ^ (32 - bit) * 2 ^ bit = L at *
        obtain ⟨r1, r2⟩ := result
        simp only at *
        omega
      · rw [if_neg hk]
        have hk0 : b / 2 ^ bit % 2 = 0 := by omega
        rw [hb, hk0, Nat.mul_zero, Nat.add_zero]
        exact hinv

/-- The pair returned by `mult` is the high and low half of the exact product. -/
theorem mult_spec (a b : Nat) (ha : a < 4294967296) (hb : b < 4294967296) :
    mult a b = (a * b / 4294967296, a * b % 4294967296) := by
  have h := mult_loop_spec a b ha 31 1 (if b &&& 1 ≠ 0 then (0, a) else (0, 0))
    (by omega) (by omega) (by split <;> simp; omega)
    (by
      rw [Nat.and_one_is_mod]
      by_cases h : b % 2 ≠ 0
      · rw [if_pos h]; simp; rw [show b % 2 = 1 by omega]; simp
      · rw [if_neg h]; simp; right; omega)
  have e : mult a b = mult_loop a b 31 1 (2 ^ 32 - 2 ^ (32 - 1))
      (if b &&& 1 ≠ 0 then (0, a) else (0, 0)) := rfl
  rw [← e, Nat.mod_eq_of_lt (by omega : b < 2 ^ 32)] at h
  obtain ⟨h1, h2⟩ := h
  generalize mult a b = p at *
  obtain ⟨p1, p2⟩ := p
  simp only at *
  rw [← h1]
  simp only [Prod.mk.injEq]
  constructor <;> omega

/-! ## `operator*=` -/

theorem mul_inner_succ (di : Nat) (rhs : List Nat) (i n j carry : Nat) (c : List Nat)
    (hdi : di < 4294967296) (hr : ∀ d ∈ rhs, d < 4294967296)
    (hc : ∀ d ∈ c, d < 4294967296) (hcarry : carry < 4294967296)
    (hcond : j < rhs.length ∨ carry ≠ 0) (hin : i + j < c.length) :
    mul_inner di rhs i (n + 1) j carry c =
      mul_inner di rhs i n (j + 1)
        ((di * rhs.getD j 0 + carry + c.getD (i + j) 0) / 4294967296)
        (c.set (i + j) ((di * rhs.getD j 0 + carry + c.getD (i + j) 0) % 4294967296)) := by
  have h1 := getD_lt rhs hr j
  have h2 := getD_lt c hc (i + j)
  have e : (if j < rhs.length then rhs.getD j 0 else 0) = rhs.getD j 0 := by
    split
    · rfl
    · rw [List.getD_eq_default rhs 0 (by omega)]
  have hp : di * rhs.getD j 0 ≤ 4294967295 * 4294967295 :=
    Nat.mul_le_mul (by omega) (by omega)
  rw [mul_inner, if_pos hcond, if_pos hin, e, mult_spec di _ hdi h1]
  dsimp only
  rw [add_spec _ _ (Nat.mod_lt _ (by omega)) hcarry]
  dsimp only
  rw [add_spec _ _ (Nat.mod_lt _ (by omega)) h2]
  dsimp only
  generalize di * rhs.getD j 0 = p at *
  generalize c.getD (i + j) 0 = x at *
  congr 1
  · omega
  · congr 1; omega

/-- The inner loop of `*=` adds `di * rhs` (from digit `j` on) and the carry
into the accumulator at offset `i + j`, without leaving the accumulator. -/
theorem mul_inner_spec (di : Nat) (rhs : List Nat) (i : Nat) (hdi : di < 4294967296)
    (hr : ∀ d ∈ rhs, d < 4294967296) (n j carry : Nat) (c : List Nat)
    (hc : ∀ d ∈ c, d < 4294967296) (hcarry : carry < 4294967296)
    (hroom : i + rhs.length < c.length) (hij : i + j ≤ c.length)
    (hfuel : c.length + 1 ≤ i + j + n)
    (hfit : mag c + 4294967296 ^ (i + j) * (carry + di * mag (rhs.drop j))
      < 4294967296 ^ c.length) :
    ∃ c', mul_inner di rhs i n j carry c = .ok c' ∧ c'.length = c.length ∧
      (∀ d ∈ c', d < 4294967296) ∧
      mag c' = mag c + 4294967296 ^ (i + j) * (carry + di * mag (rhs.drop j)) := by
  induction n generalizing j carry c with
  | zero => omega
  | succ n ih =>
    by_cases hcond : j < rhs.length ∨ carry ≠ 0
    · have hin : i + j < c.length := by
        rcases hcond with h | h
        · omega
        · by_contra hge
          have e : i + j = c.length := by omega
          rw [e] at hfit
          have : 4294967296 ^ c.length * 1
              ≤ 4294967296 ^ c.length * (carry + di * mag (rhs.drop j)) :=
            Nat.mul_le_mul_left _ (by omega)
          omega
      have h1 := getD_lt rhs hr j
      have h2 := getD_lt c hc (i + j)
      have hp : di * rhs.getD j 0 ≤ 4294967295 * 4294967295 :=
        Nat.mul_le_mul (by omega) (by omega)
      have hset := mag_set c (i + j)
        ((di * rhs.getD j 0 + carry + c.getD (i + j) 0) % 4294967296) hin
      have htot := Nat.div_add_mod (di * rhs.getD j 0 + carry + c.getD (i + j) 0) 4294967296
      have hdrop := mag_drop rhs j
      have hid : mag (c.set (i + j)
            ((di * rhs.getD j 0 + carry + c.getD (i + j) 0) % 4294967296))
          + 4294967296 ^ (i + (j + 1)) *
            ((di * rhs.getD j 0 + carry + c.getD (i + j) 0) / 4294967296
              + di * mag (rhs.drop (j + 1)))
          = mag c + 4294967296 ^ (i + j) * (carry + di * mag (rhs.drop j)) := by
        rw [hdrop, ← Nat.add_assoc, pow_succ]
        generalize (di * rhs.getD j 0 + carry + c.getD (i + j) 0) / 4294967296 = q at *
        generalize (di * rhs.getD j 0 + carry + c.getD (i + j) 0) % 4294967296 = t at *
        generalize mag (c.set (i + j) t) = M' at *
        generalize (4294967296 : Nat) ^ (i + j) = P at *
        zify at hset htot ⊢
        linear_combination hset + (P : Int) * htot
      rw [mul_inner_succ di rhs i n j carry c hdi hr hc hcarry hcond hin]
      obtain ⟨c', e1, e2, e3, e4⟩ := ih (j + 1)
        ((di * rhs.getD j 0 + carry + c.getD (i + j) 0) / 4294967296)
        (c.set (i + j) ((di * rhs.getD j 0 + carry + c.getD (i + j) 0) % 4294967296))
        (mem_set_lt c hc _ _ (Nat.mod_lt _ (by omega)))
        (by omega) (by simpa using hroom) (by simp; omega) (by simp; omega)
        (by rw [hid, List.length_set]; exact hfit)
      refine ⟨c', e1, by simpa using e2, e3, ?_⟩
      rw [e4, hid]
    · have hj : rhs.length ≤ j := by omega
      have hc0 : carry = 0 := by omega
      refine ⟨c, ?_, rfl, hc, ?_⟩
      · rw [mul_inner, if_neg hcond]
      · rw [List.drop_of_length_le hj, hc0]; simp [mag]

/-- The outer loop of `*=` adds the product of the remaining digits of the
left operand with the right operand. -/
theorem mul_outer_spec (dig rhs : List Nat) (hd : ∀ d ∈ dig, d < 4294967296)
    (hr : ∀ d ∈ rhs, d < 4294967296) (n i : Nat) (c : List Nat)
    (hc : ∀ d ∈ c, d < 4294967296) (hn : i + n = dig.length)
    (hroom : dig.length + rhs.length < c.length)
    (hfit : mag c + 4294967296 ^ i * (mag (dig.drop i) * mag rhs) < 4294967296 ^ c.length) :
    ∃ c', mul_outer dig rhs n i c = .ok c' ∧ c'.length = c.length ∧
      (∀ d ∈ c', d < 4294967296) ∧
      mag c' = mag c + 4294967296 ^ i * (mag (dig.drop i) * mag rhs) := by
  induction n generalizing i c with
  | zero =>
    refine ⟨c, rfl, rfl, hc, ?_⟩
    rw [List.drop_of_length_le (by omega)]; simp [mag]
  | succ n ih =>
    have hdrop := mag_drop dig i
    have hsplit : 4294967296 ^ i * (mag (dig.drop i) * mag rhs)
        = 4294967296 ^ (i + 0) * (0 + dig.getD i 0 * mag (rhs.drop 0))
          + 4294967296 ^ (i + 1) * (mag (dig.drop (i + 1)) * mag rhs) := by
      rw [hdrop, pow_succ]; simp only [Nat.add_zero, Nat.zero_add, List.drop_zero]; ring
    rw [hsplit, ← Nat.add_assoc] at hfit
    obtain ⟨c1, e1, e2, e3, e4⟩ := mul_inner_spec (dig.getD i 0) rhs i (getD_lt dig hd i) hr
      (c.length + 1) 0 0 c hc (by omega) (by omega) (by omega) (by omega)
      (lt_of_le_of_lt (Nat.le_add_right _ _) hfit)
    obtain ⟨c2, f1, f2, f3, f4⟩ := ih (i + 1) c1 e3 (by omega) (by omega)
      (by rw [e4, e2]; exact hfit)
    refine ⟨c2, ?_, by omega, f3, ?_⟩
    · rw [mul_outer, e1]; exact f1
    · rw [f4, e4, hsplit, Nat.add_assoc]

/-- The product: `*=` always returns, its result is normalized and its value
is the product of the values. -/
theorem mul_assign_spec (a b : big_integer) (ha : a.well_typed) (hb : b.well_typed) :
    ∃ r, op_mul_assign a b = .ok r ∧ r.normalized ∧
      mag r.dig = mag a.dig * mag b.dig ∧ r.value = a.value * b.value := by
  have hfit : mag (List.replicate (a.dig.length + b.dig.length + 1) 0)
      + 4294967296 ^ 0 * (mag (a.dig.drop 0) * mag b.dig)
      < 4294967296 ^ (List.replicate (a.dig.length + b.dig.length + 1) 0).length := by
    have h1 := mag_lt a.dig ha
    have h2 := mag_lt b.dig hb
    have h3 : mag a.dig * mag b.dig < 4294967296 ^ a.dig.length * 4294967296 ^ b.dig.length :=
      Nat.mul_lt_mul'' h1 h2
    rw [mag_replicate_zero, List.length_replicate, pow_succ, pow_add]
    simp only [pow_zero, List.drop_zero, Nat.zero_add, Nat.one_mul]
    generalize (4294967296 : Nat) ^ a.dig.length * 4294967296 ^ b.dig.length = P at *
    omega
  obtain ⟨c, e1, e2, e3, e4⟩ := mul_outer_spec a.dig b.dig ha hb a.dig.length 0
    (List.replicate (a.dig.length + b.dig.length + 1) 0) (replicate_zero_lt _)
    (by omega) (by simp) hfit
  rw [mag_replicate_zero] at e4
  simp only [pow_zero, List.drop_zero, Nat.zero_add, Nat.one_mul] at e4
  refine ⟨big_integer.normalize ⟨a.sign == b.sign, c⟩, ?_, ?_, ?_, ?_⟩
  · unfold op_mul_assign
    simp only [e1]
  · apply normalize_normalized
    · exact e3
    · intro h
      simp only at h
      rw [h] at e2
      simp at e2
  · rw [normalize_mag]; exact e4
  · rw [normalize_value, value_mk, e4]
    unfold big_integer.value
    cases a.sign <;> cases b.sign <;> simp

theorem op_mul_spec (a b : big_integer) (ha : a.well_typed) (hb : b.well_typed) :
    ∃ r, op_mul a b = .ok r ∧ r.normalized ∧
      mag r.dig = mag a.dig * mag b.dig ∧ r.value = a.value * b.value :=
  mul_assign_spec a b ha hb

/-! ## `operator/=` -/

theorem sign_of_nonneg (a : big_integer) (ha : a.normalized) (h : 0 ≤ a.value) :
    a.sign = true := by
  cases hs : a.sign
  · have := normalized_neg_mag_pos a ha hs
    unfold big_integer.value at h
    rw [hs] at h
    simp only [Bool.false_eq_true, if_false] at h
    omega
  · rfl

theorem value_of_sign (a : big_integer) (h : a.sign = true) : a.value = mag a.dig := by
  unfold big_integer.value; rw [if_pos h]

/-- The trial product `abs(rhs * m)` of the quotient-digit search. -/
theorem abs_mul_uint (rhs : big_integer) (hrhs : rhs.normalized) (m : Nat)
    (hm : m < 4294967296) :
    ∃ p, op_mul rhs (big_integer.of_uint m) = .ok p ∧ (abs p).normalized ∧
      (abs p).sign = true ∧ mag (abs p).dig = mag rhs.dig * m := by
  obtain ⟨p, e1, e2, e3, _⟩ := op_mul_spec rhs (big_integer.of_uint m) hrhs.1
    (of_uint_normalized m hm).1
  refine ⟨p, e1, abs_normalized p e2, abs_sign p e2, ?_⟩
  rw [abs_mag, e3, of_uint_mag]

theorem op_ge_nonneg (a b : big_integer) (ha : a.normalized) (hb : b.normalized)
    (hsa : a.sign = true) (hsb : b.sign = true) :
    op_ge a b = true ↔ mag b.dig ≤ mag a.dig := by
  rw [op_ge_iff a b ha hb, value_of_sign a hsa, value_of_sign b hsb]
  omega

/-- The binary search for a quotient digit keeps `rhs * l ≤ cur` and
`cur < rhs * r` (once `r` has moved) and stops with `r = l + 1`. -/
theorem div_search_spec (rhs cur : big_integer) (hrhs : rhs.normalized)
    (hcur : cur.normalized) (hs : cur.sign = true) (n l r : Nat) (hlr : l < r)
    (hr : r ≤ 0xFFFFFFFF) (hn : r - l ≤ 2 ^ n) (hl : mag rhs.dig * l ≤ mag cur.dig)
    (hu : r = 0xFFFFFFFF ∨ mag cur.dig < mag rhs.dig * r) :
    ∃ l' r', div_search rhs cur n l r = .ok (l', r') ∧ r' = l' + 1 ∧ r' ≤ 0xFFFFFFFF ∧
      mag rhs.dig * l' ≤ mag cur.dig ∧
      (r' = 0xFFFFFFFF ∨ mag cur.dig < mag rhs.dig * r') := by
  induction n generalizing l r with
  | zero =>
    refine ⟨l, r, ?_, by simp at hn; omega, hr, hl, hu⟩
    rw [div_search, if_neg (by simp at hn; omega)]
  | succ n ih =>
    by_cases hgap : r - l > 1
    · obtain ⟨p, e1, e2, e3, e4⟩ := abs_mul_uint rhs hrhs (l + (r - l) / 2) (by omega)
      rw [pow_succ] at hn
      rw [div_search, if_pos hgap]
      dsimp only
      rw [e1]
      dsimp only
      by_cases hge : op_ge cur (abs p) = true
      · rw [if_pos hge]
        rw [op_ge_nonneg cur (abs p) hcur e2 hs e3, e4] at hge
        exact ih (l + (r - l) / 2) r (by omega) hr (by omega) hge hu
      · rw [if_neg hge]
        rw [op_ge_nonneg cur (abs p) hcur e2 hs e3, e4] at hge
        exact ih l (l + (r - l) / 2) (by omega) (by omega) (by omega) hl
          (Or.inr (by omega))
    · refine ⟨l, r, ?_, by omega, hr, hl, hu⟩
      rw [div_search, if_neg hgap]

theorem two_pow_32_le (fuel : Nat) (h : 32 ≤ fuel) : 0xFFFFFFFF - 0 ≤ 2 ^ fuel := by
  have : 2 ^ 32 ≤ 2 ^ fuel := Nat.pow_le_pow_right (by omega) h
  omega

/-- One digit of the long division: the quotient digit is the quotient of the
extended remainder by the divisor and the new remainder is what is left. -/
theorem div_step_spec (fuel : Nat) (hfuel : 32 ≤ fuel) (rhs : big_integer)
    (hrhs : rhs.normalized) (di : Nat) (hdi : di < 4294967296) (cur : big_integer)
    (hcur : cur.well_typed) (hs : cur.sign = true) (hlt : mag cur.dig < mag rhs.dig) :
    ∃ q cur', div_step fuel rhs di cur = .ok (q, cur') ∧ q < 4294967296 ∧
      q = (4294967296 * mag cur.dig + di) / mag rhs.dig ∧
      mag cur'.dig = (4294967296 * mag cur.dig + di) % mag rhs.dig ∧
      cur'.normalized ∧ cur'.sign = true := by
  obtain ⟨k, rfl⟩ : ∃ k, fuel = k + 1 := ⟨fuel - 1, by omega⟩
  -- `cur.dig.insert(cur.dig.begin(), 0); cur += dig[i];`
  have hw1 : (big_integer.mk cur.sign (0 :: cur.dig)).well_typed := by
    intro d hd
    rcases List.mem_cons.1 hd with h | h
    · omega
    · exact hcur d h
  obtain ⟨c2, a1, a2, a3, a4⟩ := add_assign_same_sign k ⟨cur.sign, 0 :: cur.dig⟩
    (big_integer.of_uint di) hw1 (of_uint_normalized di hdi).1 (by rw [hs]; rfl)
  rw [of_uint_mag] at a3
  simp only [mag, Nat.zero_add] at a3
  have hs2 : c2.sign = true := by
    apply sign_of_nonneg c2 a2
    rw [a4, of_uint_value, value_mk, hs, if_pos rfl]
    omega
  -- the binary search
  obtain ⟨l, r, b1, b2, b3, b4, b5⟩ := div_search_spec rhs c2 hrhs a2 hs2 (k + 1) 0 0xFFFFFFFF
    (by omega) (by omega) (two_pow_32_le _ hfuel) (by omega) (Or.inl rfl)
  obtain ⟨pr, c1, c2', c3, c4⟩ := abs_mul_uint rhs hrhs r (by omega)
  have hR : 0 < mag rhs.dig := by omega
  have hub : mag c2.dig < mag rhs.dig * 4294967296 := by
    rw [a3]
    have : mag rhs.dig * 4294967296 = 4294967296 * mag rhs.dig := Nat.mul_comm _ _
    omega
  -- the digit that is chosen
  have hq : ∃ q, (if op_ge c2 (abs pr) then r else l) = q ∧ q < 4294967296 ∧
      mag rhs.dig * q ≤ mag c2.dig ∧ mag c2.dig < mag rhs.dig * (q + 1) := by
    by_cases hge : op_ge c2 (abs pr) = true
    · rw [if_pos hge]
      rw [op_ge_nonneg c2 (abs pr) a2 c2' hs2 c3, c4] at hge
      refine ⟨r, rfl, by omega, hge, ?_⟩
      rcases b5 with h | h
      · rw [h]; exact hub
      · omega
    · rw [if_neg hge]
      rw [op_ge_nonneg c2 (abs pr) a2 c2' hs2 c3, c4] at hge
      refine ⟨l, rfl, by omega, b4, ?_⟩
      rw [← b2]; omega
  obtain ⟨q, q1, q2, q3, q4⟩ := hq
  obtain ⟨pq, d1, d2, d3, d4⟩ := abs_mul_uint rhs hrhs q q2
  obtain ⟨c3', s1, s2, s3, s4⟩ := sub_assign_direct k c2 (abs pq) a2 d2
    (by rw [hs2, d3]) (by rw [d4]; exact q3)
  have hqdiv : (4294967296 * mag cur.dig + di) / mag rhs.dig = q := by
    rw [← a3]
    apply Nat.div_eq_of_lt_le
    · rw [Nat.mul_comm]; exact q3
    · rw [Nat.mul_comm]; exact q4
  refine ⟨q, c3', ?_, q2, hqdiv.symm, ?_, s2, ?_⟩
  · unfold div_step
    simp only [a1, b1, c1, q1, d1, op_sub, s1]
  · rw [d4] at s3
    have := Nat.div_add_mod (4294967296 * mag cur.dig + di) (mag rhs.dig)
    rw [hqdiv, ← a3] at this
    rw [← a3]
    omega
  · apply sign_of_nonneg c3' s2
    rw [s4, value_of_sign c2 hs2, value_of_sign (abs pq) d3, d4]
    omega

theorem set_eq_cons_drop (c : List Nat) (k q : Nat) (hk : k < c.length) :
    (c.set k q).drop k = q :: c.drop (k + 1) := by
  induction c generalizing k with
  | nil => simp at hk
  | cons d ds ih =>
    cases k with
    | zero => simp
    | succ k => simpa using ih k (by simpa using hk)

theorem drop_set_succ (c : List Nat) (k q : Nat) :
    (c.set k q).drop (k + 1) = c.drop (k + 1) := by
  induction c generalizing k with
  | nil => simp
  | cons d ds ih =>
    cases k with
    | zero => simp
    | succ k => simpa using ih k

/-- The digit loop of `/=`, entered at index `i` with remainder `cur`, writes
the `i + 1` low quotient digits and leaves the higher ones alone. -/
theorem div_loop_spec (fuel : Nat) (hfuel : 32 ≤ fuel) (dig : List Nat)
    (hd : ∀ d ∈ dig, d < 4294967296) (rhs : big_integer) (hrhs : rhs.normalized)
    (i : Nat) (cur : big_integer) (c : List Nat) (hcur : cur.well_typed)
    (hs : cur.sign = true) (hlt : mag cur.dig < mag rhs.dig) (hi : i < c.length) :
    ∃ qs, div_loop fuel dig rhs i cur c = .ok (qs ++ c.drop (i + 1)) ∧
      qs.length = i + 1 ∧ (∀ d ∈ qs, d < 4294967296) ∧
      mag qs = (4294967296 ^ (i + 1) * mag cur.dig + mag (dig.take (i + 1))) / mag rhs.dig := by
  induction i generalizing cur c with
  | zero =>
    obtain ⟨q, cur', e1, e2, e3, _⟩ := div_step_spec fuel hfuel rhs hrhs (dig.getD 0 0)
      (getD_lt dig hd 0) cur hcur hs hlt
    refine ⟨[q], ?_, rfl, ?_, ?_⟩
    · rw [div_loop, e1]
      dsimp only
      have h := set_eq_cons_drop c 0 q hi
      rw [List.drop_zero] at h
      rw [h]; rfl
    · intro d hd'; simp at hd'; omega
    · have := mag_take_succ dig 0
      simp only [List.take_zero, mag, pow_zero, Nat.zero_add, Nat.one_mul] at this
      simp only [mag, Nat.mul_zero, Nat.add_zero, Nat.zero_add, pow_one, this]
      exact e3
  | succ i ih =>
    obtain ⟨q, cur', e1, e2, e3, e4, e5, e6⟩ := div_step_spec fuel hfuel rhs hrhs
      (dig.getD (i + 1) 0) (getD_lt dig hd (i + 1)) cur hcur hs hlt
    have hR : 0 < mag rhs.dig := by omega
    obtain ⟨qs, f1, f2, f3, f4⟩ := ih cur' (c.set (i + 1) q) e5.1 e6
      (by rw [e4]; exact Nat.mod_lt _ hR) (by simp; omega)
    refine ⟨qs ++ [q], ?_, by simp [f2], ?_, ?_⟩
    · rw [div_loop, e1]
      dsimp only
      rw [f1, set_eq_cons_drop c (i + 1) q hi]
      simp
    · intro d hd'
      rcases List.mem_append.1 hd' with h | h
      · exact f3 d h
      · simp at h; omega
    · rw [mag_append, f2, f4, e4]
      simp only [mag, Nat.mul_zero, Nat.add_zero]
      rw [mag_take_succ dig (i + 1)]
      have hdm := Nat.div_add_mod (4294967296 * mag cur.dig + dig.getD (i + 1) 0) (mag rhs.dig)
      rw [← e3] at hdm
      generalize (4294967296 * mag cur.dig + dig.getD (i + 1) 0) % mag rhs.dig = c1 at *
      have hN : 4294967296 ^ (i + 1 + 1) * mag cur.dig
            + (mag (dig.take (i + 1)) + 4294967296 ^ (i + 1) * dig.getD (i + 1) 0)
          = (4294967296 ^ (i + 1) * c1 + mag (dig.take (i + 1)))
            + mag rhs.dig * (4294967296 ^ (i + 1) * q) := by
        have : 4294967296 ^ (i + 1 + 1) * mag cur.dig
            + (mag (dig.take (i + 1)) + 4294967296 ^ (i + 1) * dig.getD (i + 1) 0)
            = 4294967296 ^ (i + 1) * (4294967296 * mag cur.dig + dig.getD (i + 1) 0)
              + mag (dig.take (i + 1)) := by
          rw [pow_succ]; ring
        rw [this, ← hdm]; ring
      rw [hN, Nat.add_mul_div_left _ _ hR]

/-- The quotient: for a non-zero divisor `/=` returns, with enough budget, the
normalized quotient of the magnitudes with the sign rule of truncating
division. -/
theorem div_assign_spec (fuel : Nat) (hfuel : 32 ≤ fuel) (a b : big_integer)
    (ha : a.normalized) (hb : b.normalized) (hb0 : mag b.dig ≠ 0) :
    ∃ r, op_div_assign fuel a b = .ok r ∧ r.normalized ∧
      mag r.dig = mag a.dig / mag b.dig ∧ r.value = Int.tdiv a.value b.value ∧
      (mag a.dig < mag b.dig → r = big_integer.of_int 0) := by
  have hne : op_eq b (big_integer.of_int 0) = false := by
    rw [← Bool.not_eq_true, op_eq_iff b _ hb zero_normalized, zero_value, value_eq_zero_iff]
    exact hb0
  have hlt : op_lt (abs a) (abs b) = true ↔ mag a.dig < mag b.dig := by
    rw [op_lt_iff _ _ (abs_normalized a ha) (abs_normalized b hb), abs_value a ha,
      abs_value b hb]
    omega
  have hval : ∀ q : Nat, q = mag a.dig / mag b.dig →
      (if (a.sign == b.sign) = true then (q : Int) else -(q : Int))
        = Int.tdiv a.value b.value := by
    intro q hq
    have key : ((mag a.dig / mag b.dig : Nat) : Int)
        = Int.tdiv (mag a.dig : Int) (mag b.dig : Int) := Int.ofNat_tdiv _ _
    subst hq
    unfold big_integer.value
    have e1 : (false == true) = false := rfl
    have e2 : (true == false) = false := rfl
    cases a.sign <;> cases b.sign <;>
      simp only [beq_self_eq_true, if_true, if_false, Bool.false_eq_true, Int.neg_tdiv,
        Int.tdiv_neg, neg_neg, key, e1, e2]
  unfold op_div_assign
  rw [hne]
  simp only [Bool.false_eq_true, if_false]
  by_cases hsmall : mag a.dig < mag b.dig
  · rw [if_pos (hlt.2 hsmall)]
    refine ⟨big_integer.of_int 0, rfl, zero_normalized, ?_, ?_, fun _ => rfl⟩
    · rw [Nat.div_eq_of_lt hsmall]; rfl
    · rw [zero_value, ← hval 0 (Nat.div_eq_of_lt hsmall).symm]
      simp
  · rw [if_neg (fun h => hsmall (hlt.1 h))]
    have hlen := normalized_length_pos a ha
    obtain ⟨qs, e1, e2, e3, e4⟩ := div_loop_spec fuel hfuel a.dig ha.1 b hb
      (a.dig.length - 1) ⟨big_integer.default.sign, []⟩ (List.replicate a.dig.length 0)
      (by intro d hd; simp at hd) rfl (by simp only [mag]; omega) (by simp; omega)
    have hdrop : (List.replicate a.dig.length 0).drop (a.dig.length - 1 + 1) = [] := by
      apply List.drop_of_length_le; simp; omega
    rw [hdrop, List.append_nil] at e1
    rw [Nat.sub_add_cancel hlen, List.take_length] at e4
    simp only [mag, Nat.mul_zero, Nat.zero_add] at e4
    refine ⟨big_integer.normalize ⟨a.sign == b.sign, qs⟩, ?_, ?_, ?_, ?_, ?_⟩
    · simp only [e1]
    · apply normalize_normalized ⟨a.sign == b.sign, qs⟩ e3
      intro h
      simp only at h
      rw [h] at e2
      simp at e2
    · rw [normalize_mag]; exact e4
    · rw [normalize_value, value_mk]
      exact hval _ e4
    · intro h; exact absurd h hsmall

/-! ## The string constructor -/

theorem of_int_nat (n : Nat) (h : n < 2147483648) :
    big_integer.of_int (n : Int) = ⟨true, [n]⟩ := by
  unfold big_integer.of_int
  have h1 : decide ((n : Int) ≥ 0) = true := by simp
  have h2 : ¬ ((n : Int) = -2147483648) := by omega
  have h3 : ¬ ((n : Int) < 0) := by omega
  simp only [h1, if_neg h2, if_neg h3, Int.toNat_ofNat]
  rw [Nat.mod_eq_of_lt (by omega)]

theorem of_int_nat_normalized (n : Nat) (h : n < 2147483648) :
    (big_integer.of_int (n : Int)).normalized := by
  rw [of_int_nat n h]
  exact of_uint_normalized n (by omega)

theorem of_int_nat_mag (n : Nat) (h : n < 2147483648) :
    mag (big_integer.of_int (n : Int)).dig = n := by
  rw [of_int_nat n h]; simp [mag]

theorem isdigit_iff (ch : Char) : isdigit ch = true ↔ 48 ≤ ch.toNat ∧ ch.toNat ≤ 57 := by
  unfold isdigit; simp

/-- The loop of the string constructor reads the digits into the accumulator. -/
theorem of_string_loop_spec (fuel : Nat) (ds : List Char)
    (hds : ∀ ch ∈ ds, isdigit ch = true) (a : big_integer) (ha : a.normalized)
    (hs : a.sign = true) :
    ∃ r, of_string_loop (fuel + 1) ds a = .ok r ∧ r.normalized ∧ r.sign = true ∧
      mag r.dig = dec_value (mag a.dig) ds := by
  induction ds generalizing a with
  | nil => exact ⟨a, rfl, ha, hs, rfl⟩
  | cons ch rest ih =>
    have hch := (isdigit_iff ch).1 (hds ch (List.mem_cons_self _ _))
    obtain ⟨p, m1, m2, m3, m4⟩ := mul_assign_spec a (big_integer.of_int 10) ha.1
      (of_int_nat_normalized 10 (by omega)).1
    have e10 : mag (big_integer.of_int 10).dig = 10 := of_int_nat_mag 10 (by omega)
    rw [e10] at m3
    have hps : p.sign = true := by
      apply sign_of_nonneg p m2
      rw [m4, value_of_sign a hs]
      have : (big_integer.of_int 10).value = 10 := by decide
      rw [this]; omega
    have hcast : ((ch.toNat : Int) - 48) = ((ch.toNat - 48 : Nat) : Int) := by omega
    have hdn := of_int_nat_normalized (ch.toNat - 48) (by omega)
    have hdv := of_int_nat (ch.toNat - 48) (by omega)
    obtain ⟨q, a1, a2, a3, a4⟩ := add_assign_same_sign fuel p
      (big_integer.of_int ((ch.toNat - 48 : Nat) : Int)) m2.1 hdn.1 (by rw [hps, hdv])
    rw [of_int_nat_mag _ (by omega)] at a3
    have hqs : q.sign = true := by
      apply sign_of_nonneg q a2
      rw [a4, value_of_sign p hps, hdv, value_mk]
      simp only [if_true, mag]
      omega
    obtain ⟨r, r1, r2, r3, r4⟩ := ih (fun c hc => hds c (List.mem_cons_of_mem _ hc)) q a2 hqs
    refine ⟨r, ?_, r2, r3, ?_⟩
    · rw [of_string_loop, if_neg (by simp [hds ch (List.mem_cons_self _ _)]), m1]
      dsimp only
      rw [hcast, a1]
      exact r1
    · rw [r4, a3, m3]
      simp [dec_value]

theorem op_eq_zero_iff (a : big_integer) (ha : a.normalized) :
    op_eq a (big_integer.of_int 0) = true ↔ mag a.dig = 0 := by
  rw [op_eq_iff a _ ha zero_normalized, zero_value, value_eq_zero_iff]

theorem op_neg_zero (a : big_integer) (ha : a.normalized) (h : mag a.dig = 0) :
    op_neg a = a := by
  unfold op_neg
  rw [if_neg]
  rw [op_ne_zero_iff a ha]
  omega

/-- The string constructor on a valid decimal string: the magnitude is the
number the digits denote, and the sign is negative exactly for a leading `-`
on a non-zero number. -/
theorem of_string_spec (fuel : Nat) (s : List Char) (hv : valid_decimal s = true) :
    ∃ x, big_integer.of_string (fuel + 1) s = .ok x ∧ x.normalized ∧
      mag x.dig = dec_value 0 (if s.head? = some '-' then s.tail else s) ∧
      (x.sign = false ↔ (s.head? = some '-' ∧
        dec_value 0 (if s.head? = some '-' then s.tail else s) ≠ 0)) := by
  match s, hv with
  | [], hv => simp [valid_decimal] at hv
  | c :: cs, hv =>
    by_cases hc : c = '-'
    · subst hc
      have hv' : cs ≠ [] ∧ ∀ ch ∈ cs, isdigit ch = true := by
        simpa [valid_decimal] using hv
      obtain ⟨a, a1, a2, a3, a4⟩ := of_string_loop_spec fuel cs hv'.2 big_integer.default
        (by decide) rfl
      have hm0 : mag big_integer.default.dig = 0 := by decide
      rw [hm0] at a4
      have hstep : big_integer.of_string (fuel + 1) ('-' :: cs) = .ok (op_neg a) := by
        unfold big_integer.of_string
        have : isdigit '-' = false := by decide
        simp only [List.isEmpty_cons, Bool.false_eq_true, if_false, List.headD_cons, this,
          List.drop_succ_cons, List.drop_zero, a1]
        split <;> simp
      refine ⟨op_neg a, hstep, op_neg_normalized a a2, ?_, ?_⟩
      · rw [op_neg_mag, a4]; simp
      · simp only [List.head?_cons, if_true, List.tail_cons, true_and]
        rw [← a4]
        by_cases h0 : mag a.dig = 0
        · rw [op_neg_zero a a2 h0, a3]; simp [h0]
        · rw [op_neg_sign a a2 h0, a3]; simp [h0]
    · have hne : (c :: cs).head? ≠ some '-' := by simpa using hc
      have hv' : ∀ ch ∈ c :: cs, isdigit ch = true := by
        unfold valid_decimal at hv
        rw [if_neg hne] at hv
        simp only [List.isEmpty_cons, Bool.not_false, Bool.true_and, List.all_eq_true] at hv
        exact hv
      obtain ⟨a, a1, a2, a3, a4⟩ := of_string_loop_spec fuel (c :: cs) hv' big_integer.default
        (by decide) rfl
      have hm0 : mag big_integer.default.dig = 0 := by decide
      rw [hm0] at a4
      have hstep : big_integer.of_string (fuel + 1) (c :: cs) = .ok a := by
        unfold big_integer.of_string
        have hd : isdigit c = true := hv' c (List.mem_cons_self _ _)
        have hcne : (c != '-') = true := by simpa using hc
        simp only [List.isEmpty_cons, Bool.false_eq_true, if_false, List.headD_cons, hd,
          if_true, List.drop_zero, a1, hcne]
        by_cases h0 : op_eq a (big_integer.of_int 0) = true
        · rw [if_pos h0]
          simp only [Bool.false_eq_true, if_false]
          rw [op_neg_zero a a2 ((op_eq_zero_iff a a2).1 h0)]
        · rw [if_neg h0]; rfl
      refine ⟨a, hstep, a2, ?_, ?_⟩
      · rw [if_neg hne]; exact a4
      · rw [a3]; simp [hc]

/-! ## Decimal digits of a machine word -/

theorem toDigitsCore_eq_digits (fuel n : Nat) (acc : List Char) (h : n < fuel) (hn : n ≠ 0) :
    Nat.toDigitsCore 10 fuel n acc = (Nat.digits 10 n).reverse.map Nat.digitChar ++ acc := by
  induction fuel generalizing n acc with
  | zero => omega
  | succ fuel ih =>
    have hd : Nat.digits 10 n = (n % 10) :: Nat.digits 10 (n / 10) :=
      Nat.digits_def' (by omega) (by omega)
    rw [Nat.toDigitsCore, hd]
    by_cases h0 : n / 10 = 0
    · simp [h0]
    · simp only [h0, if_false]
      rw [ih (n / 10) _ (by omega) h0]
      simp

/-- The decimal digits of `n`, most significant first, as characters; empty
for zero. -/
theorem std_to_string_eq (n : Nat) :
    std_to_string n =
      if n = 0 then ['0'] else (Nat.digits 10 n).reverse.map Nat.digitChar := by
  unfold std_to_string Nat.toDigits
  by_cases h : n = 0
  · subst h; rfl
  · rw [if_neg h, toDigitsCore_eq_digits (n + 1) n [] (by omega) h]; simp

theorem digits_length_le_nine (n : Nat) (h : n < 1000000000) : (Nat.digits 10 n).length ≤ 9 := by
  by_cases h0 : n = 0
  · subst h0; simp
  · have h1 := Nat.base_pow_length_digits_le 10 n (by omega) h0
    by_contra hlen
    have h2 : 10 ^ 10 ≤ 10 ^ (Nat.digits 10 n).length :=
      Nat.pow_le_pow_right (by omega) (by omega)
    omega

theorem std_to_string_length (n : Nat) (h : n < 1000000000) :
    1 ≤ (std_to_string n).length ∧ (std_to_string n).length ≤ 9 := by
  rw [std_to_string_eq]
  by_cases h0 : n = 0
  · rw [if_pos h0]; simp
  · rw [if_neg h0]
    simp only [List.length_map, List.length_reverse]
    have h1 := digits_length_le_nine n h
    have h2 : Nat.digits 10 n ≠ [] := by
      rw [Ne, Nat.digits_eq_nil_iff_eq_zero]; exact h0
    have := List.length_pos.mpr h2
    omega

/-! ## `operator%=` on a non-negative dividend and `to_string` -/

/-- The remainder of a non-negative dividend: `a - a / b * b` is computed
without the additive operators handing over to each other. -/
theorem mod_nonneg_spec (fuel : Nat) (hfuel : 32 ≤ fuel) (a b : big_integer)
    (ha : a.normalized) (hb : b.normalized) (hsa : a.sign = true) (hb0 : mag b.dig ≠ 0) :
    ∃ g, op_mod fuel a b = .ok g ∧ g.normalized ∧
      g.value = a.value - Int.tdiv a.value b.value * b.value := by
  obtain ⟨q, d1, d2, _, d4, _⟩ := div_assign_spec fuel hfuel a b ha hb hb0
  obtain ⟨p, m1, m2, _, m4⟩ := op_mul_spec q b d2.1 hb.1
  obtain ⟨k, rfl⟩ : ∃ k, fuel = k + 3 := ⟨fuel - 3, by omega⟩
  obtain ⟨g, s1, s2, s3⟩ := sub_assign_spec k a p ha m2
    (fun h => by rw [hsa] at h; cases h)
  refine ⟨g, ?_, s2, ?_⟩
  · unfold op_mod op_mod_assign op_div
    rw [d1]
    dsimp only
    rw [m1]
    exact s1
  · rw [s3, m4, d4]

theorem billion_normalized : (big_integer.of_int 1000000000).normalized := by decide

theorem billion_mag : mag (big_integer.of_int 1000000000).dig = 1000000000 := by decide

theorem billion_value : (big_integer.of_int 1000000000).value = 1000000000 := by decide

/-- The low decimal group read by `to_string`. -/
theorem mod_billion_digit (fuel : Nat) (hfuel : 32 ≤ fuel) (a : big_integer)
    (ha : a.normalized) (hsa : a.sign = true) :
    ∃ g, op_mod fuel a (big_integer.of_int 1000000000) = .ok g ∧
      g.dig.getD 0 0 = mag a.dig % 1000000000 := by
  obtain ⟨g, g1, g2, g3⟩ := mod_nonneg_spec fuel hfuel a (big_integer.of_int 1000000000) ha
    billion_normalized hsa (by rw [billion_mag]; omega)
  refine ⟨g, g1, ?_⟩
  have hlt : mag a.dig % 1000000000 < 4294967296 := by omega
  have hval : g.value = (big_integer.of_uint (mag a.dig % 1000000000)).value := by
    rw [g3, of_uint_value, billion_value, value_of_sign a hsa]
    have := Int.ofNat_tdiv (mag a.dig) 1000000000
    simp only [Nat.cast_ofNat] at this
    rw [← this]
    omega
  rw [normalized_ext g _ g2 (of_uint_normalized _ hlt) hval]
  rfl

/-- The division by `10^9` of `to_string`. -/
theorem div_billion (fuel : Nat) (hfuel : 32 ≤ fuel) (a : big_integer)
    (ha : a.normalized) (hsa : a.sign = true) :
    ∃ r, op_div_assign fuel a (big_integer.of_int 1000000000) = .ok r ∧ r.normalized ∧
      r.sign = true ∧ mag r.dig = mag a.dig / 1000000000 := by
  obtain ⟨r, r1, r2, r3, r4, _⟩ := div_assign_spec fuel hfuel a
    (big_integer.of_int 1000000000) ha billion_normalized (by rw [billion_mag]; omega)
  rw [billion_mag] at r3
  refine ⟨r, r1, r2, ?_, r3⟩
  apply sign_of_nonneg r r2
  rw [r4, billion_value, value_of_sign a hsa]
  have := Int.ofNat_tdiv (mag a.dig) 1000000000
  simp only [Nat.cast_ofNat] at this
  rw [← this]
  omega

theorem digitChar_zero : Nat.digitChar 0 = '0' := by decide

/-- A number of at least `10^9` is written as its quotient by `10^9` followed
by its remainder padded with zeros to nine digits. -/
theorem std_to_string_split (v : Nat) (h : v / 1000000000 ≠ 0) :
    std_to_string v =
      std_to_string (v / 1000000000)
        ++ (List.replicate (9 - (std_to_string (v % 1000000000)).length) '0'
          ++ std_to_string (v % 1000000000)) := by
  have hv : v ≠ 0 := by intro h0; rw [h0] at h; simp at h
  have hn : v % 1000000000 < 1000000000 := Nat.mod_lt _ (by omega)
  have hlen := digits_length_le_nine _ hn
  have key := @Nat.digits_append_zeroes_append_digits 10
    (9 - (Nat.digits 10 (v % 1000000000)).length) (v / 1000000000) (v % 1000000000)
    (by omega) (by omega)
  rw [Nat.add_sub_cancel' hlen] at key
  have hsum : v % 1000000000 + 10 ^ 9 * (v / 1000000000) = v := by
    have := Nat.mod_add_div v 1000000000
    norm_num
    omega
  rw [hsum] at key
  rw [std_to_string_eq v, if_neg hv, std_to_string_eq (v / 1000000000), if_neg h, ← key]
  simp only [List.reverse_append, List.map_append, List.reverse_replicate, List.map_replicate,
    digitChar_zero, List.append_assoc]
  congr 1
  rw [std_to_string_eq (v % 1000000000)]
  by_cases h0 : v % 1000000000 = 0
  · rw [h0]; simp
  · rw [if_neg h0]; simp

theorem to_string_loop_succ (fuel n : Nat) (a : big_integer) (needZero : Nat) (result : List Char) :
   to_string_loop fuel (n + 1) a needZero result =
    match op_mod fuel a (big_integer.of_int 1000000000) with
    | .error e => .error e
    | .ok g =>
      match op_div_assign fuel a (big_integer.of_int 1000000000) with
      | .error e => .error e
      | .ok a' =>
        if op_ne a' (big_integer.of_int 0) then to_string_loop fuel n a'
           ((9 + 18446744073709551616 - (std_to_string (g.dig.getD 0 0)).length) % 18446744073709551616)
            (result ++ (std_to_string (g.dig.getD 0 0) ++ List.replicate needZero '0').reverse)
        else .ok (result ++ (std_to_string (g.dig.getD 0 0) ++ List.replicate needZero '0').reverse) := by
  rfl
/-- The `do ... while` loop of `to_string` writes the decimal digits of its
operand, reversed, behind the pending padding. -/
theorem to_string_loop_spec (fuel : Nat) (hfuel : 32 ≤ fuel) (n : Nat) (a : big_integer)
    (ha : a.normalized) (hsa : a.sign = true) (hn : 1 ≤ n)
    (hv : mag a.dig < 1000000000 ^ n) (z : Nat) (res : List Char) :
    to_string_loop fuel n a z res =
      .ok (res ++ (std_to_string (mag a.dig) ++ List.replicate z '0').reverse) := by
  induction n generalizing a z res with
  | zero => omega
  | succ n ih =>
    obtain ⟨g, g1, g2⟩ := mod_billion_digit fuel hfuel a ha hsa
    obtain ⟨r, r1, r2, r3, r4⟩ := div_billion fuel hfuel a ha hsa
    have hlen := std_to_string_length (mag a.dig % 1000000000) (Nat.mod_lt _ (by omega))
    have hz : (9 + 18446744073709551616 - (std_to_string (mag a.dig % 1000000000)).length)
        % 18446744073709551616 = 9 - (std_to_string (mag a.dig % 1000000000)).length := by
      omega
    rw [to_string_loop_succ, g1]
    dsimp only
    rw [r1]
    dsimp only
    rw [g2, hz]
    by_cases h0 : mag r.dig = 0
    · rw [if_neg (by rw [op_ne_zero_iff r r2]; omega)]
      rw [r4] at h0
      have : mag a.dig % 1000000000 = mag a.dig := by omega
      rw [this]
    · rw [if_pos ((op_ne_zero_iff r r2).2 h0)]
      have hn1 : 1 ≤ n := by
        rcases Nat.eq_zero_or_pos n with h | h
        · subst h
          rw [r4] at h0
          simp only [Nat.zero_add, pow_one] at hv
          omega
        · exact h
      rw [ih r r2 r3 hn1 (by
        rw [r4]
        apply Nat.div_lt_of_lt_mul
        rw [pow_succ] at hv
        rw [Nat.mul_comm]
        exact hv)]
      rw [r4] at h0 ⊢
      rw [std_to_string_split (mag a.dig) h0]
      simp only [List.reverse_append, List.append_assoc]

/-- The rendering: `to_string` writes a `-` for a negative number and then
the decimal digits of the magnitude. -/
theorem to_string_spec (fuel : Nat) (hfuel : 32 ≤ fuel) (x : big_integer)
    (hx : x.normalized) (hv : mag x.dig < 1000000000 ^ fuel) :
    to_string fuel x =
      .ok ((if x.sign then [] else ['-']) ++ std_to_string (mag x.dig)) := by
  unfold to_string
  rw [to_string_loop_spec fuel hfuel fuel (abs x) (abs_normalized x hx) (abs_sign x hx)
    (by omega) (by rw [abs_mag]; exact hv) 0 []]
  dsimp only
  rw [abs_mag]
  unfold big_integer.positive
  cases x.sign <;> simp

/-! ## Digit strings and their canonical form -/

theorem digitChar_of_isdigit (ch : Char) (h : isdigit ch = true) :
    Nat.digitChar (ch.toNat - 48) = ch := by
  have h1 := (isdigit_iff ch).1 h
  obtain ⟨k, hk⟩ : ∃ k, ch.toNat = 48 + k := ⟨ch.toNat - 48, by omega⟩
  have hc : ch = Char.ofNat (48 + k) := by rw [← hk, Char.ofNat_toNat]
  have hk9 : k ≤ 9 := by omega
  rw [hk, Nat.add_sub_cancel_left, hc]
  interval_cases k <;> rfl

theorem dec_value_cons (acc : Nat) (ch : Char) (cs : List Char) :
    dec_value acc (ch :: cs) = dec_value (acc * 10 + (ch.toNat - 48)) cs := rfl

theorem dec_value_eq_ofDigits (acc : Nat) (ds : List Char) :
    dec_value acc ds = acc * 10 ^ ds.length
      + Nat.ofDigits 10 ((ds.map (fun ch => ch.toNat - 48)).reverse) := by
  induction ds generalizing acc with
  | nil => simp [dec_value]
  | cons ch cs ih =>
    rw [dec_value_cons, ih]
    simp only [List.map_cons, List.reverse_cons, Nat.ofDigits_append, List.length_reverse,
      List.length_map, Nat.ofDigits_singleton, List.length_cons, pow_succ]
    ring

theorem dec_value_lt (ds : List Char) (hds : ∀ ch ∈ ds, isdigit ch = true) :
    dec_value 0 ds < 10 ^ ds.length := by
  rw [dec_value_eq_ofDigits]
  simp only [Nat.zero_mul, Nat.zero_add]
  have := @Nat.ofDigits_lt_base_pow_length 10 ((ds.map (fun ch => ch.toNat - 48)).reverse)
    (by omega) (by
      intro x hx
      simp only [List.mem_reverse, List.mem_map] at hx
      obtain ⟨ch, h1, h2⟩ := hx
      have := (isdigit_iff ch).1 (hds ch h1)
      omega)
  simpa using this

theorem strip_zeros_mem (ds : List Char) : ∀ ch ∈ strip_zeros ds, ch ∈ ds := by
  induction ds with
  | nil => intro ch h; exact h
  | cons c cs ih =>
    intro ch h
    rw [strip_zeros] at h
    split at h
    · exact List.mem_cons_of_mem _ (ih ch h)
    · exact h

theorem strip_zeros_head (ds : List Char) : (strip_zeros ds).head? ≠ some '0' := by
  induction ds with
  | nil => simp [strip_zeros]
  | cons c cs ih =>
    rw [strip_zeros]
    split
    · exact ih
    · rename_i h; simpa using h

theorem dec_value_strip (ds : List Char) : dec_value 0 (strip_zeros ds) = dec_value 0 ds := by
  induction ds with
  | nil => rfl
  | cons c cs ih =>
    rw [strip_zeros]
    split
    · rename_i h
      subst h
      rw [ih, dec_value_cons]
      rfl
    · rfl

/-- A digit string without a leading zero is the decimal rendering of the
number it denotes. -/
theorem std_to_string_dec_value (ds : List Char) (hds : ∀ ch ∈ ds, isdigit ch = true)
    (hne : ds ≠ []) (hhead : ds.head? ≠ some '0') :
    dec_value 0 ds ≠ 0 ∧ std_to_string (dec_value 0 ds) = ds := by
  have hL : ∀ l ∈ (ds.map (fun ch => ch.toNat - 48)).reverse, l < 10 := by
    intro x hx
    simp only [List.mem_reverse, List.mem_map] at hx
    obtain ⟨ch, h1, h2⟩ := hx
    have := (isdigit_iff ch).1 (hds ch h1)
    omega
  have hlast : ∀ h : (ds.map (fun ch => ch.toNat - 48)).reverse ≠ [],
      ((ds.map (fun ch => ch.toNat - 48)).reverse).getLast h ≠ 0 := by
    match ds, hne, hhead, hds with
    | c :: cs, _, hhead, hds =>
      intro h
      simp only [List.map_cons, List.reverse_cons, List.getLast_append_singleton]
      have h1 := (isdigit_iff c).1 (hds c (List.mem_cons_self _ _))
      intro h0
      have h48 : c.toNat = 48 := by omega
      apply hhead
      simp only [List.head?_cons, Option.some.injEq]
      rw [← Char.ofNat_toNat c, h48]
  have key := Nat.digits_ofDigits 10 (by omega) _ hL hlast
  have hval : dec_value 0 ds
      = Nat.ofDigits 10 ((ds.map (fun ch => ch.toNat - 48)).reverse) := by
    rw [dec_value_eq_ofDigits]; simp
  rw [← hval] at key
  have hne0 : dec_value 0 ds ≠ 0 := by
    intro h0
    rw [h0, Nat.digits_zero] at key
    have := congrArg List.length key
    simp only [List.length_nil, List.length_reverse, List.length_map] at this
    exact hne (List.length_eq_zero.1 this.symm)
  refine ⟨hne0, ?_⟩
  rw [std_to_string_eq, if_neg hne0, key, List.reverse_reverse, List.map_map]
  conv_rhs => rw [← List.map_id ds]
  apply List.map_congr_left
  intro ch hch
  exact digitChar_of_isdigit ch (hds ch hch)

theorem valid_decimal_digits (s : List Char) (hv : valid_decimal s = true) :
    (if s.head? = some '-' then s.tail else s) ≠ [] ∧
      ∀ ch ∈ (if s.head? = some '-' then s.tail else s), isdigit ch = true := by
  unfold valid_decimal at hv
  simp only [Bool.and_eq_true, Bool.not_eq_true', List.isEmpty_eq_false,
    List.all_eq_true] at hv
  exact ⟨by simpa using hv.1, hv.2⟩

/-- Parsing a valid decimal string and rendering the result gives the
canonical form of the string. -/
theorem to_string_of_string (fuel : Nat) (s : List Char) (hfuel : 32 ≤ fuel)
    (hlen : s.length ≤ fuel) (hv : valid_decimal s = true) :
    ∃ x, big_integer.of_string fuel s = .ok x ∧ x.normalized ∧
      to_string fuel x = .ok (canonical s) := by
  obtain ⟨k, rfl⟩ : ∃ k, fuel = k + 1 := ⟨fuel - 1, by omega⟩
  obtain ⟨x, x1, x2, x3, x4⟩ := of_string_spec k s hv
  obtain ⟨hd1, hd2⟩ := valid_decimal_digits s hv
  refine ⟨x, x1, x2, ?_⟩
  have hbound : mag x.dig < 1000000000 ^ (k + 1) := by
    rw [x3]
    have h1 := dec_value_lt _ hd2
    have h2 : (if s.head? = some '-' then s.tail else s).length ≤ k + 1 := by
      split
      · simp; omega
      · exact hlen
    have h3 : 10 ^ (if s.head? = some '-' then s.tail else s).length ≤ 10 ^ (k + 1) :=
      Nat.pow_le_pow_right (by omega) h2
    have h4 : 10 ^ (k + 1) ≤ 1000000000 ^ (k + 1) := Nat.pow_le_pow_left (by omega) _
    omega
  rw [to_string_spec (k + 1) hfuel x x2 hbound, x3]
  unfold canonical
  simp only [decide_eq_true_eq]
  generalize (if s.head? = some '-' then s.tail else s) = ds at *
  have hstrip := dec_value_strip ds
  by_cases hst : strip_zeros ds = []
  · rw [hst] at hstrip ⊢
    have h0 : dec_value 0 ds = 0 := by rw [← hstrip]; rfl
    have hsign : x.sign = true := by
      cases hs : x.sign
      · exact absurd h0 (x4.1 hs).2
      · rfl
    rw [h0, hsign]
    rfl
  · have hmem : ∀ ch ∈ strip_zeros ds, isdigit ch = true :=
      fun ch h => hd2 ch (strip_zeros_mem ds ch h)
    obtain ⟨t1, t2⟩ := std_to_string_dec_value (strip_zeros ds) hmem hst (strip_zeros_head ds)
    rw [hstrip] at t1 t2
    have hemp : (strip_zeros ds).isEmpty = false := by
      cases h : strip_zeros ds
      · exact absurd h hst
      · rfl
    rw [t2, hemp]
    by_cases hneg : s.head? = some '-'
    · have : x.sign = false := x4.2 ⟨hneg, t1⟩
      rw [this, if_pos hneg]; rfl
    · have : x.sign = true := by
        cases hs : x.sign
        · exact absurd (x4.1 hs).1 hneg
        · rfl
      rw [this, if_neg hneg]; rfl

/-! ## Auxiliary facts for the claims -/

theorem sign_false_iff (r : big_integer) (hr : r.normalized) :
    r.sign = false ↔ r.value < 0 := by
  unfold big_integer.value
  cases hs : r.sign
  · have := normalized_neg_mag_pos r hr hs
    simp only [Bool.false_eq_true, if_false, true_iff]
    omega
  · simp only [if_true]
    constructor
    · intro h; cases h
    · intro h; omega

theorem value_tdiv (a b : big_integer) :
    Int.tdiv a.value b.value =
      if a.sign = b.sign then ((mag a.dig / mag b.dig : Nat) : Int)
      else -((mag a.dig / mag b.dig : Nat) : Int) := by
  have key : ((mag a.dig / mag b.dig : Nat) : Int)
      = Int.tdiv (mag a.dig : Int) (mag b.dig : Int) := Int.ofNat_tdiv _ _
  unfold big_integer.value
  cases a.sign <;> cases b.sign <;>
    simp only [if_true, if_false, Bool.false_eq_true, Int.neg_tdiv, Int.tdiv_neg, neg_neg, key,
      reduceCtorEq]

theorem value_zero_eq (b : big_integer) (hb : b.normalized) (h : b.value = 0) :
    b = big_integer.of_int 0 :=
  normalized_ext b _ hb zero_normalized (by rw [h, zero_value])

theorem div_zero_range_error (fuel : Nat) (a : big_integer) :
    op_div_assign fuel a (big_integer.of_int 0) = .error .range_error := by
  unfold op_div_assign
  rw [if_pos (by decide)]

theorem value_one : (big_integer.of_int 1).value = 1 := by decide

theorem one_normalized : (big_integer.of_int 1).normalized := by decide

/-- The string constructor skips a first character that is not a digit,
whatever it is. -/
theorem of_string_skips_lead (fuel : Nat) (c : Char) (hc : isdigit c = false)
    (hc' : c ≠ '-') :
    big_integer.of_string (fuel + 1) [c, '1', '2'] = .ok ⟨true, [12]⟩ := by
  obtain ⟨r, r1, r2, r3, r4⟩ := of_string_loop_spec fuel ['1', '2'] (by decide)
    big_integer.default (by decide) rfl
  have hv : r.value = (big_integer.of_uint 12).value := by
    rw [value_of_sign r r3, r4, of_uint_value]; decide
  have hr : r = ⟨true, [12]⟩ := normalized_ext r _ r2 (of_uint_normalized 12 (by omega)) hv
  subst hr
  unfold big_integer.of_string
  have h1 : (c != '-') = true := by simpa using hc'
  have h2 : op_eq (big_integer.mk true [12]) (big_integer.of_int 0) = false := by decide
  simp only [List.isEmpty_cons, Bool.false_eq_true, if_false, List.headD_cons, hc,
    List.drop_succ_cons, List.drop_zero, r1, h1, h2, if_true]

theorem of_string_loop_append (fuel : Nat) (ds tl : List Char) (a : big_integer) :
    of_string_loop fuel (ds ++ tl) a =
      match of_string_loop fuel ds a with
      | .ok r => of_string_loop fuel tl r
      | .error e => .error e := by
  induction ds generalizing a with
  | nil => rfl
  | cons ch rest ih =>
    rw [List.cons_append, of_string_loop, of_string_loop]
    by_cases hd : (!isdigit ch) = true
    · rw [if_pos hd, if_pos hd]
    · rw [if_neg hd, if_neg hd]
      cases op_mul_assign a (big_integer.of_int 10) with
      | error e => rfl
      | ok p =>
        dsimp only
        cases op_add_assign fuel p (big_integer.of_int ((ch.toNat : Int) - 48)) with
        | error e => rfl
        | ok q => exact ih q

/-- A character that is not a digit, met after the first position, raises
`std::logic_error`. -/
theorem of_string_loop_reject (fuel : Nat) (ds : List Char)
    (hds : ∀ ch ∈ ds, isdigit ch = true) (c : Char) (hc : isdigit c = false)
    (tl : List Char) :
    of_string_loop (fuel + 1) (ds ++ c :: tl) big_integer.default = .error .logic_error := by
  obtain ⟨r, r1, _⟩ := of_string_loop_spec fuel ds hds big_integer.default (by decide) rfl
  rw [of_string_loop_append, r1]
  dsimp only
  rw [of_string_loop, if_pos (by simp [hc])]

/-! ## The claims -/

/-- C1: the identity `(a / b) * b + (a % b) == a` is not computed for a negative
dividend smaller in magnitude than the divisor: for `a = -1`, `b = 3` the
quotient is zero, `%` evaluates `a - 0`, and that subtraction never returns,
whatever the budget. -/
theorem C1_mod_neg_small_no_return (fuel : Nat) :
    op_div fuel ⟨false, [1]⟩ ⟨true, [3]⟩ = .ok (big_integer.of_int 0) ∧
      op_mod fuel ⟨false, [1]⟩ ⟨true, [3]⟩ = .error .no_fuel := by
  have hd : op_div fuel ⟨false, [1]⟩ ⟨true, [3]⟩ = .ok (big_integer.of_int 0) := by
    unfold op_div op_div_assign
    rw [if_neg (by decide), if_pos (by decide)]
  refine ⟨hd, ?_⟩
  have hm : op_mul (big_integer.of_int 0) ⟨true, [3]⟩ = .ok ⟨true, [0]⟩ := by decide
  unfold op_mod op_mod_assign
  rw [hd]
  dsimp only
  rw [hm]
  exact (add_sub_zero_no_return ⟨false, [1]⟩ rfl fuel).2

/-- C2: for normalized `a` and `b` with `b != 0`, `a / b` returns (with a
budget of at least 32) the normalized quotient rounded toward zero: its value
is the truncated quotient of the values, its magnitude is `|a| / |b|`, it is
negative exactly when that magnitude is non-zero and the signs differ, and it
is the zero of `big_integer(0)` when `|a| < |b|`. -/
theorem C2_div_rounds_toward_zero (fuel : Nat) (a b : big_integer) (hfuel : 32 ≤ fuel)
    (ha : a.normalized) (hb : b.normalized) (hb0 : b.value ≠ 0) :
    ∃ r, op_div fuel a b = .ok r ∧ r.normalized ∧
      r.value = Int.tdiv a.value b.value ∧
      mag r.dig = mag a.dig / mag b.dig ∧
      (r.sign = false ↔ (mag a.dig / mag b.dig ≠ 0 ∧ a.sign ≠ b.sign)) ∧
      (mag a.dig < mag b.dig → r = big_integer.of_int 0) := by
  have hm : mag b.dig ≠ 0 := fun h => hb0 ((value_eq_zero_iff b).2 h)
  obtain ⟨r, r1, r2, r3, r4, r5⟩ := div_assign_spec fuel hfuel a b ha hb hm
  refine ⟨r, r1, r2, r4, r3, ?_, r5⟩
  rw [sign_false_iff r r2, r4, value_tdiv]
  by_cases hs : a.sign = b.sign
  · rw [if_pos hs]
    constructor
    · intro h; omega
    · intro h; exact absurd hs h.2
  · rw [if_neg hs]
    constructor
    · intro h; exact ⟨by omega, hs⟩
    · intro h; have := h.1; omega

/-- C2, at `-100 / 3 == -33`. -/
theorem C2_div_rounds_toward_zero_witness :
    op_div 32 ⟨false, [100]⟩ ⟨true, [3]⟩ = .ok ⟨false, [33]⟩ ∧
    ∃ r, op_div 32 ⟨false, [100]⟩ ⟨true, [3]⟩ = .ok r ∧ r.normalized ∧
      r.value = Int.tdiv (big_integer.mk false [100]).value (big_integer.mk true [3]).value ∧
      mag r.dig = mag [100] / mag [3] ∧
      (r.sign = false ↔ (mag [100] / mag [3] ≠ 0 ∧ false ≠ true)) ∧
      (mag [100] < mag [3] → r = big_integer.of_int 0) :=
  ⟨by decide, C2_div_rounds_toward_zero 32 ⟨false, [100]⟩ ⟨true, [3]⟩ (by decide) (by decide)
    (by decide) (by decide)⟩

/-- C3: `a / 0` and `a % 0` raise `std::range_error` for every `a`, and for
normalized operands (budget at least 32) `a /= b` returns a value exactly when
`b` is not zero and raises `std::range_error` exactly when `b` is zero. -/
theorem C3_division_by_zero (fuel : Nat) (a b : big_integer) :
    op_div fuel a (big_integer.of_int 0) = .error .range_error ∧
    op_mod fuel a (big_integer.of_int 0) = .error .range_error ∧
    (32 ≤ fuel → a.normalized → b.normalized →
      ((∃ r, op_div_assign fuel a b = .ok r) ↔ b.value ≠ 0) ∧
      (op_div_assign fuel a b = .error .range_error ↔ b.value = 0)) := by
  refine ⟨div_zero_range_error fuel a, ?_, ?_⟩
  · unfold op_mod op_mod_assign op_div
    rw [div_zero_range_error fuel a]
  · intro hfuel ha hb
    by_cases h0 : b.value = 0
    · have hz := value_zero_eq b hb h0
      subst hz
      rw [div_zero_range_error fuel a]
      exact ⟨Iff.intro (fun ⟨r, hr⟩ => by cases hr) (fun h => absurd h0 h),
        Iff.intro (fun _ => h0) (fun _ => rfl)⟩
    · have hm : mag b.dig ≠ 0 := fun h => h0 ((value_eq_zero_iff b).2 h)
      obtain ⟨r, r1, _⟩ := div_assign_spec fuel hfuel a b ha hb hm
      rw [r1]
      exact ⟨Iff.intro (fun _ => h0) (fun _ => ⟨r, rfl⟩),
        Iff.intro (fun h => by cases h) (fun h => absurd h h0)⟩

/-- C3, at `a = 7`, `b = 2`. -/
theorem C3_division_by_zero_witness :
    ((∃ r, op_div_assign 32 ⟨true, [7]⟩ ⟨true, [2]⟩ = .ok r)
        ↔ (big_integer.mk true [2]).value ≠ 0) ∧
      (op_div_assign 32 ⟨true, [7]⟩ ⟨true, [2]⟩ = .error .range_error
        ↔ (big_integer.mk true [2]).value = 0) :=
  (C3_division_by_zero 32 ⟨true, [7]⟩ ⟨true, [2]⟩).2.2 (by decide) (by decide) (by decide)

/-- C4: for normalized `a` and `b`, `a * b` returns a normalized value whose
signed value is `value(a) * value(b)`; moreover `a * 0 == 0`, `a * 1 == a` and
`a * b == b * a`. -/
theorem C4_mul_value (a b : big_integer) (ha : a.normalized) (hb : b.normalized) :
    ∃ r, op_mul a b = .ok r ∧ r.normalized ∧ r.value = a.value * b.value ∧
      (∃ z, op_mul a (big_integer.of_int 0) = .ok z ∧
        op_eq z (big_integer.of_int 0) = true) ∧
      (∃ u, op_mul a (big_integer.of_int 1) = .ok u ∧ op_eq u a = true) ∧
      (∃ t, op_mul b a = .ok t ∧ op_eq r t = true) := by
  obtain ⟨r, r1, r2, _, r4⟩ := op_mul_spec a b ha.1 hb.1
  obtain ⟨z, z1, z2, _, z4⟩ := op_mul_spec a (big_integer.of_int 0) ha.1 zero_normalized.1
  obtain ⟨u, u1, u2, _, u4⟩ := op_mul_spec a (big_integer.of_int 1) ha.1 one_normalized.1
  obtain ⟨t, t1, t2, _, t4⟩ := op_mul_spec b a hb.1 ha.1
  refine ⟨r, r1, r2, r4, ⟨z, z1, ?_⟩, ⟨u, u1, ?_⟩, ⟨t, t1, ?_⟩⟩
  · rw [op_eq_iff z _ z2 zero_normalized, z4, zero_value, Int.mul_zero]
  · rw [op_eq_iff u a u2 ha, u4, value_one, Int.mul_one]
  · rw [op_eq_iff r t r2 t2, r4, t4, Int.mul_comm]

/-- C4, at `123456789123456789 * 2 == 246913578246913578`. -/
theorem C4_mul_value_witness :
    op_mul ⟨true, [2899336981, 28744523]⟩ ⟨true, [2]⟩ = .ok ⟨true, [1503706666, 57489047]⟩ ∧
    ∃ r, op_mul ⟨true, [2899336981, 28744523]⟩ ⟨true, [2]⟩ = .ok r ∧ r.normalized ∧
      r.value = (big_integer.mk true [2899336981, 28744523]).value
        * (big_integer.mk true [2]).value ∧
      (∃ z, op_mul ⟨true, [2899336981, 28744523]⟩ (big_integer.of_int 0) = .ok z ∧
        op_eq z (big_integer.of_int 0) = true) ∧
      (∃ u, op_mul ⟨true, [2899336981, 28744523]⟩ (big_integer.of_int 1) = .ok u ∧
        op_eq u ⟨true, [2899336981, 28744523]⟩ = true) ∧
      (∃ t, op_mul ⟨true, [2]⟩ ⟨true, [2899336981, 28744523]⟩ = .ok t ∧ op_eq r t = true) :=
  ⟨by decide, C4_mul_value ⟨true, [2899336981, 28744523]⟩ ⟨true, [2]⟩ (by decide) (by decide)⟩

/-- C5: `a + b` does not return for a negative `a` and `b = 0`: with the
digits of `a` arbitrary and its sign negative, `operator+` exhausts every
budget. -/
theorem C5_add_neg_zero_no_return (dig : List Nat) (fuel : Nat) :
    op_add fuel ⟨false, dig⟩ (big_integer.of_int 0) = .error .no_fuel :=
  (add_sub_zero_no_return ⟨false, dig⟩ rfl fuel).1

/-- C6: `a - b` does not return for a negative `a` and `b = 0`: with the
digits of `a` arbitrary and its sign negative, `operator-` exhausts every
budget. -/
theorem C6_sub_neg_zero_no_return (dig : List Nat) (fuel : Nat) :
    op_sub fuel ⟨false, dig⟩ (big_integer.of_int 0) = .error .no_fuel :=
  (add_sub_zero_no_return ⟨false, dig⟩ rfl fuel).2

/-- C7: the mutual delegation of `+=` and `-=` does not reach a non-delegating
branch for a negative left operand and a zero right operand: the negation of
zero is zero again, and both operators exhaust every budget. -/
theorem C7_delegation_no_return (dig : List Nat) (fuel : Nat) :
    op_neg (big_integer.of_int 0) = big_integer.of_int 0 ∧
      op_add_assign fuel ⟨false, dig⟩ (op_neg (big_integer.of_int 0)) = .error .no_fuel ∧
      op_sub_assign fuel ⟨false, dig⟩ (op_neg (big_integer.of_int 0)) = .error .no_fuel := by
  have hz : op_neg (big_integer.of_int 0) = big_integer.of_int 0 := by decide
  rw [hz]
  exact ⟨rfl, add_sub_zero_no_return ⟨false, dig⟩ rfl fuel⟩

/-- C8: for a valid decimal string `s` (budget at least 32 and at least the
length of `s`), the string constructor returns a normalized value and
`to_string` of it is the canonical form of `s`. -/
theorem C8_to_string_canonical (fuel : Nat) (s : List Char) (hfuel : 32 ≤ fuel)
    (hlen : s.length ≤ fuel) (hv : valid_decimal s = true) :
    ∃ x, big_integer.of_string fuel s = .ok x ∧ x.normalized ∧
      to_string fuel x = .ok (canonical s) :=
  to_string_of_string fuel s hfuel hlen hv

/-- C8, at `-0001000000000`, whose canonical form is `-1000000000`. -/
theorem C8_to_string_canonical_witness :
    canonical "-0001000000000".toList = "-1000000000".toList ∧
    ∃ x, big_integer.of_string 32 "-0001000000000".toList = .ok x ∧ x.normalized ∧
      to_string 32 x = .ok (canonical "-0001000000000".toList) :=
  ⟨by decide, C8_to_string_canonical 32 "-0001000000000".toList (by decide) (by decide)
    (by decide)⟩

/-- C9: the string constructor accepts strings the claim says are rejected: a
first character that is neither a digit nor `-` is skipped, so `x12` and `+12`
both construct the value 12. -/
theorem C9_of_string_accepts_bad_lead (fuel : Nat) :
    big_integer.of_string (fuel + 1) "x12".toList = .ok ⟨true, [12]⟩ ∧
      big_integer.of_string (fuel + 1) "+12".toList = .ok ⟨true, [12]⟩ ∧
      big_integer.of_string (fuel + 1) "12a3".toList = .error .logic_error ∧
      big_integer.of_string (fuel + 1) [] = .error .length_error := by
  refine ⟨of_string_skips_lead fuel 'x' (by decide) (by decide),
    of_string_skips_lead fuel '+' (by decide) (by decide), ?_, rfl⟩
  have h := of_string_loop_reject fuel ['1', '2'] (by decide) 'a' (by decide) ['3']
  unfold big_integer.of_string
  have e : ("12a3".toList.drop (if isdigit ("12a3".toList.headD ' ') = true then 0 else 1))
      = ['1', '2'] ++ 'a' :: ['3'] := by decide
  have e2 : "12a3".toList.isEmpty = false := by decide
  rw [e2, e, h]
  rfl

/-- C10: for normalized `a` and `b`, `compare(a, b)` is the sign of
`value(a) - value(b)`, each of the six relational operators agrees with the
order of the values, and exactly one of `a < b`, `a == b`, `a > b` holds. -/
theorem C10_compare_total_order (a b : big_integer) (ha : a.normalized)
    (hb : b.normalized) :
    compare a b = Int.sign (a.value - b.value) ∧
      (op_lt a b = true ↔ a.value < b.value) ∧
      (op_eq a b = true ↔ a.value = b.value) ∧
      (op_gt a b = true ↔ a.value > b.value) ∧
      (op_le a b = true ↔ a.value ≤ b.value) ∧
      (op_ge a b = true ↔ a.value ≥ b.value) ∧
      (op_ne a b = true ↔ a.value ≠ b.value) ∧
      ((op_lt a b = true ∧ op_eq a b = false ∧ op_gt a b = false) ∨
        (op_lt a b = false ∧ op_eq a b = true ∧ op_gt a b = false) ∨
        (op_lt a b = false ∧ op_eq a b = false ∧ op_gt a b = true)) := by
  have h1 := op_lt_iff a b ha hb
  have h2 := op_eq_iff a b ha hb
  have h3 := op_gt_iff a b ha hb
  refine ⟨compare_spec a b ha hb, h1, h2, h3, op_le_iff a b ha hb, op_ge_iff a b ha hb,
    op_ne_iff a b ha hb, ?_⟩
  rcases lt_trichotomy a.value b.value with h | h | h
  · left
    refine ⟨h1.2 h, ?_, ?_⟩
    · rw [← Bool.not_eq_true, h2]; omega
    · rw [← Bool.not_eq_true, h3]; omega
  · right; left
    refine ⟨?_, h2.2 h, ?_⟩
    · rw [← Bool.not_eq_true, h1]; omega
    · rw [← Bool.not_eq_true, h3]; omega
  · right; right
    refine ⟨?_, ?_, h3.2 h⟩
    · rw [← Bool.not_eq_true, h1]; omega
    · rw [← Bool.not_eq_true, h2]; omega

/-- C10, at `a = -5`, `b = 3`. -/
theorem C10_compare_total_order_witness :
    compare ⟨false, [5]⟩ ⟨true, [3]⟩ = -1 ∧
    (compare ⟨false, [5]⟩ ⟨true, [3]⟩
        = Int.sign ((big_integer.mk false [5]).value - (big_integer.mk true [3]).value) ∧
      (op_lt ⟨false, [5]⟩ ⟨true, [3]⟩ = true
        ↔ (big_integer.mk false [5]).value < (big_integer.mk true [3]).value) ∧
      (op_eq ⟨false, [5]⟩ ⟨true, [3]⟩ = true
        ↔ (big_integer.mk false [5]).value = (big_integer.mk true [3]).value) ∧
      (op_gt ⟨false, [5]⟩ ⟨true, [3]⟩ = true
        ↔ (big_integer.mk false [5]).value > (big_integer.mk true [3]).value) ∧
      (op_le ⟨false, [5]⟩ ⟨true, [3]⟩ = true
        ↔ (big_integer.mk false [5]).value ≤ (big_integer.mk true [3]).value) ∧
      (op_ge ⟨false, [5]⟩ ⟨true, [3]⟩ = true
        ↔ (big_integer.mk false [5]).value ≥ (big_integer.mk true [3]).value) ∧
      (op_ne ⟨false, [5]⟩ ⟨true, [3]⟩ = true
        ↔ (big_integer.mk false [5]).value ≠ (big_integer.mk true [3]).value) ∧
      ((op_lt ⟨false, [5]⟩ ⟨true, [3]⟩ = true ∧ op_eq ⟨false, [5]⟩ ⟨true, [3]⟩ = false
          ∧ op_gt ⟨false, [5]⟩ ⟨true, [3]⟩ = false) ∨
        (op_lt ⟨false, [5]⟩ ⟨true, [3]⟩ = false ∧ op_eq ⟨false, [5]⟩ ⟨true, [3]⟩ = true
          ∧ op_gt ⟨false, [5]⟩ ⟨true, [3]⟩ = false) ∨
        (op_lt ⟨false, [5]⟩ ⟨true, [3]⟩ = false ∧ op_eq ⟨false, [5]⟩ ⟨true, [3]⟩ = false
          ∧ op_gt ⟨false, [5]⟩ ⟨true, [3]⟩ = true))) :=
  ⟨by decide, C10_compare_total_order ⟨false, [5]⟩ ⟨true, [3]⟩ (by decide) (by decide)⟩

/-! ## Shift right, complement and the integer constructor -/

theorem two_normalized : (big_integer.of_int 2).normalized := by decide

theorem two_mag : mag (big_integer.of_int 2).dig = 2 := by decide

theorem one_mag : mag (big_integer.of_int 1).dig = 1 := by decide

theorem one_sign : (big_integer.of_int 1).sign = true := by decide

theorem value_neg_of_sign (a : big_integer) (h : a.sign = false) :
    a.value = -(mag a.dig : Int) := by
  unfold big_integer.value; rw [if_neg (by simp [h])]

/-- One pass of the loop of `>>` on a non-negative value halves it. -/
theorem shr_step_nonneg (fuel : Nat) (hfuel : 32 ≤ fuel) (a : big_integer)
    (ha : a.normalized) (hs : a.sign = true) :
    ∃ r, op_div_assign fuel a (big_integer.of_int 2) = .ok r ∧ r.normalized ∧
      r.value = a.value / 2 := by
  obtain ⟨r, r1, r2, r3, r4, _⟩ := div_assign_spec fuel hfuel a (big_integer.of_int 2) ha
    two_normalized (by rw [two_mag]; omega)
  refine ⟨r, r1, r2, ?_⟩
  have hv := value_tdiv a (big_integer.of_int 2)
  rw [hs, if_pos (by decide), two_mag] at hv
  rw [r4, hv, value_of_sign a hs]
  omega

/-- One pass of the loop of `>>` on a negative value: `(a - 1) / 2`, truncated,
is the floor of `a / 2`. -/
theorem shr_step_neg (fuel : Nat) (hfuel : 32 ≤ fuel) (a : big_integer)
    (ha : a.normalized) (hs : a.sign = false) :
    ∃ t r, op_sub fuel a (big_integer.of_int 1) = .ok t ∧
      op_div fuel t (big_integer.of_int 2) = .ok r ∧ r.normalized ∧
      r.value = a.value / 2 := by
  obtain ⟨k, rfl⟩ : ∃ k, fuel = k + 3 := ⟨fuel - 3, by omega⟩
  obtain ⟨t, t1, t2, t3⟩ := sub_assign_spec k a (big_integer.of_int 1) ha one_normalized
    (fun _ => by rw [one_mag]; omega)
  obtain ⟨r, r1, r2, r3, r4, _⟩ := div_assign_spec (k + 3) hfuel t (big_integer.of_int 2) t2
    two_normalized (by rw [two_mag]; omega)
  refine ⟨t, r, t1, r1, r2, ?_⟩
  have hpos := normalized_neg_mag_pos a ha hs
  rw [value_one, value_neg_of_sign a hs] at t3
  have hts : t.sign = false := by
    rw [sign_false_iff t t2, t3]; omega
  have htm : (mag t.dig : Int) = mag a.dig + 1 := by
    rw [value_neg_of_sign t hts] at t3; omega
  have hv := value_tdiv t (big_integer.of_int 2)
  rw [hts, if_neg (by decide), two_mag] at hv
  rw [r4, hv, value_neg_of_sign a hs]
  have : mag t.dig = mag a.dig + 1 := by omega
  rw [this]
  omega

theorem int_half_div (x P : Int) (hP : 0 < P) : x / 2 / P = x / (2 * P) := by
  have h1 : 2 * (x / 2) ≤ x ∧ x < 2 * (x / 2) + 2 := by omega
  have h2 := Int.ediv_add_emod (x / 2) P
  have h3 := Int.emod_nonneg (x / 2) (ne_of_gt hP)
  have h4 := Int.emod_lt_of_pos (x / 2) hP
  have key := (Int.ediv_emod_unique (a := x) (b := 2 * P)
    (r := x - 2 * (P * (x / 2 / P))) (q := x / 2 / P) (by omega)).2
    ⟨by ring, by linarith, by linarith⟩
  exact key.1.symm

/-- The shift `a >> n` returns the floor of `value(a) / 2^n`. -/
theorem shr_spec (fuel : Nat) (hfuel : 32 ≤ fuel) (n : Nat) (a : big_integer)
    (ha : a.normalized) :
    ∃ r, op_shr fuel a n = .ok r ∧ r.normalized ∧ r.value = a.value / 2 ^ n := by
  induction n generalizing a with
  | zero => exact ⟨a, rfl, ha, by simp⟩
  | succ n ih =>
    have hpow : a.value / 2 / 2 ^ n = a.value / 2 ^ (n + 1) := by
      rw [int_half_div _ _ (by positivity), pow_succ, Int.mul_comm]
    cases hs : a.sign
    · obtain ⟨t, r, t1, r1, r2, r3⟩ := shr_step_neg fuel hfuel a ha hs
      obtain ⟨q, q1, q2, q3⟩ := ih r r2
      refine ⟨q, ?_, q2, ?_⟩
      · rw [op_shr, if_neg (by simp [hs]), t1]
        dsimp only
        rw [r1]
        exact q1
      · rw [q3, r3, hpow]
    · obtain ⟨r, r1, r2, r3⟩ := shr_step_nonneg fuel hfuel a ha hs
      obtain ⟨q, q1, q2, q3⟩ := ih r r2
      refine ⟨q, ?_, q2, ?_⟩
      · rw [op_shr, if_pos hs, r1]
        exact q1
      · rw [q3, r3, hpow]

/-- The complement `~a` returns `-value(a) - 1`. -/
theorem not_spec (fuel : Nat) (a : big_integer) (ha : a.normalized) :
    ∃ r, op_not (fuel + 3) a = .ok r ∧ r.normalized ∧ r.value = -a.value - 1 := by
  obtain ⟨r, r1, r2, r3⟩ := sub_assign_spec fuel (op_neg a) (big_integer.of_int 1)
    (op_neg_normalized a ha) one_normalized (fun _ => by rw [one_mag]; omega)
  refine ⟨r, r1, r2, ?_⟩
  rw [r3, op_neg_value a ha, value_one]

/-- Adding one, as `++` and `--` both do. -/
theorem add_one_spec (fuel : Nat) (a : big_integer) (ha : a.normalized) :
    ∃ r, op_add (fuel + 3) a (big_integer.of_int 1) = .ok r ∧ r.normalized ∧
      r.value = a.value + 1 := by
  obtain ⟨r, r1, r2, r3⟩ := add_assign_spec fuel a (big_integer.of_int 1) ha one_normalized
    (fun _ => by rw [one_mag]; omega)
  exact ⟨r, r1, r2, by rw [r3, value_one]⟩

/-- The constructor from `int` on the whole 32-bit range. -/
theorem of_int_spec (v : Int) (hlo : -2147483648 ≤ v) (hhi : v < 2147483648) :
    big_integer.of_int v = ⟨decide (v ≥ 0), [v.natAbs]⟩ ∧
      (big_integer.of_int v).normalized ∧ (big_integer.of_int v).value = v := by
  have hrep : big_integer.of_int v = ⟨decide (v ≥ 0), [v.natAbs]⟩ := by
    unfold big_integer.of_int
    by_cases hmin : v = -2147483648
    · subst hmin; rfl
    · rw [if_neg hmin]
      by_cases hneg : v < 0
      · rw [if_pos hneg]
        have : (-v).toNat % 4294967296 = v.natAbs := by omega
        rw [this]
      · rw [if_neg hneg]
        have : v.toNat % 4294967296 = v.natAbs := by omega
        rw [this]
  refine ⟨hrep, ?_, ?_⟩
  · rw [hrep]
    refine ⟨?_, by simp, ?_, ?_⟩
    · intro d hd
      simp only [List.mem_singleton] at hd
      omega
    · intro h
      simp only [List.getLastD_cons, List.getLastD_nil] at h
      simp [h]
    · intro h
      simp only [List.cons.injEq, and_true] at h
      simp only [decide_eq_true_eq]
      omega
  · rw [hrep, value_mk]
    simp only [mag, Nat.mul_zero, Nat.add_zero, decide_eq_true_eq]
    split <;> omega

/-! ## The bitwise operators -/

theorem getD_set (l : List Nat) (i k v : Nat) :
    (l.set i v).getD k 0 = if i = k ∧ i < l.length then v else l.getD k 0 := by
  induction l generalizing i k with
  | nil => simp
  | cons d ds ih =>
    cases i with
    | zero =>
      cases k with
      | zero => simp
      | succ k => simp
    | succ i =>
      cases k with
      | zero => simp
      | succ k => simpa using ih i k

theorem digit_loop_length (f : Nat → Nat → Nat) (n i : Nat) (dig : List Nat) :
    (digit_loop f n i dig).length = dig.length := by
  induction n generalizing i dig with
  | zero => rfl
  | succ n ih => rw [digit_loop, ih]; simp

/-- The digit loop replaces exactly the digits `i .. i + n - 1`. -/
theorem digit_loop_getD (f : Nat → Nat → Nat) (n i : Nat) (dig : List Nat)
    (h : i + n ≤ dig.length) (k : Nat) :
    (digit_loop f n i dig).getD k 0 =
      if i ≤ k ∧ k < i + n then f k (dig.getD k 0) else dig.getD k 0 := by
  induction n generalizing i dig with
  | zero => rw [digit_loop, if_neg (by omega)]
  | succ n ih =>
    rw [digit_loop, ih (i + 1) _ (by simp; omega), getD_set]
    by_cases h1 : i = k
    · subst h1
      have c1 : ¬ (i + 1 ≤ i ∧ i < i + 1 + n) := by omega
      have c2 : i = i ∧ i < dig.length := ⟨rfl, by omega⟩
      have c3 : i ≤ i ∧ i < i + (n + 1) := by omega
      rw [if_neg c1, if_pos c2, if_pos c3]
    · have c2 : ¬ (i = k ∧ i < dig.length) := fun hh => h1 hh.1
      by_cases h2 : i + 1 ≤ k ∧ k < i + 1 + n
      · have c3 : i ≤ k ∧ k < i + (n + 1) := by omega
        rw [if_pos h2, if_neg c2, if_pos c3]
      · have c3 : ¬ (i ≤ k ∧ k < i + (n + 1)) := by omega
        rw [if_neg h2, if_neg c2, if_neg c3]

theorem digit_loop_lt (f : Nat → Nat → Nat) (hf : ∀ i d, f i d < 4294967296)
    (n i : Nat) (dig : List Nat) (hd : ∀ d ∈ dig, d < 4294967296) :
    ∀ d ∈ digit_loop f n i dig, d < 4294967296 := by
  induction n generalizing i dig with
  | zero => exact hd
  | succ n ih =>
    rw [digit_loop]
    exact ih (i + 1) _ (mem_set_lt dig hd _ _ (hf _ _))

/-- Bit `j` of a magnitude is bit `j % 32` of digit `j / 32`. -/
theorem testBit_mag (l : List Nat) (hl : ∀ d ∈ l, d < 4294967296) (j : Nat) :
    (mag l).testBit j = (l.getD (j / 32) 0).testBit (j % 32) := by
  induction l generalizing j with
  | nil => simp [mag]
  | cons d ds ih =>
    have hd : d < 2 ^ 32 := hl d (List.mem_cons_self _ _)
    have e : mag (d :: ds) = 2 ^ 32 * mag ds + d := by
      simp only [mag]; omega
    rw [e, Nat.testBit_mul_pow_two_add _ hd]
    by_cases hj : j < 32
    · rw [if_pos hj]
      have h1 : j / 32 = 0 := by omega
      have h2 : j % 32 = j := by omega
      rw [h1, h2]; rfl
    · rw [if_neg hj, ih (fun x hx => hl x (List.mem_cons_of_mem _ hx))]
      obtain ⟨q, hq⟩ : ∃ q, j / 32 = q + 1 := ⟨j / 32 - 1, by omega⟩
      have h1 : (j - 32) / 32 = q := by omega
      have h2 : (j - 32) % 32 = j % 32 := by omega
      rw [h1, h2, hq]; rfl

theorem mag_and (x a b : List Nat) (hx : ∀ d ∈ x, d < 4294967296)
    (ha : ∀ d ∈ a, d < 4294967296) (hb : ∀ d ∈ b, d < 4294967296)
    (h : ∀ k, x.getD k 0 = a.getD k 0 &&& b.getD k 0) : mag x = mag a &&& mag b := by
  apply Nat.eq_of_testBit_eq
  intro j
  rw [Nat.testBit_and, testBit_mag x hx, testBit_mag a ha, testBit_mag b hb, h, Nat.testBit_and]

theorem mag_or (x a b : List Nat) (hx : ∀ d ∈ x, d < 4294967296)
    (ha : ∀ d ∈ a, d < 4294967296) (hb : ∀ d ∈ b, d < 4294967296)
    (h : ∀ k, x.getD k 0 = a.getD k 0 ||| b.getD k 0) : mag x = mag a ||| mag b := by
  apply Nat.eq_of_testBit_eq
  intro j
  rw [Nat.testBit_or, testBit_mag x hx, testBit_mag a ha, testBit_mag b hb, h, Nat.testBit_or]

theorem mag_xor (x a b : List Nat) (hx : ∀ d ∈ x, d < 4294967296)
    (ha : ∀ d ∈ a, d < 4294967296) (hb : ∀ d ∈ b, d < 4294967296)
    (h : ∀ k, x.getD k 0 = a.getD k 0 ^^^ b.getD k 0) : mag x = mag a ^^^ mag b := by
  apply Nat.eq_of_testBit_eq
  intro j
  rw [Nat.testBit_xor, testBit_mag x hx, testBit_mag a ha, testBit_mag b hb, h,
    Nat.testBit_xor]

theorem and_lt_word (x y : Nat) (hy : y < 4294967296) : x &&& y < 4294967296 :=
  Nat.and_lt_two_pow x (n := 32) hy

theorem or_lt_word (x y : Nat) (hx : x < 4294967296) (hy : y < 4294967296) :
    x ||| y < 4294967296 :=
  Nat.or_lt_two_pow (n := 32) hx hy

theorem xor_lt_word (x y : Nat) (hx : x < 4294967296) (hy : y < 4294967296) :
    x ^^^ y < 4294967296 :=
  Nat.xor_lt_two_pow (n := 32) hx hy

theorem normalize_sign_true (s : Bool) (l : List Nat) (h : s = true) :
    (big_integer.normalize ⟨s, l⟩).sign = true := by
  unfold big_integer.normalize
  dsimp only
  split
  · rfl
  · exact h

/-- The vector after `dig.resize(rhs.dig.size())`, taken when it is shorter. -/
theorem resized_getD (a b : List Nat) (k : Nat) :
    (if a.length < b.length then a ++ List.replicate (b.length - a.length) 0 else a).getD k 0
      = a.getD k 0 := by
  split
  · by_cases hk : k < a.length
    · rw [List.getD_append _ _ _ _ hk]
    · rw [List.getD_append_right _ _ _ _ (by omega), List.getD_eq_default a 0 (by omega)]
      by_cases hk2 : k - a.length < (List.replicate (b.length - a.length) 0).length
      · rw [List.getD_eq_getElem _ _ hk2]; simp
      · rw [List.getD_eq_default _ _ (by omega)]
  · rfl

theorem resized_length (a b : List Nat) :
    (if a.length < b.length then a ++ List.replicate (b.length - a.length) 0 else a).length
      = max a.length b.length := by
  split
  · simp; omega
  · omega

theorem resized_lt (a b : List Nat) (ha : ∀ d ∈ a, d < 4294967296) :
    ∀ d ∈ (if a.length < b.length then a ++ List.replicate (b.length - a.length) 0 else a),
      d < 4294967296 := by
  split
  · intro d hd
    rcases List.mem_append.1 hd with h | h
    · exact ha d h
    · exact replicate_zero_lt _ d h
  · exact ha

/-- A digit loop over the (resized) left operand `R` that combines digit `k`
of `a` and of `b` with `g`. -/
theorem digit_loop_zip (f : Nat → Nat → Nat) (g : Nat → Nat → Nat) (R a b : List Nat)
    (hfg : ∀ k, k < R.length → f k (R.getD k 0) = g (a.getD k 0) (b.getD k 0))
    (h0 : ∀ k, R.length ≤ k → g (a.getD k 0) (b.getD k 0) = 0) (k : Nat) :
    (digit_loop f R.length 0 R).getD k 0 = g (a.getD k 0) (b.getD k 0) := by
  rw [digit_loop_getD _ _ _ _ (by omega)]
  by_cases hk : 0 ≤ k ∧ k < 0 + R.length
  · rw [if_pos hk, hfg k (by omega)]
  · rw [if_neg hk, h0 k (by omega), List.getD_eq_default R 0 (by omega)]

theorem lt_of_getD_lt (x : List Nat) (h : ∀ k, x.getD k 0 < 4294967296) :
    ∀ d ∈ x, d < 4294967296 := by
  intro d hd
  obtain ⟨k, hk, rfl⟩ := List.getElem_of_mem hd
  rw [← List.getD_eq_getElem _ 0 hk]
  exact h k

theorem and_unfold (a b : big_integer) (hsa : a.sign = true) (hsb : b.sign = true) :
    op_and a b = big_integer.normalize ⟨true, digit_loop (fun i d =>
      (d % 4294967296) &&& (if i < b.dig.length then b.dig.getD i 0 % 4294967296 else 0))
      a.dig.length 0 a.dig⟩ := by
  unfold op_and op_and_assign
  simp only [hsa, hsb, if_true, Nat.one_mul]

theorem or_unfold (a b : big_integer) (hsa : a.sign = true) (hsb : b.sign = true) :
    op_or a b = big_integer.normalize ⟨true, digit_loop (fun i d =>
      d ||| (if i < b.dig.length then b.dig.getD i 0 else 0))
      (if a.dig.length < b.dig.length then
        a.dig ++ List.replicate (b.dig.length - a.dig.length) 0 else a.dig).length 0
      (if a.dig.length < b.dig.length then
        a.dig ++ List.replicate (b.dig.length - a.dig.length) 0 else a.dig)⟩ := by
  unfold op_or op_or_assign
  simp only [hsa, hsb, if_true, bne_self_eq_false, Bool.false_eq_true, if_false,
    beq_self_eq_true]

theorem xor_unfold (a b : big_integer) (hsa : a.sign = true) (hsb : b.sign = true) :
    op_xor a b = big_integer.normalize ⟨true, digit_loop (fun i d =>
      d ^^^ (if i < b.dig.length then b.dig.getD i 0 else 0))
      (if a.dig.length < b.dig.length then
        a.dig ++ List.replicate (b.dig.length - a.dig.length) 0 else a.dig).length 0
      (if a.dig.length < b.dig.length then
        a.dig ++ List.replicate (b.dig.length - a.dig.length) 0 else a.dig)⟩ := by
  unfold op_xor op_xor_assign
  simp only [hsa, hsb, if_true, bne_self_eq_false, Bool.false_eq_true, if_false,
    beq_self_eq_true]

theorem getD_or_default (b : List Nat) (i : Nat) :
    (if i < b.length then b.getD i 0 else 0) = b.getD i 0 := by
  split
  · rfl
  · rw [List.getD_eq_default b 0 (by omega)]

/-- For non-negative operands `&` is the bitwise AND of the magnitudes. -/
theorem and_nonneg_spec (a b : big_integer) (ha : a.normalized) (hb : b.normalized)
    (hsa : a.sign = true) (hsb : b.sign = true) :
    (op_and a b).normalized ∧ (op_and a b).sign = true ∧
      mag (op_and a b).dig = mag a.dig &&& mag b.dig := by
  have hget := digit_loop_zip (fun i d =>
      (d % 4294967296) &&& (if i < b.dig.length then b.dig.getD i 0 % 4294967296 else 0))
    (fun x y => x &&& y) a.dig a.dig b.dig
    (by
      intro k hk
      have h1 := getD_lt a.dig ha.1 k
      have h2 := getD_lt b.dig hb.1 k
      dsimp only
      rw [Nat.mod_eq_of_lt h1, Nat.mod_eq_of_lt h2, getD_or_default])
    (by
      intro k hk
      dsimp only
      rw [List.getD_eq_default a.dig 0 (by omega), Nat.zero_and])
  dsimp only at hget
  have hx := lt_of_getD_lt _ (fun k => by
    rw [hget k]; exact and_lt_word _ _ (getD_lt b.dig hb.1 k))
  rw [and_unfold a b hsa hsb]
  refine ⟨?_, normalize_sign_true _ _ rfl, ?_⟩
  · apply normalize_normalized ⟨true, _⟩ hx
    intro h
    have := congrArg List.length h
    simp only [digit_loop_length, List.length_nil] at this
    have := normalized_length_pos a ha
    omega
  · rw [normalize_mag]
    exact mag_and _ _ _ hx ha.1 hb.1 hget

/-- For non-negative operands `|` is the bitwise OR of the magnitudes. -/
theorem or_nonneg_spec (a b : big_integer) (ha : a.normalized) (hb : b.normalized)
    (hsa : a.sign = true) (hsb : b.sign = true) :
    (op_or a b).normalized ∧ (op_or a b).sign = true ∧
      mag (op_or a b).dig = mag a.dig ||| mag b.dig := by
  have hr := resized_lt a.dig b.dig ha.1
  have hlen := resized_length a.dig b.dig
  have hrg := resized_getD a.dig b.dig
  rw [or_unfold a b hsa hsb]
  generalize (if a.dig.length < b.dig.length then
    a.dig ++ List.replicate (b.dig.length - a.dig.length) 0 else a.dig) = R at hr hlen hrg ⊢
  have hget := digit_loop_zip (fun i d =>
      d ||| (if i < b.dig.length then b.dig.getD i 0 else 0))
    (fun x y => x ||| y) R a.dig b.dig
    (by
      intro k hk
      dsimp only
      rw [getD_or_default, hrg])
    (by
      intro k hk
      dsimp only
      rw [List.getD_eq_default a.dig 0 (by omega), List.getD_eq_default b.dig 0 (by omega)]
      rfl)
  dsimp only at hget
  have hx := lt_of_getD_lt _ (fun k => by
    rw [hget k]; exact or_lt_word _ _ (getD_lt a.dig ha.1 k) (getD_lt b.dig hb.1 k))
  refine ⟨?_, normalize_sign_true _ _ rfl, ?_⟩
  · apply normalize_normalized ⟨true, _⟩ hx
    intro h
    have := congrArg List.length h
    simp only [digit_loop_length, List.length_nil] at this
    have := normalized_length_pos a ha
    omega
  · rw [normalize_mag]
    exact mag_or _ _ _ hx ha.1 hb.1 hget

/-- For non-negative operands `^` is the bitwise XOR of the magnitudes. -/
theorem xor_nonneg_spec (a b : big_integer) (ha : a.normalized) (hb : b.normalized)
    (hsa : a.sign = true) (hsb : b.sign = true) :
    (op_xor a b).normalized ∧ (op_xor a b).sign = true ∧
      mag (op_xor a b).dig = mag a.dig ^^^ mag b.dig := by
  have hr := resized_lt a.dig b.dig ha.1
  have hlen := resized_length a.dig b.dig
  have hrg := resized_getD a.dig b.dig
  rw [xor_unfold a b hsa hsb]
  generalize (if a.dig.length < b.dig.length then
    a.dig ++ List.replicate (b.dig.length - a.dig.length) 0 else a.dig) = R at hr hlen hrg ⊢
  have hget := digit_loop_zip (fun i d =>
      d ^^^ (if i < b.dig.length then b.dig.getD i 0 else 0))
    (fun x y => x ^^^ y) R a.dig b.dig
    (by
      intro k hk
      dsimp only
      rw [getD_or_default, hrg])
    (by
      intro k hk
      dsimp only
      rw [List.getD_eq_default a.dig 0 (by omega), List.getD_eq_default b.dig 0 (by omega)]
      rfl)
  dsimp only at hget
  have hx := lt_of_getD_lt _ (fun k => by
    rw [hget k]; exact xor_lt_word _ _ (getD_lt a.dig ha.1 k) (getD_lt b.dig hb.1 k))
  refine ⟨?_, normalize_sign_true _ _ rfl, ?_⟩
  · apply normalize_normalized ⟨true, _⟩ hx
    intro h
    have := congrArg List.length h
    simp only [digit_loop_length, List.length_nil] at this
    have := normalized_length_pos a ha
    omega
  · rw [normalize_mag]
    exact mag_xor _ _ _ hx ha.1 hb.1 hget

/-! ## No wrap-around in `mult` -/

/-- One pass of the loop of `mult` at a set bit: the accumulation into
`result.first` stays below `2^32` and the loop invariant moves on. -/
theorem mult_step_no_wrap (a b : Nat) (ha : a < 4294967296) (bit : Nat)
    (result : Nat × Nat) (hbit : 1 ≤ bit) (hbit' : bit ≤ 31) (hlo : result.2 < 4294967296)
    (hinv : result.1 * 4294967296 + result.2 = a * (b % 2 ^ bit))
    (hk : b / 2 ^ bit % 2 = 1) :
    result.1 + ((a &&& (2 ^ 32 - 2 ^ (32 - bit))) >>> (32 - bit)
        + (add result.2 (((a &&& (0xFFFFFFFF - (2 ^ 32 - 2 ^ (32 - bit)))) <<< bit)
            % 4294967296)).1) < 4294967296 ∧
      (result.1 + ((a &&& (2 ^ 32 - 2 ^ (32 - bit))) >>> (32 - bit)
        + (add result.2 (((a &&& (0xFFFFFFFF - (2 ^ 32 - 2 ^ (32 - bit)))) <<< bit)
            % 4294967296)).1)) * 4294967296
        + (add result.2 (((a &&& (0xFFFFFFFF - (2 ^ 32 - 2 ^ (32 - bit)))) <<< bit)
            % 4294967296)).2 = a * (b % 2 ^ (bit + 1)) ∧
      (add result.2 (((a &&& (0xFFFFFFFF - (2 ^ 32 - 2 ^ (32 - bit)))) <<< bit)
            % 4294967296)).2 < 4294967296 := by
  have hb : b % 2 ^ (bit + 1) = b % 2 ^ bit + 2 ^ bit * ((b / 2 ^ bit) % 2) := by
    rw [pow_succ, Nat.mod_mul]
  rw [hk, Nat.mul_one] at hb
  have hlt : b % 2 ^ (bit + 1) < 2 ^ (bit + 1) := Nat.mod_lt _ (by positivity)
  have hle : 2 ^ (bit + 1) ≤ 4294967296 := by
    have : (4294967296 : Nat) = 2 ^ 32 := by norm_num
    rw [this]; exact Nat.pow_le_pow_right (by omega) (by omega)
  have hprod : a * (b % 2 ^ (bit + 1)) < 4294967296 * 4294967296 := by
    have h1 : a * (b % 2 ^ (bit + 1)) ≤ a * 4294967296 := Nat.mul_le_mul_left _ (by omega)
    have h2 : a * 4294967296 < 4294967296 * 4294967296 :=
      Nat.mul_lt_mul_of_pos_right ha (by omega)
    omega
  have e0 : (4294967296 : Nat) = 2 ^ 32 := by norm_num
  rw [and_high_mask a (32 - bit) (by rw [← e0]; exact ha) (by omega),
    low_mask bit hbit hbit', Nat.and_pow_two_sub_one_eq_mod, Nat.shiftLeft_eq]
  have hsplit := Nat.div_add_mod a (2 ^ (32 - bit))
  have hpp : 2 ^ (32 - bit) * 2 ^ bit = 4294967296 := by
    rw [← pow_add, Nat.sub_add_cancel (by omega)]; norm_num
  have hrem : a % 2 ^ (32 - bit) < 2 ^ (32 - bit) := Nat.mod_lt _ (by positivity)
  have hlow : a % 2 ^ (32 - bit) * 2 ^ bit < 4294967296 := by
    rw [← hpp]; exact Nat.mul_lt_mul_of_pos_right hrem (by positivity)
  have hshift : a / 2 ^ (32 - bit) * 4294967296 + a % 2 ^ (32 - bit) * 2 ^ bit
      = a * 2 ^ bit := by
    rw [← hpp]
    calc a / 2 ^ (32 - bit) * (2 ^ (32 - bit) * 2 ^ bit)
          + a % 2 ^ (32 - bit) * 2 ^ bit
        = (2 ^ (32 - bit) * (a / 2 ^ (32 - bit)) + a % 2 ^ (32 - bit)) * 2 ^ bit := by
          ring
      _ = a * 2 ^ bit := by rw [hsplit]
  rw [Nat.mod_eq_of_lt hlow, add_spec _ _ hlo hlow]
  dsimp only
  rw [hb, Nat.mul_add] at hprod ⊢
  rw [← hinv, ← hshift] at hprod ⊢
  generalize a / 2 ^ (32 - bit) = H at *
  generalize a % 2 ^ (32 - bit) * 2 ^ bit = L at *
  obtain ⟨r1, r2⟩ := result
  simp only at *
  refine ⟨?_, ?_, ?_⟩ <;> omega

/-- The checked loop of `mult` never reports a wrap-around. -/
theorem mult_loop_checked_spec (a b : Nat) (ha : a < 4294967296) (n bit : Nat)
    (result : Nat × Nat) (hbit : 1 ≤ bit) (hn : bit + n = 32)
    (hlo : result.2 < 4294967296)
    (hinv : result.1 * 4294967296 + result.2 = a * (b % 2 ^ bit)) :
    ∃ r, mult_loop_checked a b n bit (2 ^ 32 - 2 ^ (32 - bit)) result = some r ∧
      r.1 * 4294967296 + r.2 = a * (b % 2 ^ 32) ∧ r.2 < 4294967296 := by
  induction n generalizing bit result with
  | zero =>
    have : bit = 32 := by omega
    subst this
    exact ⟨result, rfl, hinv, hlo⟩
  | succ n ih =>
    rw [mult_loop_checked, high_mask_next bit hbit (by omega)]
    rw [Nat.shiftRight_eq_div_pow, Nat.and_one_is_mod]
    by_cases hk : b / 2 ^ bit % 2 ≠ 0
    · rw [if_pos hk]
      obtain ⟨w1, w2, w3⟩ := mult_step_no_wrap a b ha bit result hbit (by omega) hlo hinv
        (by omega)
      dsimp only
      rw [if_pos w1]
      exact ih (bit + 1) _ (by omega) (by omega) w3 w2
    · rw [if_neg hk]
      apply ih (bit + 1) result (by omega) (by omega) hlo
      have hb : b % 2 ^ (bit + 1) = b % 2 ^ bit + 2 ^ bit * ((b / 2 ^ bit) % 2) := by
        rw [pow_succ, Nat.mod_mul]
      have hk0 : b / 2 ^ bit % 2 = 0 := by omega
      rw [hb, hk0, Nat.mul_zero, Nat.add_zero]
      exact hinv

/-- The checked `mult` returns what `mult` returns: no accumulation wraps. -/
theorem mult_checked_eq (a b : Nat) (ha : a < 4294967296) (hb : b < 4294967296) :
    mult_checked a b = some (mult a b) := by
  obtain ⟨r, h1, h2, h3⟩ := mult_loop_checked_spec a b ha 31 1
    (if b &&& 1 ≠ 0 then (0, a) else (0, 0))
    (by omega) (by omega) (by split <;> simp; omega)
    (by
      rw [Nat.and_one_is_mod]
      by_cases h : b % 2 ≠ 0
      · rw [if_pos h]; simp; rw [show b % 2 = 1 by omega]; simp
      · rw [if_neg h]; simp; right; omega)
  have e : mult_checked a b = mult_loop_checked a b 31 1 (2 ^ 32 - 2 ^ (32 - 1))
      (if b &&& 1 ≠ 0 then (0, a) else (0, 0)) := rfl
  rw [e, h1, mult_spec a b ha hb]
  rw [Nat.mod_eq_of_lt (by omega : b < 2 ^ 32)] at h2
  obtain ⟨r1, r2⟩ := r
  simp only at h2 h3
  rw [← h2]
  simp only [Option.some.injEq, Prod.mk.injEq]
  constructor <;> omega

/-! ## No wrap-around and no out-of-range access in `operator*=` -/

/-- What the checked inner loop returns, the inner loop of `*=` returns for
every budget that is not smaller. -/
theorem mul_inner_of_checked (di : Nat) (rhs : List Nat) (i n : Nat) :
    ∀ (j carry : Nat) (c c' : List Nat) (n' : Nat), n ≤ n' →
      mul_inner_checked di rhs i n j carry c = some c' →
      mul_inner di rhs i n' j carry c = .ok c' ∧ c'.length = c.length := by
  induction n with
  | zero =>
    intro j carry c c' n' _ h
    rw [mul_inner_checked] at h
    split at h
    · cases h
    · rename_i hc
      cases h
      cases n' with
      | zero => rw [mul_inner, if_neg hc]; exact ⟨rfl, rfl⟩
      | succ k => rw [mul_inner, if_neg hc]; exact ⟨rfl, rfl⟩
  | succ n ih =>
    intro j carry c c' n' hn h
    obtain ⟨k, rfl⟩ : ∃ k, n' = k + 1 := ⟨n' - 1, by omega⟩
    rw [mul_inner_checked] at h
    rw [mul_inner]
    split at h
    · rename_i hc
      rw [if_pos hc]
      by_cases hi : i + j < c.length
      · rw [if_pos hi] at h ⊢
        simp only [getD_or_default] at h ⊢
        by_cases w1 : (mult di (rhs.getD j 0)).1 + (add (mult di (rhs.getD j 0)).2 carry).1
            < 4294967296
        · rw [if_pos w1] at h
          by_cases w2 : (mult di (rhs.getD j 0)).1 + (add (mult di (rhs.getD j 0)).2 carry).1
              + (add (add (mult di (rhs.getD j 0)).2 carry).2 (c.getD (i + j) 0)).1
              < 4294967296
          · rw [if_pos w2] at h
            rw [Nat.mod_eq_of_lt w1, Nat.mod_eq_of_lt w2]
            obtain ⟨e1, e2⟩ := ih _ _ _ _ k (by omega) h
            exact ⟨e1, by simpa using e2⟩
          · rw [if_neg w2] at h; cases h
        · rw [if_neg w1] at h; cases h
      · rw [if_neg hi] at h; cases h
    · rename_i hc
      cases h
      rw [if_neg hc]
      exact ⟨rfl, rfl⟩

/-- The checked inner loop returns within `rhs.dig.size() + 1` iterations,
touching only the digits `i .. i + rhs.dig.size()`, as long as digit
`i + rhs.dig.size()` of the accumulator is still zero. -/
theorem mul_inner_checked_spec (di : Nat) (rhs : List Nat) (i : Nat) (hdi : di < 4294967296)
    (hr : ∀ d ∈ rhs, d < 4294967296) (n j carry : Nat) (c : List Nat)
    (hc : ∀ d ∈ c, d < 4294967296) (hcarry : carry < 4294967296)
    (hroom : i + rhs.length < c.length) (hn : n + j = rhs.length + 1)
    (hzero : j ≤ rhs.length → c.getD (i + rhs.length) 0 = 0)
    (hlast : j = rhs.length + 1 → carry = 0) :
    ∃ c', mul_inner_checked di rhs i n j carry c = some c' ∧
      (∀ d ∈ c', d < 4294967296) ∧
      (∀ k, i + rhs.length < k → c'.getD k 0 = c.getD k 0) := by
  induction n generalizing j carry c with
  | zero =>
    refine ⟨c, ?_, hc, fun _ _ => rfl⟩
    rw [mul_inner_checked, if_neg]
    have := hlast (by omega)
    omega
  | succ n ih =>
    by_cases hcond : j < rhs.length ∨ carry ≠ 0
    · have hin : i + j < c.length := by omega
      have h1 := getD_lt rhs hr j
      have h2 := getD_lt c hc (i + j)
      have e : (if j < rhs.length then rhs.getD j 0 else 0) = rhs.getD j 0 :=
        getD_or_default rhs j
      have hp : di * rhs.getD j 0 ≤ 4294967295 * 4294967295 :=
        Nat.mul_le_mul (by omega) (by omega)
      have hnext : j + 1 = rhs.length + 1 →
          (di * rhs.getD j 0 + carry + c.getD (i + j) 0) / 4294967296 = 0 := by
        intro hj
        have hjm : j = rhs.length := by omega
        have z1 : rhs.getD j 0 = 0 := List.getD_eq_default rhs 0 (by omega)
        have z2 : c.getD (i + j) 0 = 0 := by rw [hjm]; exact hzero (by omega)
        rw [z1, z2]
        simp only [Nat.mul_zero, Nat.zero_add, Nat.add_zero]
        omega
      have hstep : mul_inner_checked di rhs i (n + 1) j carry c =
          mul_inner_checked di rhs i n (j + 1)
            ((di * rhs.getD j 0 + carry + c.getD (i + j) 0) / 4294967296)
            (c.set (i + j) ((di * rhs.getD j 0 + carry + c.getD (i + j) 0) % 4294967296)) := by
        rw [mul_inner_checked, if_pos hcond, if_pos hin, e, mult_spec di _ hdi h1]
        dsimp only
        rw [add_spec _ _ (Nat.mod_lt _ (by omega)) hcarry]
        dsimp only
        have w1 : di * rhs.getD j 0 / 4294967296
            + (di * rhs.getD j 0 % 4294967296 + carry) / 4294967296 < 4294967296 := by
          omega
        rw [if_pos w1, add_spec _ _ (Nat.mod_lt _ (by omega)) h2]
        dsimp only
        have w2 : di * rhs.getD j 0 / 4294967296
            + (di * rhs.getD j 0 % 4294967296 + carry) / 4294967296
            + ((di * rhs.getD j 0 % 4294967296 + carry) % 4294967296
              + c.getD (i + j) 0) / 4294967296 < 4294967296 := by
          omega
        rw [if_pos w2]
        generalize di * rhs.getD j 0 = p at *
        generalize c.getD (i + j) 0 = x at *
        congr 1
        · omega
        · congr 1; omega
      rw [hstep]
      obtain ⟨c', e1, e2, e3⟩ := ih (j + 1)
        ((di * rhs.getD j 0 + carry + c.getD (i + j) 0) / 4294967296)
        (c.set (i + j) ((di * rhs.getD j 0 + carry + c.getD (i + j) 0) % 4294967296))
        (mem_set_lt c hc _ _ (Nat.mod_lt _ (by omega))) (by omega) (by simpa using hroom)
        (by omega)
        (by
          intro hj
          rw [getD_set, if_neg (by omega)]
          exact hzero (by omega))
        hnext
      refine ⟨c', e1, e2, ?_⟩
      intro k hk
      rw [e3 k hk, getD_set, if_neg (by omega)]
    · refine ⟨c, ?_, hc, fun _ _ => rfl⟩
      rw [mul_inner_checked, if_neg hcond]

/-- The checked outer loop returns, given an accumulator that is zero from
digit `i + rhs.dig.size()` on. -/
theorem mul_outer_checked_spec (dig rhs : List Nat) (hd : ∀ d ∈ dig, d < 4294967296)
    (hr : ∀ d ∈ rhs, d < 4294967296) (n i : Nat) (c : List Nat)
    (hc : ∀ d ∈ c, d < 4294967296) (hn : i + n = dig.length)
    (hroom : dig.length + rhs.length < c.length)
    (hzero : ∀ k, i + rhs.length ≤ k → c.getD k 0 = 0) :
    ∃ c', mul_outer_checked dig rhs n i c = some c' ∧
      mul_outer dig rhs n i c = .ok c' := by
  induction n generalizing i c with
  | zero => exact ⟨c, rfl, rfl⟩
  | succ n ih =>
    obtain ⟨c1, e1, e2, e3⟩ := mul_inner_checked_spec (dig.getD i 0) rhs i (getD_lt dig hd i)
      hr (rhs.length + 1) 0 0 c hc (by omega) (by omega) (by omega)
      (fun _ => hzero _ (by omega)) (fun h => rfl)
    obtain ⟨f1, f2⟩ := mul_inner_of_checked (dig.getD i 0) rhs i (rhs.length + 1) 0 0 c c1
      (c.length + 1) (by omega) e1
    obtain ⟨c2, g1, g2⟩ := ih (i + 1) c1 e2 (by omega) (by omega)
      (fun k hk => by rw [e3 k (by omega)]; exact hzero k (by omega))
    refine ⟨c2, ?_, ?_⟩
    · rw [mul_outer_checked, e1]; exact g1
    · rw [mul_outer, f1]; exact g2

/-- The checked `*=` returns what `*=` returns. -/
theorem mul_assign_checked_eq (a b : big_integer) (ha : a.well_typed) (hb : b.well_typed) :
    ∃ r, op_mul_assign_checked a b = some r ∧ op_mul_assign a b = .ok r := by
  obtain ⟨c, e1, e2⟩ := mul_outer_checked_spec a.dig b.dig ha hb a.dig.length 0
    (List.replicate (a.dig.length + b.dig.length + 1) 0) (replicate_zero_lt _)
    (by omega) (by simp)
    (fun k _ => by
      by_cases hk : k < (List.replicate (a.dig.length + b.dig.length + 1) 0).length
      · rw [List.getD_eq_getElem _ _ hk]; simp
      · rw [List.getD_eq_default _ _ (by omega)])
  refine ⟨big_integer.normalize ⟨a.sign == b.sign, c⟩, ?_, ?_⟩
  · unfold op_mul_assign_checked
    simp only [e1]
  · unfold op_mul_assign
    simp only [e2]

/-- A normalized value below `2^(32 k)` has at most `k` digits. -/
theorem length_le_of_mag_lt (r : big_integer) (hr : r.normalized) (k : Nat) (hk : 0 < k)
    (h : mag r.dig < 4294967296 ^ k) : r.dig.length ≤ k := by
  by_cases h0 : r.dig = [0]
  · rw [h0]; simpa using hk
  · have h1 := normalized_mag_lower r hr h0
    by_contra hlen
    have h2 : 4294967296 ^ k ≤ 4294967296 ^ (r.dig.length - 1) :=
      Nat.pow_le_pow_right (by omega) (by omega)
    omega

/-! ## Normalization of every result -/

/-- Whatever `+=` and `-=` return is normalized, for every budget. -/
theorem add_sub_normalized (fuel : Nat) :
    ∀ a b : big_integer, a.normalized → b.normalized →
      (∀ r, op_add_assign fuel a b = .ok r → r.normalized) ∧
      (∀ r, op_sub_assign fuel a b = .ok r → r.normalized) := by
  induction fuel with
  | zero =>
    intro a b _ _
    constructor
    · intro r h; rw [op_add_assign] at h; cases h
    · intro r h; rw [op_sub_assign] at h; cases h
  | succ n ih =>
    intro a b ha hb
    constructor
    · intro r h
      by_cases hs : a.sign = b.sign
      · obtain ⟨r', h1, h2, _⟩ := add_assign_same_sign n a b ha.1 hb.1 hs
        rw [h1] at h
        cases h
        exact h2
      · rw [op_add_assign, if_pos (by simpa using hs)] at h
        exact (ih a (op_neg b) ha (op_neg_normalized b hb)).2 r h
    · intro r h
      by_cases hs : a.sign = b.sign
      · rw [op_sub_assign, if_neg (by simp [hs])] at h
        by_cases hsw : ((a.positive && op_lt a b) || (!a.positive && op_gt a b)) = true
        · rw [if_pos hsw] at h
          cases hres : op_sub_assign n b a with
          | error e => rw [hres] at h; cases h
          | ok temp =>
            rw [hres] at h
            cases h
            exact op_neg_normalized temp ((ih b a hb ha).2 temp hres)
        · rw [if_neg hsw] at h
          cases h
          apply normalize_normalized ⟨a.sign, _⟩
          · exact sub_loop_lt a.dig b.dig a.dig.length 0 0 _ (replicate_zero_lt _)
          · intro h0
            have := congrArg List.length h0
            simp only [sub_loop_length, List.length_replicate, List.length_nil] at this
            have := normalized_length_pos a ha
            omega
      · rw [op_sub_assign, if_pos (by simpa using hs)] at h
        exact (ih a (op_neg b) ha (op_neg_normalized b hb)).1 r h

theorem div_normalized (fuel : Nat) (hfuel : 32 ≤ fuel) (a b : big_integer)
    (ha : a.normalized) (hb : b.normalized) (r : big_integer)
    (h : op_div_assign fuel a b = .ok r) : r.normalized := by
  by_cases h0 : mag b.dig = 0
  · have hz := value_zero_eq b hb ((value_eq_zero_iff b).2 h0)
    rw [hz, div_zero_range_error] at h
    cases h
  · obtain ⟨r', h1, h2, _⟩ := div_assign_spec fuel hfuel a b ha hb h0
    rw [h1] at h
    cases h
    exact h2

theorem mod_normalized (fuel : Nat) (hfuel : 32 ≤ fuel) (a b : big_integer)
    (ha : a.normalized) (hb : b.normalized) (r : big_integer)
    (h : op_mod fuel a b = .ok r) : r.normalized := by
  unfold op_mod op_mod_assign op_div at h
  cases hq : op_div_assign fuel a b with
  | error e => rw [hq] at h; cases h
  | ok q =>
    rw [hq] at h
    dsimp only at h
    have hqn := div_normalized fuel hfuel a b ha hb q hq
    obtain ⟨p, p1, p2, _⟩ := op_mul_spec q b hqn.1 hb.1
    rw [p1] at h
    exact (add_sub_normalized fuel a p ha p2).2 r h

theorem digit_loop_wt (f : Nat → Nat → Nat) (R : List Nat) (hR : ∀ d ∈ R, d < 4294967296)
    (hf : ∀ k d, d < 4294967296 → f k d < 4294967296) :
    ∀ d ∈ digit_loop f R.length 0 R, d < 4294967296 := by
  apply lt_of_getD_lt
  intro k
  rw [digit_loop_getD _ _ _ _ (by omega)]
  split
  · exact hf k _ (getD_lt R hR k)
  · exact getD_lt R hR k

theorem word_neg_lt (c : Nat) : (0xFFFFFFFF - c + 1) % 4294967296 < 4294967296 :=
  Nat.mod_lt _ (by omega)

theorem and_normalized (a b : big_integer) (ha : a.normalized) :
    (op_and a b).normalized := by
  unfold op_and op_and_assign
  apply normalize_normalized ⟨a.sign, _⟩
  · apply digit_loop_wt _ _ ha.1
    intro k d _
    apply and_lt_word
    split
    · exact Nat.mod_lt _ (by omega)
    · omega
  · intro h
    have := congrArg List.length h
    simp only [digit_loop_length, List.length_nil] at this
    have := normalized_length_pos a ha
    omega

theorem or_normalized (a b : big_integer) (ha : a.normalized) (hb : b.normalized) :
    (op_or a b).normalized := by
  unfold op_or op_or_assign
  apply normalize_normalized ⟨a.sign == b.sign, _⟩
  · apply digit_loop_wt _ _ (resized_lt a.dig b.dig ha.1)
    intro k d hd
    have hbk := getD_lt b.dig hb.1 k
    dsimp only
    split
    · exact word_neg_lt _
    · apply or_lt_word
      · split
        · exact hd
        · exact word_neg_lt _
      · split
        · split
          · exact hbk
          · exact word_neg_lt _
        · omega
  · intro h
    have := congrArg List.length h
    simp only [digit_loop_length, List.length_nil, resized_length] at this
    have := normalized_length_pos a ha
    omega

theorem xor_normalized (a b : big_integer) (ha : a.normalized) (hb : b.normalized) :
    (op_xor a b).normalized := by
  unfold op_xor op_xor_assign
  apply normalize_normalized ⟨a.sign == b.sign, _⟩
  · apply digit_loop_wt _ _ (resized_lt a.dig b.dig ha.1)
    intro k d hd
    have hbk := getD_lt b.dig hb.1 k
    dsimp only
    split
    · exact word_neg_lt _
    · apply xor_lt_word
      · split
        · exact hd
        · exact word_neg_lt _
      · split
        · split
          · exact hbk
          · exact word_neg_lt _
        · omega
  · intro h
    have := congrArg List.length h
    simp only [digit_loop_length, List.length_nil, resized_length] at this
    have := normalized_length_pos a ha
    omega

theorem two_value : (big_integer.of_int 2).value = 2 := by decide

/-- The shift `a << n` returns `value(a) * 2^n`. -/
theorem shl_spec (n : Nat) (a : big_integer) (ha : a.normalized) :
    ∃ r, op_shl a n = .ok r ∧ r.normalized ∧ r.value = a.value * 2 ^ n := by
  induction n generalizing a with
  | zero => exact ⟨a, rfl, ha, by simp⟩
  | succ n ih =>
    obtain ⟨p, p1, p2, _, p4⟩ := mul_assign_spec a (big_integer.of_int 2) ha.1
      two_normalized.1
    obtain ⟨r, r1, r2, r3⟩ := ih p p2
    refine ⟨r, ?_, r2, ?_⟩
    · rw [op_shl, p1]; exact r1
    · rw [r3, p4, two_value, pow_succ]; ring

theorem of_string_loop_normalized (fuel : Nat) (ds : List Char) :
    ∀ (a r : big_integer), a.normalized → of_string_loop fuel ds a = .ok r → r.normalized := by
  induction ds with
  | nil =>
    intro a r ha h
    rw [of_string_loop] at h
    cases h
    exact ha
  | cons ch rest ih =>
    intro a r ha h
    rw [of_string_loop] at h
    by_cases hd : (!isdigit ch) = true
    · rw [if_pos hd] at h; cases h
    · rw [if_neg hd] at h
      obtain ⟨p, p1, p2, _⟩ := mul_assign_spec a (big_integer.of_int 10) ha.1
        (of_int_nat_normalized 10 (by omega)).1
      rw [p1] at h
      dsimp only at h
      have hdig : isdigit ch = true := by simpa using hd
      have hch := (isdigit_iff ch).1 hdig
      have hcast : ((ch.toNat : Int) - 48) = ((ch.toNat - 48 : Nat) : Int) := by omega
      rw [hcast] at h
      cases hq : op_add_assign fuel p (big_integer.of_int ((ch.toNat - 48 : Nat) : Int)) with
      | error e => rw [hq] at h; cases h
      | ok q =>
        rw [hq] at h
        have hqn := (add_sub_normalized fuel p _ p2
          (of_int_nat_normalized (ch.toNat - 48) (by omega))).1 q hq
        exact ih q r hqn h

/-- Whatever the string constructor returns is normalized. -/
theorem of_string_normalized (fuel : Nat) (s : List Char) (x : big_integer)
    (h : big_integer.of_string fuel s = .ok x) : x.normalized := by
  unfold big_integer.of_string at h
  split at h
  · cases h
  · dsimp only at h
    split at h
    · cases h
    · rename_i a ha
      have hn := of_string_loop_normalized fuel _ _ a (by decide) ha
      cases h
      have hboth : ∀ c : Bool, (if c = true then a else op_neg a).normalized := by
        intro c
        cases c
        · exact op_neg_normalized a hn
        · exact hn
      exact hboth _

theorem neg_one_ediv_two_pow (n : Nat) : (-1 : Int) / 2 ^ n = -1 := by
  have hp : (0 : Int) < 2 ^ n := by positivity
  exact ((Int.ediv_emod_unique (a := -1) (b := 2 ^ n) (r := 2 ^ n - 1) (q := -1) hp).2
    ⟨by ring, by omega, by omega⟩).1

/-- C11: for a normalized `a` (negative values included) and every shift count
`n`, `a >> n` returns (budget at least 32) the normalized value
`floor(value(a) / 2^n)`; in particular `(-1) >> n == -1`. -/
theorem C11_shr_floor (fuel n : Nat) (a : big_integer) (hfuel : 32 ≤ fuel)
    (ha : a.normalized) :
    ∃ r, op_shr fuel a n = .ok r ∧ r.normalized ∧
      r.value = Int.fdiv a.value (2 ^ n) ∧ r.value = a.value / 2 ^ n ∧
      (a.value = -1 → r.value = -1) := by
  obtain ⟨r, r1, r2, r3⟩ := shr_spec fuel hfuel n a ha
  refine ⟨r, r1, r2, ?_, r3, ?_⟩
  · rw [r3, Int.fdiv_eq_ediv _ (by positivity)]
  · intro h
    rw [r3, h, neg_one_ediv_two_pow]

/-- C11, at `(-7) >> 1 == -4`. -/
theorem C11_shr_floor_witness :
    op_shr 32 ⟨false, [7]⟩ 1 = .ok ⟨false, [4]⟩ ∧
    ∃ r, op_shr 32 ⟨false, [7]⟩ 1 = .ok r ∧ r.normalized ∧
      r.value = Int.fdiv (big_integer.mk false [7]).value (2 ^ 1) ∧
      r.value = (big_integer.mk false [7]).value / 2 ^ 1 ∧
      ((big_integer.mk false [7]).value = -1 → r.value = -1) :=
  ⟨by decide, C11_shr_floor 32 1 ⟨false, [7]⟩ (by decide) (by decide)⟩

/-- C12: `a & b` is not the two's-complement AND once an operand is negative:
`(-1) & 5` returns `-5` (the claim says `5`), `(-1) & (-1)` returns
`-4294967295` (the claim says `-1`) and `2^32 & (-1)` returns `0` (the claim
says `2^32`). -/
theorem C12_and_negative_operand :
    op_and ⟨false, [1]⟩ ⟨true, [5]⟩ = ⟨false, [5]⟩ ∧
      op_and ⟨false, [1]⟩ ⟨false, [1]⟩ = ⟨false, [4294967295]⟩ ∧
      op_and ⟨true, [0, 1]⟩ ⟨false, [1]⟩ = ⟨true, [0]⟩ := by
  decide

/-- C13: `a | b` is not the two's-complement OR once an operand is negative:
`(-1) | (-1)` returns `+4294967295` (the claim says `-1`, and a negative
result) and `2^32 | (-1)` returns `-(1 + 4294967295 * 2^32)` (the claim says
`-1`). -/
theorem C13_or_negative_operand :
    op_or ⟨false, [1]⟩ ⟨false, [1]⟩ = ⟨true, [4294967295]⟩ ∧
      op_or ⟨true, [0, 1]⟩ ⟨false, [1]⟩ = ⟨false, [1, 4294967295]⟩ := by
  decide

/-- C14: for a normalized `a`, `~a` returns (budget at least 3) the normalized
value `-value(a) - 1`, and `~(~a)` returns `a` again, so `~(~a) == a`. -/
theorem C14_not_value (fuel : Nat) (a : big_integer) (hfuel : 3 ≤ fuel)
    (ha : a.normalized) :
    ∃ r, op_not fuel a = .ok r ∧ r.normalized ∧ r.value = -a.value - 1 ∧
      op_not fuel r = .ok a ∧ op_eq a a = true := by
  obtain ⟨k, rfl⟩ : ∃ k, fuel = k + 3 := ⟨fuel - 3, by omega⟩
  obtain ⟨r, r1, r2, r3⟩ := not_spec k a ha
  obtain ⟨t, t1, t2, t3⟩ := not_spec k r r2
  have ht : t = a := normalized_ext t a t2 ha (by rw [t3, r3]; omega)
  subst ht
  exact ⟨r, r1, r2, r3, t1, (op_eq_iff t t t2 t2).2 rfl⟩

/-- C14, at `a = 0`, `a = 5` and `a = -1`. -/
theorem C14_not_value_witness :
    op_not 3 ⟨true, [5]⟩ = .ok ⟨false, [6]⟩ ∧ op_not 3 ⟨false, [1]⟩ = .ok ⟨true, [0]⟩ ∧
    ∃ r, op_not 3 ⟨true, [0]⟩ = .ok r ∧ r.normalized ∧
      r.value = -(big_integer.mk true [0]).value - 1 ∧
      op_not 3 r = .ok ⟨true, [0]⟩ ∧ op_eq ⟨true, [0]⟩ ⟨true, [0]⟩ = true :=
  ⟨by decide, by decide, C14_not_value 3 ⟨true, [0]⟩ (by decide) (by decide)⟩

/-- C15: the decrement operators increment: for `a = 5`, `--a` sets `a` to `6`
and returns `6`, and `a--` sets `a` to `6` and returns the old `5`; the claim
says `a` becomes `4`. -/
theorem C15_decrement_increments (fuel : Nat) :
    op_pre_dec (fuel + 1) ⟨true, [5]⟩ = .ok ⟨true, [6]⟩ ∧
      op_post_dec (fuel + 1) ⟨true, [5]⟩ = .ok (⟨true, [6]⟩, ⟨true, [5]⟩) := by
  obtain ⟨r, r1, r2, _, r4⟩ := add_assign_same_sign fuel ⟨true, [5]⟩ (big_integer.of_int 1)
    (by decide) (by decide) (by decide)
  have hv : r.value = (big_integer.mk true [6]).value := by rw [r4]; decide
  have hr : r = ⟨true, [6]⟩ := normalized_ext r _ r2 (by decide) hv
  subst hr
  refine ⟨r1, ?_⟩
  unfold op_post_dec op_pre_inc op_add
  rw [r1]

theorem of_int_checked_eq (v : Int) (hlo : -2147483648 ≤ v) (hhi : v < 2147483648) :
    big_integer.of_int_checked v = some (big_integer.of_int v) := by
  by_cases hmin : v = -2147483648
  · subst hmin; decide
  · unfold big_integer.of_int_checked big_integer.of_int
    simp only [if_neg hmin]
    by_cases hneg : v < 0
    · have h1 : -2147483648 ≤ -v ∧ -v < 2147483648 := by omega
      have h2 : 0 ≤ -v ∧ -v < 4294967296 := by omega
      have h3 : (-v).toNat % 4294967296 = (-v).toNat := by omega
      simp only [if_pos hneg, int_neg_checked, if_pos h1, int_to_uint_checked, if_pos h2, h3]
    · have h2 : 0 ≤ v ∧ v < 4294967296 := by omega
      have h3 : v.toNat % 4294967296 = v.toNat := by omega
      simp only [if_neg hneg, int_to_uint_checked, if_pos h2, h3]

/-- C16: for every 32-bit signed `v`, `big_integer(v)` is the normalized
single-digit value with `sign = (v >= 0)` and digit `|v|`, computed without
overflow: the constructor with its `int` negation, its conversions to
`uint32_t` and its unsigned sum checked returns the same value, whereas the
negation alone overflows at `-2^31`, which the constructor never negates. The
value is `v`, and the negation is normalized with value `-v`. -/
theorem C16_of_int (v : Int) (hlo : -2147483648 ≤ v) (hhi : v < 2147483648) :
    big_integer.of_int v = ⟨decide (v ≥ 0), [v.natAbs]⟩ ∧
      (big_integer.of_int v).normalized ∧ (big_integer.of_int v).value = v ∧
      v.natAbs < 4294967296 ∧
      big_integer.of_int_checked v = some (big_integer.of_int v) ∧
      int_neg_checked (-2147483648) = none ∧
      (v ≠ -2147483648 → int_neg_checked v = some (-v)) ∧
      (v ≠ -2147483648 → -2147483648 ≤ -v ∧ -v < 2147483648) ∧
      (op_neg (big_integer.of_int v)).normalized ∧
      (op_neg (big_integer.of_int v)).value = -v := by
  obtain ⟨h1, h2, h3⟩ := of_int_spec v hlo hhi
  refine ⟨h1, h2, h3, by omega, of_int_checked_eq v hlo hhi, by decide, ?_,
    fun _ => by omega, op_neg_normalized _ h2, ?_⟩
  · intro hne
    unfold int_neg_checked
    rw [if_pos (by omega)]
  · rw [op_neg_value _ h2, h3]

/-- C16, at the most negative value `-2^31`. -/
theorem C16_of_int_witness :
    op_neg (big_integer.of_int (-2147483648)) = ⟨true, [2147483648]⟩ ∧
    big_integer.of_int_checked (-2147483648) = some ⟨false, [2147483648]⟩ ∧
    big_integer.of_int_checked (-5) = some ⟨false, [5]⟩ ∧
    (big_integer.of_int (-2147483648)
        = ⟨decide ((-2147483648 : Int) ≥ 0), [(-2147483648 : Int).natAbs]⟩ ∧
      (big_integer.of_int (-2147483648)).normalized ∧
      (big_integer.of_int (-2147483648)).value = -2147483648 ∧
      (-2147483648 : Int).natAbs < 4294967296 ∧
      big_integer.of_int_checked (-2147483648)
        = some (big_integer.of_int (-2147483648)) ∧
      int_neg_checked (-2147483648) = none ∧
      ((-2147483648 : Int) ≠ -2147483648 →
        int_neg_checked (-2147483648) = some (-(-2147483648))) ∧
      ((-2147483648 : Int) ≠ -2147483648 →
        -2147483648 ≤ -(-2147483648 : Int) ∧ -(-2147483648 : Int) < 2147483648) ∧
      (op_neg (big_integer.of_int (-2147483648))).normalized ∧
      (op_neg (big_integer.of_int (-2147483648))).value = -(-2147483648)) :=
  ⟨by decide, by decide, by decide, C16_of_int (-2147483648) (by decide) (by decide)⟩

/-- C17: normalization is an invariant of the public interface: the
constructors (default, `int`, `uint32_t`, string, copy) and the assignment
produce normalized values, and for normalized operands (budget at least 32)
every value returned by unary `+`, unary `-`, `~`, `+`, `-`, `*`, `/`, `%`, `&`,
`|`, `^`, the shifts and the increment and decrement operators is normalized;
the operators return except `+` and `-` on a negative left and zero right
operand, `/` on a zero divisor, and `%` outside a non-negative dividend with a
non-zero divisor. The constructor from a sign and a digit vector stores its
arguments as they are; it is declared in the header and is not among the
constructions of the public surface. -/
theorem C17_normalization_invariant (fuel : Nat) (a b : big_integer) (hfuel : 32 ≤ fuel)
    (ha : a.normalized) (hb : b.normalized) :
    big_integer.default.normalized ∧
      (∀ v : Int, -2147483648 ≤ v → v < 2147483648 → (big_integer.of_int v).normalized) ∧
      (∀ u : Nat, u < 4294967296 → (big_integer.of_uint u).normalized) ∧
      (∀ s x, big_integer.of_string fuel s = .ok x → x.normalized) ∧
      (big_integer.copy a).normalized ∧
      (op_assign a b).normalized ∧
      (op_pos a).normalized ∧
      (op_neg a).normalized ∧
      (∃ r, op_not fuel a = .ok r ∧ r.normalized) ∧
      (∀ r, op_add fuel a b = .ok r → r.normalized) ∧
      (¬ (a.sign = false ∧ b.value = 0) → ∃ r, op_add fuel a b = .ok r) ∧
      (∀ r, op_sub fuel a b = .ok r → r.normalized) ∧
      (¬ (a.sign = false ∧ b.value = 0) → ∃ r, op_sub fuel a b = .ok r) ∧
      (∃ r, op_mul a b = .ok r ∧ r.normalized) ∧
      (∀ r, op_div fuel a b = .ok r → r.normalized) ∧
      (b.value ≠ 0 → ∃ r, op_div fuel a b = .ok r) ∧
      (∀ r, op_mod fuel a b = .ok r → r.normalized) ∧
      (a.sign = true → b.value ≠ 0 → ∃ r, op_mod fuel a b = .ok r) ∧
      (op_and a b).normalized ∧
      (op_or a b).normalized ∧
      (op_xor a b).normalized ∧
      (∀ n, ∃ r, op_shl a n = .ok r ∧ r.normalized) ∧
      (∀ n, ∃ r, op_shr fuel a n = .ok r ∧ r.normalized) ∧
      (∃ r, op_pre_inc fuel a = .ok r ∧ r.normalized) ∧
      (∃ r, op_post_inc fuel a = .ok (r, a) ∧ r.normalized) ∧
      (∃ r, op_pre_dec fuel a = .ok r ∧ r.normalized) ∧
      (∃ r, op_post_dec fuel a = .ok (r, a) ∧ r.normalized) := by
  obtain ⟨k, rfl⟩ : ∃ k, fuel = k + 3 := ⟨fuel - 3, by omega⟩
  have hbug : ¬ (a.sign = false ∧ b.value = 0) → (a.sign = false → mag b.dig ≠ 0) :=
    fun h hs hm => h ⟨hs, (value_eq_zero_iff b).2 hm⟩
  have hinc := add_one_spec k a ha
  refine ⟨by decide, fun v h1 h2 => (of_int_spec v h1 h2).2.1, of_uint_normalized,
    fun s x h => of_string_normalized _ s x h, ha, hb, ha, op_neg_normalized a ha, ?_,
    (add_sub_normalized _ a b ha hb).1, ?_, (add_sub_normalized _ a b ha hb).2, ?_, ?_,
    fun r h => div_normalized _ hfuel a b ha hb r h, ?_,
    fun r h => mod_normalized _ hfuel a b ha hb r h, ?_,
    and_normalized a b ha, or_normalized a b ha hb, xor_normalized a b ha hb, ?_, ?_,
    ?_, ?_, ?_, ?_⟩
  · obtain ⟨r, r1, r2, _⟩ := not_spec k a ha
    exact ⟨r, r1, r2⟩
  · intro h
    obtain ⟨r, r1, _⟩ := add_assign_spec k a b ha hb (hbug h)
    exact ⟨r, r1⟩
  · intro h
    obtain ⟨r, r1, _⟩ := sub_assign_spec k a b ha hb (hbug h)
    exact ⟨r, r1⟩
  · obtain ⟨r, r1, r2, _⟩ := op_mul_spec a b ha.1 hb.1
    exact ⟨r, r1, r2⟩
  · intro h
    obtain ⟨r, r1, _⟩ := div_assign_spec _ hfuel a b ha hb
      (fun hm => h ((value_eq_zero_iff b).2 hm))
    exact ⟨r, r1⟩
  · intro hs h
    obtain ⟨r, r1, _⟩ := mod_nonneg_spec _ hfuel a b ha hb hs
      (fun hm => h ((value_eq_zero_iff b).2 hm))
    exact ⟨r, r1⟩
  · intro n
    obtain ⟨r, r1, r2, _⟩ := shl_spec n a ha
    exact ⟨r, r1, r2⟩
  · intro n
    obtain ⟨r, r1, r2, _⟩ := shr_spec _ hfuel n a ha
    exact ⟨r, r1, r2⟩
  · obtain ⟨r, r1, r2, _⟩ := hinc
    exact ⟨r, r1, r2⟩
  · obtain ⟨r, r1, r2, _⟩ := hinc
    refine ⟨r, ?_, r2⟩
    unfold op_post_inc op_pre_inc
    rw [r1]
  · obtain ⟨r, r1, r2, _⟩ := hinc
    exact ⟨r, r1, r2⟩
  · obtain ⟨r, r1, r2, _⟩ := hinc
    refine ⟨r, ?_, r2⟩
    unfold op_post_dec op_pre_inc
    rw [r1]

/-- C17, at `a = -5`, `b = 3`. -/
theorem C17_normalization_invariant_witness :
    big_integer.default.normalized ∧
      (∀ v : Int, -2147483648 ≤ v → v < 2147483648 → (big_integer.of_int v).normalized) ∧
      (∀ u : Nat, u < 4294967296 → (big_integer.of_uint u).normalized) ∧
      (∀ s x, big_integer.of_string 32 s = .ok x → x.normalized) ∧
      (big_integer.copy (big_integer.mk false [5])).normalized ∧
      (op_assign (big_integer.mk false [5]) (big_integer.mk true [3])).normalized ∧
      (op_pos (big_integer.mk false [5])).normalized ∧
      (op_neg (big_integer.mk false [5])).normalized ∧
      (∃ r, op_not 32 (big_integer.mk false [5]) = .ok r ∧ r.normalized) ∧
      (∀ r, op_add 32 (big_integer.mk false [5]) (big_integer.mk true [3]) = .ok r → r.normalized) ∧
      (¬ ((big_integer.mk false [5]).sign = false ∧ (big_integer.mk true [3]).value = 0) → ∃ r, op_add 32 (big_integer.mk false [5]) (big_integer.mk true [3]) = .ok r) ∧
      (∀ r, op_sub 32 (big_integer.mk false [5]) (big_integer.mk true [3]) = .ok r → r.normalized) ∧
      (¬ ((big_integer.mk false [5]).sign = false ∧ (big_integer.mk true [3]).value = 0) → ∃ r, op_sub 32 (big_integer.mk false [5]) (big_integer.mk true [3]) = .ok r) ∧
      (∃ r, op_mul (big_integer.mk false [5]) (big_integer.mk true [3]) = .ok r ∧ r.normalized) ∧
      (∀ r, op_div 32 (big_integer.mk false [5]) (big_integer.mk true [3]) = .ok r → r.normalized) ∧
      ((big_integer.mk true [3]).value ≠ 0 → ∃ r, op_div 32 (big_integer.mk false [5]) (big_integer.mk true [3]) = .ok r) ∧
      (∀ r, op_mod 32 (big_integer.mk false [5]) (big_integer.mk true [3]) = .ok r → r.normalized) ∧
      ((big_integer.mk false [5]).sign = true → (big_integer.mk true [3]).value ≠ 0 → ∃ r, op_mod 32 (big_integer.mk false [5]) (big_integer.mk true [3]) = .ok r) ∧
      (op_and (big_integer.mk false [5]) (big_integer.mk true [3])).normalized ∧
      (op_or (big_integer.mk false [5]) (big_integer.mk true [3])).normalized ∧
      (op_xor (big_integer.mk false [5]) (big_integer.mk true [3])).normalized ∧
      (∀ n, ∃ r, op_shl (big_integer.mk false [5]) n = .ok r ∧ r.normalized) ∧
      (∀ n, ∃ r, op_shr 32 (big_integer.mk false [5]) n = .ok r ∧ r.normalized) ∧
      (∃ r, op_pre_inc 32 (big_integer.mk false [5]) = .ok r ∧ r.normalized) ∧
      (∃ r, op_post_inc 32 (big_integer.mk false [5]) = .ok (r, (big_integer.mk false [5])) ∧ r.normalized) ∧
      (∃ r, op_pre_dec 32 (big_integer.mk false [5]) = .ok r ∧ r.normalized) ∧
      (∃ r, op_post_dec 32 (big_integer.mk false [5]) = .ok (r, (big_integer.mk false [5])) ∧ r.normalized) :=
  C17_normalization_invariant 32 ⟨false, [5]⟩ ⟨true, [3]⟩ (by decide) (by decide) (by decide)

/-- C18: for 32-bit `a` and `b`, `mult(a, b)` returns `(high, low)` with
`high * 2^32 + low == a * b`, no accumulation `result.first += high + sum.first`
exceeding 32 bits, and `add(a, b)` returns `(carry, sum)` with `carry` in
`{0, 1}` and `carry * 2^32 + sum == a + b`. -/
theorem C18_mult_add_exact (a b : Nat) (ha : a < 4294967296) (hb : b < 4294967296) :
    (mult a b).1 * 4294967296 + (mult a b).2 = a * b ∧
      (mult a b).1 < 4294967296 ∧ (mult a b).2 < 4294967296 ∧
      mult_checked a b = some (mult a b) ∧
      ((add a b).1 = 0 ∨ (add a b).1 = 1) ∧
      (add a b).1 * 4294967296 + (add a b).2 = a + b ∧ (add a b).2 < 4294967296 := by
  have hp : a * b ≤ 4294967295 * 4294967295 := Nat.mul_le_mul (by omega) (by omega)
  have h1 := add_fst_le a b
  rw [mult_checked_eq a b ha hb, mult_spec a b ha hb]
  rw [add_spec a b ha hb] at h1 ⊢
  dsimp only at h1 ⊢
  refine ⟨by omega, by omega, by omega, rfl, by omega, by omega, by omega⟩

/-- C18, at `a = b = 2^32 - 1`. -/
theorem C18_mult_add_exact_witness :
    mult 4294967295 4294967295 = (4294967294, 1) ∧ add 4294967295 4294967295 = (1, 4294967294) ∧
    ((mult 4294967295 4294967295).1 * 4294967296 + (mult 4294967295 4294967295).2
        = 4294967295 * 4294967295 ∧
      (mult 4294967295 4294967295).1 < 4294967296 ∧
      (mult 4294967295 4294967295).2 < 4294967296 ∧
      mult_checked 4294967295 4294967295 = some (mult 4294967295 4294967295) ∧
      ((add 4294967295 4294967295).1 = 0 ∨ (add 4294967295 4294967295).1 = 1) ∧
      (add 4294967295 4294967295).1 * 4294967296 + (add 4294967295 4294967295).2
        = 4294967295 + 4294967295 ∧
      (add 4294967295 4294967295).2 < 4294967296) :=
  ⟨by decide, by decide, C18_mult_add_exact 4294967295 4294967295 (by decide) (by decide)⟩

/-- C19: for non-negative normalized `a` and `b` of any lengths, `a & b`,
`a | b` and `a ^ b` are normalized and non-negative and their magnitudes are
the bitwise AND, OR and XOR of the two magnitudes. -/
theorem C19_bitwise_nonneg (a b : big_integer) (ha : a.normalized) (hb : b.normalized)
    (hsa : a.sign = true) (hsb : b.sign = true) :
    ((op_and a b).normalized ∧ (op_and a b).sign = true ∧
        mag (op_and a b).dig = mag a.dig &&& mag b.dig) ∧
      ((op_or a b).normalized ∧ (op_or a b).sign = true ∧
        mag (op_or a b).dig = mag a.dig ||| mag b.dig) ∧
      ((op_xor a b).normalized ∧ (op_xor a b).sign = true ∧
        mag (op_xor a b).dig = mag a.dig ^^^ mag b.dig) :=
  ⟨and_nonneg_spec a b ha hb hsa hsb, or_nonneg_spec a b ha hb hsa hsb,
    xor_nonneg_spec a b ha hb hsa hsb⟩

/-- C19, at `a = 5 + 9 * 2^32`, `b = 3`. -/
theorem C19_bitwise_nonneg_witness :
    op_and ⟨true, [5, 9]⟩ ⟨true, [3]⟩ = ⟨true, [1]⟩ ∧
    op_or ⟨true, [5, 9]⟩ ⟨true, [3]⟩ = ⟨true, [7, 9]⟩ ∧
    op_xor ⟨true, [5, 9]⟩ ⟨true, [3]⟩ = ⟨true, [6, 9]⟩ ∧
    (((op_and ⟨true, [5, 9]⟩ ⟨true, [3]⟩).normalized ∧
        (op_and ⟨true, [5, 9]⟩ ⟨true, [3]⟩).sign = true ∧
        mag (op_and ⟨true, [5, 9]⟩ ⟨true, [3]⟩).dig = mag [5, 9] &&& mag [3]) ∧
      ((op_or ⟨true, [5, 9]⟩ ⟨true, [3]⟩).normalized ∧
        (op_or ⟨true, [5, 9]⟩ ⟨true, [3]⟩).sign = true ∧
        mag (op_or ⟨true, [5, 9]⟩ ⟨true, [3]⟩).dig = mag [5, 9] ||| mag [3]) ∧
      ((op_xor ⟨true, [5, 9]⟩ ⟨true, [3]⟩).normalized ∧
        (op_xor ⟨true, [5, 9]⟩ ⟨true, [3]⟩).sign = true ∧
        mag (op_xor ⟨true, [5, 9]⟩ ⟨true, [3]⟩).dig = mag [5, 9] ^^^ mag [3])) :=
  ⟨by decide, by decide, by decide,
    C19_bitwise_nonneg ⟨true, [5, 9]⟩ ⟨true, [3]⟩ (by decide) (by decide) rfl rfl⟩

/-- C20: in `operator*=` on operands of `n` and `m` 32-bit digits (`n + m > 0`)
the inner loop ends within the indices `j = 0 .. m`, every access
`c.dig[i + j]` is inside the accumulator of `n + m + 1` digits and no carry sum
`aMulB.first + temp.first` exceeds 32 bits (the checked loops return what
`operator*=` returns), and the normalized product has at most `n + m` digits. -/
theorem C20_mul_in_range (a b : big_integer) (ha : a.well_typed) (hb : b.well_typed)
    (hlen : 0 < a.dig.length + b.dig.length) :
    ∃ r, op_mul_assign_checked a b = some r ∧ op_mul_assign a b = .ok r ∧
      r.normalized ∧ r.dig.length ≤ a.dig.length + b.dig.length := by
  obtain ⟨r, r1, r2⟩ := mul_assign_checked_eq a b ha hb
  obtain ⟨t, t1, t2, t3, _⟩ := mul_assign_spec a b ha hb
  rw [r2] at t1
  cases t1
  refine ⟨r, r1, r2, t2, ?_⟩
  apply length_le_of_mag_lt r t2 _ hlen
  rw [t3, pow_add]
  have h1 := mag_lt a.dig ha
  have h2 := mag_lt b.dig hb
  have h3 : mag a.dig * mag b.dig ≤ mag a.dig * 4294967296 ^ b.dig.length :=
    Nat.mul_le_mul_left _ (Nat.le_of_lt h2)
  have h4 : mag a.dig * 4294967296 ^ b.dig.length
      < 4294967296 ^ a.dig.length * 4294967296 ^ b.dig.length :=
    Nat.mul_lt_mul_of_pos_right h1 (by positivity)
  omega

/-- C20, at `a = b = 2^64 - 1`. -/
theorem C20_mul_in_range_witness :
    op_mul_assign_checked ⟨true, [4294967295, 4294967295]⟩ ⟨true, [4294967295, 4294967295]⟩
      = some ⟨true, [1, 0, 4294967294, 4294967295]⟩ ∧
    ∃ r, op_mul_assign_checked ⟨true, [4294967295, 4294967295]⟩
        ⟨true, [4294967295, 4294967295]⟩ = some r ∧
      op_mul_assign ⟨true, [4294967295, 4294967295]⟩ ⟨true, [4294967295, 4294967295]⟩
        = .ok r ∧
      r.normalized ∧
      r.dig.length ≤ [4294967295, 4294967295].length + [4294967295, 4294967295].length :=
  ⟨by decide, C20_mul_in_range ⟨true, [4294967295, 4294967295]⟩
    ⟨true, [4294967295, 4294967295]⟩ (by decide) (by decide) (by decide)⟩

end CppCourse
